import Mathlib

/-!
The program cpptexnumber: renumbering of LaTeX labels and references.

A shallow embedding of `src/src/cpptexnumber.cpp`.

* A `std::string` is a `List Char`; a position is a `Nat` and `std::string::npos`
  is `none`.
* `std::map<std::string, std::size_t>` is a list of key/value pairs kept in
  ascending key order (`map_find`, `map_assign`).
* What the program writes to the standard error stream is a list of `Diag`
  events, what it writes to the standard output a list of lines.
* The `while` loops are recursions on a fuel argument.  The loop of
  `build_labels` consumes part of the line at every iteration, so its fuel is
  fixed from the length of the line; the loop of `replace_refs_in_line` need not
  terminate, so the fuel is an explicit argument and running out of it is the
  result `LineResult.timeout`.
* `std::regex_search` is library code.  It is modelled for the regular
  expression built by `build_labels`, for a `pattern_in` in which every
  character stands for itself or is the wildcard `.`.
* The namespace `Old` holds the rewriter of `src/cpptexnumber.cpp`, the
  namespace `Cpp98` the scanner of `src/cpp98texnumber.cpp`.
-/

set_option autoImplicit false

namespace Cpptexnumber

/-! ## Strings -/

/-- The function `std::string::find(str, pos)` on the part of the string that
starts at offset `off`. -/
def find_from (pat : List Char) : List Char → Nat → Option Nat
  | [], off => if pat.isPrefixOf [] then some off else none
  | c :: cs, off =>
    if pat.isPrefixOf (c :: cs) then some off else find_from pat cs (off + 1)

/-- The function `std::string::find(str, pos)`: the first position `≥ pos` at
which `pat` occurs in `s`, `none` for `npos`. -/
def find (s pat : List Char) (pos : Nat) : Option Nat :=
  if s.length < pos then none else find_from pat (s.drop pos) pos

/-- The function `std::string::find(ch, pos)`. -/
def find_char (s : List Char) (ch : Char) (pos : Nat) : Option Nat :=
  find s [ch] pos

/-- The function `std::string::substr(pos, count)`, for `pos ≤ size()`. -/
def substr (s : List Char) (pos count : Nat) : List Char :=
  (s.drop pos).take count

/-- The function `std::string::replace(pos, count, str)`, for `pos ≤ size()`. -/
def replace (s : List Char) (pos count : Nat) (str : List Char) : List Char :=
  s.take pos ++ str ++ (s.drop pos).drop count

/-- The function `std::string::erase(pos)`. -/
def erase (s : List Char) (pos : Nat) : List Char :=
  s.take pos

/-- The function `std::to_string` on a `std::size_t`. -/
def to_string (n : Nat) : List Char :=
  Nat.toDigits 10 n

/-- The test `ref.compare(0, pattern_in.size(), pattern_in) == 0`. -/
def compare_zero (ref pattern_in : List Char) : Bool :=
  ref.take pattern_in.length == pattern_in

/-- The lines that successive calls of `std::getline(input, line)` read. -/
def getlines : List Char → List (List Char)
  | [] => []
  | c :: cs =>
    if c = '\n' then [] :: getlines cs
    else
      match getlines cs with
      | [] => [[c]]
      | l :: ls => (c :: l) :: ls

/-! ## The label table -/

/-- The type `label_idx_map`, with its entries in ascending key order. -/
abbrev Table := List (List Char × Nat)

/-- The member `std::map::find`: the value stored under `k`, `none` for `end()`. -/
def map_find : Table → List Char → Option Nat
  | [], _ => none
  | (k', v') :: t, k => if k = k' then some v' else map_find t k

/-- The assignment `result[k] = v` of `std::map`. -/
def map_assign : Table → List Char → Nat → Table
  | [], k, v => [(k, v)]
  | (k', v') :: t, k, v =>
    if k = k' then (k, v) :: t
    else if k < k' then (k, v) :: (k', v') :: t
    else (k', v') :: map_assign t k v

/-- The keys of a table. -/
def keys (t : Table) : List (List Char) :=
  t.map Prod.fst

/-! ## Diagnostics -/

/-- The messages written to the standard error stream. -/
inductive Diag where
  /-- `PARSING WARNING: Duplicate \label{<label>} on line <line_no>` -/
  | duplicate (label : List Char) (line_no : Nat)
  /-- `PARSING WARNING: Undefined <elem><ref>} on line <line_no>` -/
  | undefined (elem ref : List Char) (line_no : Nat)
  /-- `PARSING ERROR: No matching '}' on line <line_no>` -/
  | no_brace (line_no : Nat)
  /-- `PARSING ERROR: pattern <<pattern_in>> not found` -/
  | not_found (pattern_in : List Char)
  deriving DecidableEq, Repr

/-! ## The regular expression of `build_labels` -/

/-- The text `\label{`. -/
def label_delim : List Char := ['\\', 'l', 'a', 'b', 'e', 'l', '{']

/-- The characters with a meaning of their own in an ECMAScript regular
expression; every other character stands for itself. -/
def regex_special (c : Char) : Bool :=
  c ∈ ['^', '$', '\\', '.', '*', '+', '?', '(', ')', '[', ']', '{', '}', '|']

/-- A prefix made only of characters that are literal in a regular expression. -/
def literal (pattern_in : List Char) : Prop :=
  ∀ c ∈ pattern_in, regex_special c = false

instance (pattern_in : List Char) : Decidable (literal pattern_in) := by
  unfold literal; infer_instance

/-- The wildcard `.` of an ECMAScript regular expression matches every
character but a line terminator. -/
def any_char (c : Char) : Bool :=
  c != '\n' && c != '\r'

/-- One character `p` of `pattern_in` inside the regular expression: the
wildcard when it is `.`, the character itself otherwise. -/
def atom_matches (p c : Char) : Bool :=
  if p = '.' then any_char c else p == c

/-- Matches the characters of `pat`, one for one, at the start of the text:
the text consumed and the text left. -/
def match_atoms : List Char → List Char → Option (List Char × List Char)
  | [], s => some ([], s)
  | _ :: _, [] => none
  | p :: ps, c :: cs =>
    if atom_matches p c then
      match match_atoms ps cs with
      | some (m, r) => some (c :: m, r)
      | none => none
    else none

/-- Matches `.*?\}` at the start of the text: the shortest run of characters
other than line terminators that is followed by a closing brace. -/
def match_lazy : List Char → Option (List Char × List Char)
  | [] => none
  | c :: cs =>
    if c = '}' then some (['}'], cs)
    else if any_char c then
      match match_lazy cs with
      | some (m, r) => some (c :: m, r)
      | none => none
    else none

/-- The result of a successful `std::regex_search`: `str` is the text matched
(the only sub-match, as the expression has no group) and `suffix` the text
after it. -/
structure Match where
  str : List Char
  suffix : List Char
  deriving DecidableEq, Repr

/-- The regular expression `\\label\{` + `pattern_in` + `.*?\}` matched at the
start of the text. -/
def match_here (pattern_in s : List Char) : Option Match :=
  match match_atoms label_delim s with
  | none => none
  | some (m₁, r₁) =>
    match match_atoms pattern_in r₁ with
    | none => none
    | some (m₂, r₂) =>
      match match_lazy r₂ with
      | none => none
      | some (m₃, r₃) => some ⟨m₁ ++ m₂ ++ m₃, r₃⟩

/-- The call `std::regex_search(line, labels, re)`: the match that starts at
the leftmost position at which the expression matches. -/
def regex_search (pattern_in : List Char) : List Char → Option Match
  | [] => match_here pattern_in []
  | c :: cs =>
    match match_here pattern_in (c :: cs) with
    | some m => some m
    | none => regex_search pattern_in cs

/-! ## build_labels -/

/-- The variables of `build_labels` that its loops update, and the warnings
written so far. -/
structure ScanState where
  result : Table
  label_no : Nat
  warnings : List Diag
  deriving DecidableEq, Repr

/-- The body of the `for` loop over the sub-matches, for the one sub-match
`label_content`. -/
def register (st : ScanState) (label_content : List Char) (line_no : Nat) : ScanState :=
  if map_find st.result label_content ≠ none then
    { st with warnings := st.warnings ++ [Diag.duplicate label_content line_no] }
  else
    { st with result := map_assign st.result label_content st.label_no,
              label_no := st.label_no + 1 }

/-- The text `label.str().substr(7, label.str().size() - 8)`. -/
def label_content (m : Match) : List Char :=
  substr m.str 7 (m.str.length - 8)

/-- The loop `while (std::regex_search(line, labels, re))`; `none` when the
fuel runs out before the loop ends. -/
def scan_line (pattern_in : List Char) (line_no : Nat) :
    Nat → List Char → ScanState → Option ScanState
  | 0, _, _ => none
  | fuel + 1, line, st =>
    match regex_search pattern_in line with
    | none => some st
    | some m => scan_line pattern_in line_no fuel m.suffix (register st (label_content m) line_no)

/-- The part of the line that `build_labels` searches. -/
def active (ignore_comments : Bool) (line : List Char) : List Char :=
  if ignore_comments then
    match find_char line '%' 0 with
    | some pos => erase line pos
    | none => line
  else line

/-- The loop over the lines of the input, from line number `line_no` on. -/
def scan_lines (pattern_in : List Char) (ignore_comments : Bool) :
    List (List Char) → Nat → ScanState → Option ScanState
  | [], _, st => some st
  | line :: rest, line_no, st =>
    match scan_line pattern_in line_no ((active ignore_comments line).length + 1)
        (active ignore_comments line) st with
    | none => none
    | some st' => scan_lines pattern_in ignore_comments rest (line_no + 1) st'

/-- The function `build_labels`: the table it returns and the warnings it
writes on the way. -/
def build_labels (input pattern_in : List Char) (ignore_comments : Bool) :
    Option (Table × List Diag) :=
  match scan_lines pattern_in ignore_comments (getlines input) 1 ⟨[], 1, []⟩ with
  | none => none
  | some st => some (st.result, st.warnings)

/-! ## replace_refs_in_line -/

/-- How `replace_refs_in_line` ends: it returns with the line rewritten, it
exits on a missing brace, or the fuel of the model ran out. -/
inductive LineResult where
  | done (line : List Char) (warnings : List Diag)
  | fatal (warnings : List Diag)
  | timeout
  deriving DecidableEq, Repr

/-- The value `end - (start + elem.size())` of type `std::size_t`. -/
def size_sub (a b : Nat) : Nat :=
  if b ≤ a then a - b else 2 ^ 64 - (b - a)

/-- The condition `start > pos_comment`, where `pos_comment` may be `npos`. -/
def beyond (start : Nat) (pos_comment : Option Nat) : Bool :=
  match pos_comment with
  | some p => decide (p < start)
  | none => false

/-- The loop `while (true)` of `replace_refs_in_line` for the delimiter `elem`,
entered with the current `line` and `end`. -/
def replace_loop (elem pattern_in pattern_out : List Char) (labels : Table)
    (line_no : Nat) (pos_comment : Option Nat) :
    Nat → List Char → Nat → List Diag → LineResult
  | 0, _, _, _ => LineResult.timeout
  | fuel + 1, line, end_, warns =>
    match find line elem end_ with
    | none => LineResult.done line warns
    | some start =>
      if beyond start pos_comment then LineResult.done line warns
      else
        match find_char line '}' start with
        | none => LineResult.fatal (warns ++ [Diag.no_brace line_no])
        | some end' =>
          let start_replace := start + elem.length
          let count := size_sub end' (start + elem.length)
          let ref := substr line start_replace count
          match map_find labels ref with
          | some idx =>
            replace_loop elem pattern_in pattern_out labels line_no pos_comment fuel
              (replace line start_replace count (pattern_out ++ to_string idx)) end' warns
          | none =>
            if compare_zero ref pattern_in then
              replace_loop elem pattern_in pattern_out labels line_no pos_comment fuel
                line end' (warns ++ [Diag.undefined elem ref line_no])
            else
              replace_loop elem pattern_in pattern_out labels line_no pos_comment fuel
                line end' warns

/-- The loop `for (auto&& elem : refs)` of `replace_refs_in_line`. -/
def replace_kinds (pattern_in pattern_out : List Char) (labels : Table)
    (line_no : Nat) (pos_comment : Option Nat) (fuel : Nat) :
    List (List Char) → List Char → List Diag → LineResult
  | [], line, warns => LineResult.done line warns
  | elem :: rest, line, warns =>
    match replace_loop elem pattern_in pattern_out labels line_no pos_comment fuel line 0 warns with
    | LineResult.done line' warns' =>
      replace_kinds pattern_in pattern_out labels line_no pos_comment fuel rest line' warns'
    | r => r

/-- The value of `pos_comment`. -/
def comment_pos (ignore_comments : Bool) (line : List Char) : Option Nat :=
  if ignore_comments then find_char line '%' 0 else some line.length

/-- The function `replace_refs_in_line`; each `while` loop may run `fuel`
iterations. -/
def replace_refs_in_line (fuel : Nat) (line pattern_in pattern_out : List Char)
    (labels : Table) (refs : List (List Char)) (line_no : Nat)
    (ignore_comments : Bool) : LineResult :=
  replace_kinds pattern_in pattern_out labels line_no (comment_pos ignore_comments line)
    fuel refs line []

/-! ## main -/

/-- The vector `refs` of `main`. -/
def canonical_refs : List (List Char) :=
  [ ['\\', 'l', 'a', 'b', 'e', 'l', '{'],
    ['\\', 'e', 'q', 'r', 'e', 'f', '{'],
    ['\\', 'r', 'e', 'f', '{'],
    ['\\', 'p', 'a', 'g', 'e', 'r', 'e', 'f', '{'] ]

/-- How a run ends. -/
inductive Status where
  /-- Every line was written. -/
  | success
  /-- The exit after `PARSING ERROR: No matching '}'`. -/
  | fatal_structural (line_no : Nat)
  /-- The exit after `PARSING ERROR: pattern <...> not found`. -/
  | fatal_not_found
  /-- The fuel of the model ran out. -/
  | timeout
  deriving DecidableEq, Repr

/-- What a run leaves behind: the lines on the standard output, the messages
on the standard error stream, and how it ended. -/
structure Run where
  output : List (List Char)
  diagnostics : List Diag
  status : Status
  deriving DecidableEq, Repr

/-- The second pass of `main`: the loop that rewrites and writes the lines,
from line number `line_no` on. -/
def rewrite_lines (fuel : Nat) (pattern_in pattern_out : List Char) (labels : Table)
    (ignore_comments : Bool) : List (List Char) → Nat → List (List Char) → List Diag → Run
  | [], _, out, diags => ⟨out, diags, Status.success⟩
  | line :: rest, line_no, out, diags =>
    match replace_refs_in_line fuel line pattern_in pattern_out labels canonical_refs
        line_no ignore_comments with
    | LineResult.done line' warns =>
      rewrite_lines fuel pattern_in pattern_out labels ignore_comments rest (line_no + 1)
        (out ++ [line']) (diags ++ warns)
    | LineResult.fatal warns => ⟨out, diags ++ warns, Status.fatal_structural line_no⟩
    | LineResult.timeout => ⟨out, diags, Status.timeout⟩

/-- The function `main` from the point where the arguments are read: the whole
input, `pattern_in`, `pattern_out` and the comment flag. -/
def main (fuel : Nat) (input pattern_in pattern_out : List Char) (ignore_comments : Bool) : Run :=
  match build_labels input pattern_in ignore_comments with
  | none => ⟨[], [], Status.timeout⟩
  | some (labels, warns) =>
    if labels.isEmpty then
      ⟨[], warns ++ [Diag.not_found pattern_in], Status.fatal_not_found⟩
    else
      rewrite_lines fuel pattern_in pattern_out labels ignore_comments (getlines input) 1 [] warns

/-! ## The definitions that the scan finds -/

/-- The label contents that the loop of `scan_line` meets on a line, left to
right. -/
def line_defs (pattern_in : List Char) : Nat → List Char → List (List Char)
  | 0, _ => []
  | fuel + 1, line =>
    match regex_search pattern_in line with
    | none => []
    | some m => label_content m :: line_defs pattern_in fuel m.suffix

/-- The label definitions that the scan meets in the lines of the input, in the
order of the scan, each with the number of its line. -/
def defs_of_lines (pattern_in : List Char) (ignore_comments : Bool) :
    List (List Char) → Nat → List (List Char × Nat)
  | [], _ => []
  | line :: rest, line_no =>
    (line_defs pattern_in ((active ignore_comments line).length + 1)
        (active ignore_comments line)).map (fun c => (c, line_no))
      ++ defs_of_lines pattern_in ignore_comments rest (line_no + 1)

/-- The label definitions of an input, in the order of the scan. -/
def definitions (input pattern_in : List Char) (ignore_comments : Bool) :
    List (List Char × Nat) :=
  defs_of_lines pattern_in ignore_comments (getlines input) 1

/-- The state of `build_labels` after the definitions `ds`. -/
def register_all (st : ScanState) (ds : List (List Char × Nat)) : ScanState :=
  ds.foldl (fun s d => register s d.1 d.2) st

/-- The invariant of the loops of `build_labels`: the indices in the table are
the numbers from 1 up to `label_no - 1`, each stored under one key only. -/
structure ScanInv (st : ScanState) : Prop where
  lo : ∀ k i, map_find st.result k = some i → 1 ≤ i ∧ i < st.label_no
  hi : ∀ i, 1 ≤ i → i < st.label_no → ∃ k, map_find st.result k = some i
  inj : ∀ k k' i, map_find st.result k = some i → map_find st.result k' = some i → k = k'
  card : (keys st.result).length + 1 = st.label_no
  nodup : (keys st.result).Nodup

/-! ## The constructs that the rewriter scans -/

/-- The inner texts of the constructs of kind `elem` that a scan of the
unchanged `line` visits from position `end_` on: each occurrence of the
delimiter that is found is closed by the next closing brace, and the search
goes on from that brace. -/
def scanned_from (elem line : List Char) (pos_comment : Option Nat) :
    Nat → Nat → List (List Char)
  | 0, _ => []
  | fuel + 1, end_ =>
    match find line elem end_ with
    | none => []
    | some start =>
      if beyond start pos_comment then []
      else
        match find_char line '}' start with
        | none => []
        | some end' =>
          substr line (start + elem.length) (size_sub end' (start + elem.length)) ::
            scanned_from elem line pos_comment fuel end'

/-- The inner texts of the constructs of kind `elem` that a scan of `line`
visits, left to right. -/
def scanned (elem line : List Char) (pos_comment : Option Nat) : List (List Char) :=
  scanned_from elem line pos_comment (line.length + 1) 0

/-- Whether a scan of the unchanged `line` for `elem` from position `end_` on
comes to an occurrence of the delimiter with no closing brace after it. -/
def unterminated_from (elem line : List Char) (pos_comment : Option Nat) :
    Nat → Nat → Bool
  | 0, _ => false
  | fuel + 1, end_ =>
    match find line elem end_ with
    | none => false
    | some start =>
      if beyond start pos_comment then false
      else
        match find_char line '}' start with
        | none => true
        | some end' => unterminated_from elem line pos_comment fuel end'

/-- The warnings for the inner texts that begin with the prefix. -/
def undefined_warnings (pattern_in elem : List Char) (line_no : Nat)
    (cs : List (List Char)) : List Diag :=
  (cs.filter (fun c => compare_zero c pattern_in)).map
    (fun c => Diag.undefined elem c line_no)

/-- A delimiter that is not empty and does not start with a closing brace. -/
def delimiter_ok (elem : List Char) : Prop :=
  ∃ c cs, elem = c :: cs ∧ c ≠ '}'

/-! ## Sample texts -/

/-- The prefix `eq:`. -/
def pat_eq : List Char := ['e', 'q', ':']

/-- The name `eq:a`. -/
def eq_a : List Char := ['e', 'q', ':', 'a']

/-- The name `eq:b`. -/
def eq_b : List Char := ['e', 'q', ':', 'b']

/-- The text `\ref{`. -/
def ref_delim : List Char := ['\\', 'r', 'e', 'f', '{']

/-- The line `\label{eq:a}`. -/
def label_a : List Char := label_delim ++ eq_a ++ ['}']

/-- The line `\label{eq:b}`. -/
def label_b : List Char := label_delim ++ eq_b ++ ['}']

/-- The two lines `\label{eq:a}\label{eq:b}` and `\label{eq:a}`. -/
def input_aba : List Char := label_a ++ label_b ++ ['\n'] ++ label_a

/-- The two lines `\label{eq:a}` and `\label{eq:a}`. -/
def input_aa : List Char := label_a ++ ['\n'] ++ label_a

/-- The table with the one entry `eq:a -> 1`. -/
def table_a : Table := [(eq_a, 1)]

/-- The line `\ref{eq:missing}`. -/
def ref_missing : List Char :=
  ref_delim ++ ['e', 'q', ':', 'm', 'i', 's', 's', 'i', 'n', 'g'] ++ ['}']

/-- The line `\ref{fig:y}`. -/
def ref_fig_y : List Char := ref_delim ++ ['f', 'i', 'g', ':', 'y'] ++ ['}']

/-- The line `\label{eq:a`, without a closing brace. -/
def label_open : List Char := label_delim ++ pat_eq ++ ['a']

/-- The line `\label{fig:x}`. -/
def label_fig_x : List Char := label_delim ++ ['f', 'i', 'g', ':', 'x'] ++ ['}']

/-- The two lines `\label{eq:b}` and `\label{eq:a`. -/
def input_b_open : List Char := label_b ++ ['\n'] ++ label_open

/-- The name `eq:energy`. -/
def eq_energy : List Char := ['e', 'q', ':', 'e', 'n', 'e', 'r', 'g', 'y']

/-- The table with the one entry `eq:energy -> 1`. -/
def table_energy : Table := [(eq_energy, 1)]

/-- The line `\ref{eq:energy}\ref{eq:energy}`. -/
def two_refs : List Char := ref_delim ++ eq_energy ++ ['}'] ++ ref_delim ++ eq_energy ++ ['}']

/-- The line `\ref{eq:a} % \ref{eq:a}`. -/
def ref_then_comment : List Char :=
  ref_delim ++ eq_a ++ ['}', ' ', '%', ' '] ++ ref_delim ++ eq_a ++ ['}']

/-- The line `\ref{eq:a} % \ref{eq:zz}`. -/
def ref_then_undefined : List Char :=
  ref_delim ++ eq_a ++ ['}', ' ', '%', ' '] ++ ref_delim ++ ['e', 'q', ':', 'z', 'z', '}']

/-- The line `\ref{eq:a} % \ref{eq:`. -/
def ref_then_open : List Char :=
  ref_delim ++ eq_a ++ ['}', ' ', '%', ' '] ++ ref_delim ++ pat_eq

/-- The line `\ref{eq:x % }`. -/
def ref_closed_in_comment : List Char :=
  ref_delim ++ ['e', 'q', ':', 'x', ' ', '%', ' ', '}']

/-- The two lines `\label{eq:b}` and `\label{eq:a % }`. -/
def input_b_comment_brace : List Char :=
  label_b ++ ['\n'] ++ label_delim ++ eq_a ++ [' ', '%', ' ', '}']

/-- The line `\label{eq:energy}\label{eq:x`. -/
def input_energy_open : List Char :=
  label_delim ++ eq_energy ++ ['}'] ++ label_delim ++ pat_eq ++ ['x']

/-! ## The report -/

/-- The type `idx_label_map`, with its entries in ascending index order. -/
abbrev IdxTable := List (Nat × List Char)

/-- The member `std::map::find` of an `idx_label_map`. -/
def idx_find : IdxTable → Nat → Option (List Char)
  | [], _ => none
  | (i', l') :: t, i => if i = i' then some l' else idx_find t i

/-- The assignment `result[i] = l` of an `idx_label_map`. -/
def idx_assign : IdxTable → Nat → List Char → IdxTable
  | [], i, l => [(i, l)]
  | (i', l') :: t, i, l =>
    if i = i' then (i, l) :: t
    else if i < i' then (i, l) :: (i', l') :: t
    else (i', l') :: idx_assign t i l

/-- The function `map_by_value`: the loop over the entries of `labels`, in
their order, each stored under its index. -/
def map_by_value (labels : Table) : IdxTable :=
  labels.foldl (fun result elem => idx_assign result elem.2 elem.1) []

/-- The text ` -> `. -/
def arrow : List Char := [' ', '-', '>', ' ']

/-- The texts that the loop of `log` writes before each `'\n'`, one for every
entry of `map_by_value labels`. -/
def log_entries (labels : Table) (pattern_out : List Char) : List (List Char) :=
  (map_by_value labels).map (fun elem => elem.2 ++ arrow ++ pattern_out ++ to_string elem.1)

/-- The function `log`: the characters it writes to the stream, for every entry
of `map_by_value labels` the text
`elem.second << " -> " << pattern_out << elem.first << '\n'`. -/
def log (labels : Table) (pattern_out : List Char) : List Char :=
  (map_by_value labels).flatMap
    (fun elem => elem.2 ++ arrow ++ pattern_out ++ to_string elem.1 ++ ['\n'])

/-- The characters that `main` writes to the standard output: every line
written, followed by `'\n'`. -/
def stdout_text (r : Run) : List Char :=
  r.output.flatMap (fun l => l ++ ['\n'])

/-! ## The input with its comments cut off -/

/-- The text whose lines are the given lines, each ended by a newline. -/
def unlines (lines : List (List Char)) : List Char :=
  lines.flatMap (fun l => l ++ ['\n'])

/-- The line truncated at its first `%`: the characters before it, all of
them when the line has no `%`. -/
def cut_comment (line : List Char) : List Char :=
  line.takeWhile (fun c => c != '%')

/-- The input in which every line is truncated at its first `%`. -/
def truncate_comments (input : List Char) : List Char :=
  unlines ((getlines input).map cut_comment)

/-! ## The older variant of the rewriter -/

namespace Old

/-- The loop `while (true)` of `replace_line` in `src/cpptexnumber.cpp` for the
delimiter `elem`.  Its messages are recorded as the same events as those of
`replace_refs_in_line`, although their wording is `Undefined reference` and
they go to the standard output. -/
def replace_line_loop (elem pattern_in pattern_out : List Char) (labels : Table)
    (line_no : Nat) : Nat → List Char → Nat → List Diag → LineResult
  | 0, _, _, _ => LineResult.timeout
  | fuel + 1, line, end_, warns =>
    match find line elem end_ with
    | none => LineResult.done line warns
    | some start =>
      match find_char line '}' start with
      | none => LineResult.fatal (warns ++ [Diag.no_brace line_no])
      | some end' =>
        let start_replace := start + elem.length
        let count := size_sub end' (start + elem.length)
        let ref := substr line start_replace count
        match map_find labels ref with
        | some idx =>
          replace_line_loop elem pattern_in pattern_out labels line_no fuel
            (replace line start_replace count (pattern_out ++ to_string idx)) end' warns
        | none =>
          if compare_zero ref pattern_in then
            replace_line_loop elem pattern_in pattern_out labels line_no fuel
              line end' (warns ++ [Diag.undefined elem ref line_no])
          else
            replace_line_loop elem pattern_in pattern_out labels line_no fuel
              line end' warns

/-- The loop over `refs` of `replace_line`. -/
def replace_line_kinds (pattern_in pattern_out : List Char) (labels : Table)
    (line_no : Nat) (fuel : Nat) :
    List (List Char) → List Char → List Diag → LineResult
  | [], line, warns => LineResult.done line warns
  | elem :: rest, line, warns =>
    match replace_line_loop elem pattern_in pattern_out labels line_no fuel line 0 warns with
    | LineResult.done line' warns' =>
      replace_line_kinds pattern_in pattern_out labels line_no fuel rest line' warns'
    | r => r

/-- The function `replace_line` of `src/cpptexnumber.cpp`. -/
def replace_line (fuel : Nat) (line pattern_in pattern_out : List Char) (labels : Table)
    (refs : List (List Char)) (line_no : Nat) : LineResult :=
  replace_line_kinds pattern_in pattern_out labels line_no fuel refs line []

/-- The call `std::getline(ss, line_no_comments, '%')`: the text before the
first `%`. -/
def getline_until : List Char → List Char
  | [] => []
  | c :: cs => if c = '%' then [] else c :: getline_until cs

/-- The body of the loop of `replace_refs` in `src/cpptexnumber.cpp` for one
line, built without `DO_NOT_IGNORE_COMMENTS`: the line that is written. -/
def replace_refs (fuel : Nat) (line pattern_in pattern_out : List Char) (labels : Table)
    (refs : List (List Char)) (line_no : Nat) : LineResult :=
  let line_no_comments := getline_until line
  let comment : List Char :=
    if line = line_no_comments then []
    else '%' :: line.drop (line_no_comments.length + 1)
  match replace_line fuel line_no_comments pattern_in pattern_out labels refs line_no with
  | LineResult.done line' warns => LineResult.done (line' ++ comment) warns
  | r => r

end Old

/-! ## More sample texts -/

/-- The text `\eqref{`. -/
def eqref_delim : List Char := ['\\', 'e', 'q', 'r', 'e', 'f', '{']

/-- The two lines `\ref{eq:a}` and `\label{eq:a}`. -/
def input_forward : List Char := ref_delim ++ eq_a ++ ['}', '\n'] ++ label_a

/-- The line `% \label{eq:a}`. -/
def commented_label : List Char := ['%', ' '] ++ label_a

/-- The line `\ref{eq:a}\ref{eq:a}`. -/
def two_short_refs : List Char := ref_delim ++ eq_a ++ ['}'] ++ ref_delim ++ eq_a ++ ['}']

/-- The replacement `EquationNumber`. -/
def long_replacement : List Char :=
  ['E', 'q', 'u', 'a', 't', 'i', 'o', 'n', 'N', 'u', 'm', 'b', 'e', 'r']

/-- The table with the entries `eq:a -> 2` and `eq:energy -> 1`. -/
def table_energy_a : Table := [(eq_a, 2), (eq_energy, 1)]

/-- The line `\eqref{eq:energy} and \eqref{eq:a}`. -/
def energy_and_a : List Char :=
  eqref_delim ++ eq_energy ++ ['}', ' ', 'a', 'n', 'd', ' '] ++ eqref_delim ++ eq_a ++ ['}']

/-- The line `\eqref{eq:energy} % see \eqref{eq:energy}`. -/
def eqref_then_comment : List Char :=
  eqref_delim ++ eq_energy ++ ['}', ' ', '%', ' ', 's', 'e', 'e', ' '] ++ eqref_delim ++
    eq_energy ++ ['}']

/-- The prefix `eq.`, with the wildcard of regular expressions. -/
def pat_dot : List Char := ['e', 'q', '.']

/-- The replacement `see \ref{eq:zz}`. -/
def see_undefined : List Char :=
  ['s', 'e', 'e', ' '] ++ ref_delim ++ ['e', 'q', ':', 'z', 'z', '}']

/-- The line `\ref{eq:a}`. -/
def ref_a : List Char := ref_delim ++ eq_a ++ ['}']

/-- The two lines `\label{eq:a}` and `\ref{eq:a}`. -/
def input_label_ref : List Char := label_a ++ ['\n'] ++ ref_a

/-- The text `x` written `k` times. -/
def repeat_text (x : List Char) : Nat → List Char
  | 0 => []
  | k + 1 => x ++ repeat_text x k

/-- The text `\ref{see `. -/
def ref_see : List Char := ref_delim ++ ['s', 'e', 'e', ' ']

/-- The replacement `see \ref{eq:a}`. -/
def see_ref_a : List Char := ['s', 'e', 'e', ' '] ++ ref_a

/-- The line `\ref{eq:a}` after `k` replacements with `see \ref{eq:a}` and the
index 1: `\ref{see ` `k` times, `\ref{eq:a}`, and `1}` `k` times. -/
def nested (k : Nat) : List Char :=
  repeat_text ref_see k ++ (ref_a ++ repeat_text ['1', '}'] k)

/-- The two lines `\label{eq:energy}` and `\label{eq:a}`. -/
def input_energy_a : List Char := label_delim ++ eq_energy ++ ['}', '\n'] ++ label_a

/-! ## Lines made of text and constructs -/

/-- A construct of a line: its delimiter and the inner text that stands before
the closing brace. -/
structure Construct where
  delim : List Char
  inner : List Char
  deriving DecidableEq, Repr

/-- The line that starts with the text `t₀` and goes on with constructs, each
followed by a text. -/
def render (t₀ : List Char) : List (Construct × List Char) → List Char
  | [] => t₀
  | (c, t) :: rest => t₀ ++ (c.delim ++ (c.inner ++ '}' :: render t rest))

/-- None of the four delimiters of `main` occurs in the text. -/
def delimiter_free (t : List Char) : Prop :=
  ∀ d ∈ canonical_refs, ¬ d <:+: t

instance (t : List Char) : Decidable (delimiter_free t) := by
  unfold delimiter_free
  infer_instance

/-- Every occurrence of a delimiter in the line starts a construct that is
closed: no delimiter occurs in the texts between the constructs, every construct
has one of the four delimiters of `main`, and its inner text holds no occurrence
of a delimiter and no closing brace. -/
def well_formed (t₀ : List Char) (segs : List (Construct × List Char)) : Prop :=
  delimiter_free t₀ ∧ ∀ p ∈ segs, p.1.delim ∈ canonical_refs ∧ delimiter_free p.1.inner ∧
    '}' ∉ p.1.inner ∧ delimiter_free p.2

instance (t₀ : List Char) (segs : List (Construct × List Char)) :
    Decidable (well_formed t₀ segs) := by
  unfold well_formed
  infer_instance

/-- The construct `b` is the construct `a` with its inner text either kept or
replaced by `pattern_out` and the index that `labels` gives to that inner text;
the text after the construct is the same. -/
def rewritten_once (labels : Table) (pattern_out : List Char)
    (a b : Construct × List Char) : Prop :=
  b.1.delim = a.1.delim ∧ b.2 = a.2 ∧
    (b.1.inner = a.1.inner ∨
      ∃ i, map_find labels a.1.inner = some i ∧ b.1.inner = pattern_out ++ to_string i)

/-- The relation that the scans of the delimiters in `scanned_kinds` keep
between a construct `a` of the line read and the construct `b` that stands in
its place: only a construct of one of these delimiters has a new inner text. -/
def kept (labels : Table) (pattern_out : List Char) (scanned_kinds : List (List Char))
    (a b : Construct × List Char) : Prop :=
  a.1.delim ∈ canonical_refs ∧ delimiter_free a.1.inner ∧ '}' ∉ a.1.inner ∧
    delimiter_free a.2 ∧ b.1.delim = a.1.delim ∧ b.2 = a.2 ∧
    (b.1.inner = a.1.inner ∨
      (a.1.delim ∈ scanned_kinds ∧
        ∃ i, map_find labels a.1.inner = some i ∧ b.1.inner = pattern_out ++ to_string i))

/-- No occurrence of `d` starts in the part `p` of a line at a position from
`e` on, whatever follows `p`. -/
def no_occurrence (d p : List Char) (e : Nat) : Prop :=
  ∀ (x : List Char) (j : Nat), e ≤ j → j < p.length → ¬ d <+: (p ++ x).drop j

/-- The occurrences that the loop `while (true)` of `replace_refs_in_line` for
the delimiter `elem` finds, entered with the current `line` and `end`: every
value of `start` other than `npos`, with the line as it is when
`line.find(elem, end)` returns it. -/
def found_from (elem pattern_out : List Char) (labels : Table) (pos_comment : Option Nat) :
    Nat → List Char → Nat → List (List Char × Nat)
  | 0, _, _ => []
  | fuel + 1, line, end_ =>
    match find line elem end_ with
    | none => []
    | some start =>
      (line, start) ::
        (if beyond start pos_comment then []
         else
          match find_char line '}' start with
          | none => []
          | some end' =>
            let start_replace := start + elem.length
            let count := size_sub end' (start + elem.length)
            let ref := substr line start_replace count
            match map_find labels ref with
            | some idx =>
              found_from elem pattern_out labels pos_comment fuel
                (replace line start_replace count (pattern_out ++ to_string idx)) end'
            | none => found_from elem pattern_out labels pos_comment fuel line end')

/-- The name `E1`. -/
def name_E1 : List Char := ['E', '1']

/-- The name `E2`. -/
def name_E2 : List Char := ['E', '2']

/-- The table of the labels `E2` and `E1`, defined in this order. -/
def table_swap : Table := [(name_E1, 2), (name_E2, 1)]

/-- The text `\begin{equation}`. -/
def begin_equation : List Char :=
  ['\\', 'b', 'e', 'g', 'i', 'n', '{', 'e', 'q', 'u', 'a', 't', 'i', 'o', 'n', '}']

/-- The constructs of the line `\ref{E2} and \ref{E1}`, after the text
`\begin{equation}`. -/
def swap_constructs : List (Construct × List Char) :=
  [(⟨ref_delim, name_E2⟩, [' ', 'a', 'n', 'd', ' ']), (⟨ref_delim, name_E1⟩, [])]

/-- The constructs of the line `\ref{E1} and \ref{E2}`. -/
def swapped_constructs : List (Construct × List Char) :=
  [(⟨ref_delim, name_E1⟩, [' ', 'a', 'n', 'd', ' ']), (⟨ref_delim, name_E2⟩, [])]

/-- The name `xa`. -/
def name_xa : List Char := ['x', 'a']

/-- The name `x\label{E1`. -/
def name_nested : List Char := ['x'] ++ label_delim ++ name_E1

/-- The two lines `\label{xa}` and `\label{x\label{E1}`. -/
def input_nested : List Char :=
  label_delim ++ name_xa ++ ['}', '\n'] ++ (label_delim ++ name_nested ++ ['}'])

/-- The table with the entries `x\label{E1 -> 2` and `xa -> 1`. -/
def table_nested : Table := [(name_nested, 2), (name_xa, 1)]

/-- The line `\ref{x\label{xa}`. -/
def line_nested : List Char := ref_delim ++ ['x'] ++ label_delim ++ name_xa ++ ['}']

/-! ## The definitions of a line of texts and constructs -/

/-- The value of a decimal digit. -/
def digit_value (c : Char) : Nat :=
  c.toNat - 48

/-- The number that a decimal numeral stands for. -/
def decimal_value : List Char → Nat
  | [] => 0
  | c :: cs => digit_value c * 10 ^ cs.length + decimal_value cs

/-- The text before the first closing brace, when the text has one. -/
def take_name : List Char → Option (List Char)
  | [] => none
  | c :: cs => if c = '}' then some [] else (take_name cs).map (fun n => c :: n)

/-- The names of the `\label{...}` definitions of a text, left to right: for
every occurrence of `\label{` that a closing brace follows, the text between it
and the first such brace. -/
def label_names : List Char → List (List Char)
  | [] => []
  | c :: cs =>
    (if label_delim.isPrefixOf (c :: cs) then
      match take_name (cs.drop 6) with
      | some n => [n]
      | none => []
     else []) ++ label_names cs

/-- The names of the `\label{...}` definitions in the active portion of a line:
with `ignore_comments`, in the line truncated at its first `%`. -/
def active_label_names (ignore_comments : Bool) (line : List Char) : List (List Char) :=
  label_names (if ignore_comments then cut_comment line else line)

/-- The line of a text and constructs. -/
def render_line (s : List Char × List (Construct × List Char)) : List Char :=
  render s.1 s.2

/-- The inner texts of the `\label` constructs that stand in the active portion
of a line given as a text and constructs, left to right: with `ignore_comments`,
the first `%` of the line ends the active portion.  On the lines of
`well_formed` these are the names that `active_label_names` reads off the
text. -/
def active_labels (ignore_comments : Bool) :
    List Char → List (Construct × List Char) → List (List Char)
  | _, [] => []
  | t₀, (c, t) :: rest =>
    if ignore_comments = true ∧ ('%' ∈ t₀ ∨ '%' ∈ c.inner) then []
    else
      (if c.delim = label_delim then [c.inner] else []) ++ active_labels ignore_comments t rest

/-- The inner texts of the `\label` constructs in the active portions of
lines. -/
def all_active_labels (ignore_comments : Bool)
    (shapes : List (List Char × List (Construct × List Char))) : List (List Char) :=
  shapes.flatMap (fun s => active_labels ignore_comments s.1 s.2)

/-- The name `b` is the name `a`, kept or replaced by `pattern_out` and the
index of `a`. -/
def renamed (labels : Table) (pattern_out : List Char) (a b : List Char) : Prop :=
  b = a ∨ ∃ i, map_find labels a = some i ∧ b = pattern_out ++ to_string i

/-- The name `a` is not `pattern_out` followed by an index of the table. -/
def fresh (labels : Table) (pattern_out : List Char) (a : List Char) : Prop :=
  ∀ k i, map_find labels k = some i → a ≠ pattern_out ++ to_string i

/-- The line `s'` is the line `s` with the inner text of each construct kept or
replaced once. -/
def rewritten_line (labels : Table) (pattern_out : List Char)
    (s s' : List Char × List (Construct × List Char)) : Prop :=
  s'.1 = s.1 ∧ List.Forall₂ (rewritten_once labels pattern_out) s.2 s'.2

/-- The input `\label{eq:a}` and `\label{E1}` on two lines. -/
def input_foreign : List Char :=
  label_a ++ ['\n'] ++ (label_delim ++ name_E1 ++ ['}'])

/-- The two lines `\begin{equation}\label{eq:a}` and
`\label{fig:x} % \label{eq:a}`. -/
def input_two_namespaces : List Char :=
  begin_equation ++ label_a ++ ['\n'] ++ label_fig_x ++ [' '] ++ commented_label

/-- The texts and constructs of the lines of `input_two_namespaces`. -/
def two_namespaces_shapes : List (List Char × List (Construct × List Char)) :=
  [(begin_equation, [(⟨label_delim, eq_a⟩, [])]),
   ([], [(⟨label_delim, ['f', 'i', 'g', ':', 'x']⟩, [' ', '%', ' ']),
         (⟨label_delim, eq_a⟩, [])])]

/-- The name `E100`. -/
def name_E100 : List Char := ['E', '1', '0', '0']

/-- The line `\label{E100}\label{E1}`. -/
def input_skip : List Char :=
  label_delim ++ name_E100 ++ ['}'] ++ (label_delim ++ name_E1 ++ ['}'])

/-- The two lines `\label{eq:a}` and `\label{eq:b}`. -/
def input_ab : List Char := label_a ++ ['\n'] ++ label_b

/-- The name `x\ref{eq:a`. -/
def name_x_ref_a : List Char := ['x'] ++ ref_delim ++ eq_a

/-- The name `x\ref{E1`. -/
def name_x_ref_E1 : List Char := ['x'] ++ ref_delim ++ name_E1

/-- The three lines `\label{eq:a}`, `\label{x\ref{eq:a}` and
`\label{x\ref{E1}`. -/
def input_nested_names : List Char :=
  label_a ++ ['\n'] ++ (label_delim ++ name_x_ref_a ++ ['}', '\n']) ++
    (label_delim ++ name_x_ref_E1 ++ ['}'])

/-! ## The scanner of `src/cpp98texnumber.cpp` -/

namespace Cpp98

/-- How `build_labels` of `src/cpp98texnumber.cpp` ends: it returns (`result` is
the table, `label_no` the value of the counter), it exits on a missing brace
after the message `PARSING ERROR: No matching '}' on line <line_no>`, or the
fuel of the model ran out. -/
inductive Scan where
  | done (result : Table) (label_no : Nat)
  | fatal (line_no : Nat)
  | timeout
  deriving DecidableEq, Repr

/-- The call `std::getline(iss, line, '%')`: the text before the first `%`. -/
def getline_until : List Char → List Char
  | [] => []
  | c :: cs => if c = '%' then [] else c :: getline_until cs

/-- The loop `while (true)` of `build_labels`, entered with the current `end`,
table and counter. -/
def scan_loop (elem : List Char) (line_no : Nat) :
    Nat → List Char → Nat → Table → Nat → Scan
  | 0, _, _, _, _ => Scan.timeout
  | fuel + 1, line, end_, result, label_no =>
    match find line elem end_ with
    | none => Scan.done result label_no
    | some start =>
      match find line ['}'] start with
      | none => Scan.fatal line_no
      | some end' =>
        let start_label := start + 7
        let count := size_sub end' start_label
        scan_loop elem line_no fuel line end'
          (map_assign result (substr line start_label count) label_no) (label_no + 1)

/-- The loop `while (std::getline(ifile, line))` of `build_labels`, built
without `DO_NOT_IGNORE_COMMENTS`, from line number `line_no` on. -/
def scan_lines (pattern_in : List Char) : List (List Char) → Nat → Table → Nat → Scan
  | [], _, result, label_no => Scan.done result label_no
  | line :: rest, line_no, result, label_no =>
    match scan_loop (label_delim ++ pattern_in) line_no ((getline_until line).length + 1)
        (getline_until line) 0 result label_no with
    | Scan.done result' label_no' => scan_lines pattern_in rest (line_no + 1) result' label_no'
    | r => r

/-- The function `build_labels` of `src/cpp98texnumber.cpp`. -/
def build_labels (input pattern_in : List Char) : Scan :=
  scan_lines pattern_in (getlines input) 1 [] 1

end Cpp98

/-- The line `\label{eq:a\r}`, with a carriage return before the brace. -/
def label_a_cr : List Char := label_delim ++ eq_a ++ ['\r', '}']

/-- The three lines `\ref{eq:energy}\ref{eq:a}`, `\label{eq:energy}` and
`\label{eq:a}`. -/
def input_forward_two : List Char :=
  ref_delim ++ eq_energy ++ ['}'] ++ ref_delim ++ eq_a ++ ['}', '\n'] ++
    (label_delim ++ eq_energy ++ ['}', '\n']) ++ label_a

/-- The line `\label{eq:x % \label{eq:a}`: the first definition is not closed
before the `%`. -/
def label_swallowed : List Char :=
  label_delim ++ ['e', 'q', ':', 'x', ' ', '%', ' '] ++ label_a

/-- The line `% \label{eq:a\r}`, with a carriage return before the brace. -/
def commented_label_cr : List Char := ['%', ' '] ++ label_a_cr

/-- The name `eq:x % \label{eq:a`, the inner text of the line
`label_swallowed` up to its first closing brace. -/
def name_swallowed : List Char :=
  ['e', 'q', ':', 'x', ' ', '%', ' '] ++ label_delim ++ eq_a

/-- The replacement `X`, a newline, `Y`. -/
def pat_two_lines : List Char := ['X', '\n', 'Y']

/-! # Theorems -/

/-! ## Lemmas on the table -/

theorem map_find_assign (t : Table) (k : List Char) (v : Nat) (k2 : List Char) :
    map_find (map_assign t k v) k2 = if k2 = k then some v else map_find t k2 := by
  induction t with
  | nil => simp [map_assign, map_find]
  | cons hd tl ih =>
    obtain ⟨k', v'⟩ := hd
    by_cases h1 : k = k'
    · subst h1
      by_cases h4 : k2 = k <;> simp [map_assign, map_find, h4]
    · by_cases h2 : k < k'
      · by_cases h4 : k2 = k <;> simp [map_assign, map_find, h1, h2, h4]
      · by_cases h4 : k2 = k
        · subst h4
          simp [map_assign, map_find, h1, h2, ih]
        · simp [map_assign, map_find, h1, h2, h4, ih]

theorem mem_keys_iff (t : Table) (k : List Char) :
    k ∈ keys t ↔ map_find t k ≠ none := by
  induction t with
  | nil => simp [keys, map_find]
  | cons hd tl ih =>
    obtain ⟨k', v'⟩ := hd
    by_cases h : k = k'
    · simp [keys, map_find, h]
    · have ih' : k ∈ List.map Prod.fst tl ↔ map_find tl k ≠ none := ih
      simp [keys, map_find, h, ih']

theorem keys_assign_perm (t : Table) (k : List Char) (v : Nat)
    (h : map_find t k = none) : (keys (map_assign t k v)).Perm (k :: keys t) := by
  induction t with
  | nil => simp [map_assign, keys]
  | cons hd tl ih =>
    obtain ⟨k', v'⟩ := hd
    have hne : ¬ k = k' := by
      intro e; simp [map_find, e] at h
    have htl : map_find tl k = none := by
      simpa [map_find, hne] using h
    simp only [map_assign, hne, if_false]
    split_ifs with h2
    · simp [keys]
    · have := ih htl
      simp only [keys, List.map_cons] at this ⊢
      exact (List.Perm.cons k' this).trans (List.Perm.swap k k' _)

/-! ## Lemmas on the regular expression -/

theorem match_atoms_spec (pat : List Char) :
    ∀ (s m r : List Char), match_atoms pat s = some (m, r) →
      s = m ++ r ∧ m.length = pat.length ∧ ∀ r', match_atoms pat (m ++ r') = some (m, r') := by
  induction pat with
  | nil =>
    intro s m r h
    simp [match_atoms] at h
    obtain ⟨rfl, rfl⟩ := h
    simp [match_atoms]
  | cons p ps ih =>
    intro s m r h
    cases s with
    | nil => simp [match_atoms] at h
    | cons c cs =>
      simp only [match_atoms] at h
      split at h
      · rename_i hpc
        split at h
        · rename_i m' r' hm
          simp only [Option.some.injEq, Prod.mk.injEq] at h
          obtain ⟨rfl, rfl⟩ := h
          obtain ⟨h1, h2, h3⟩ := ih cs m' r' hm
          refine ⟨by simp [h1], by simp [h2], ?_⟩
          intro r''
          simp [match_atoms, hpc, h3 r'']
        · simp at h
      · simp at h

theorem match_atoms_literal (pat : List Char) (hp : ∀ p ∈ pat, p ≠ '.') :
    ∀ (s m r : List Char), match_atoms pat s = some (m, r) → m = pat := by
  induction pat with
  | nil =>
    intro s m r h
    simp [match_atoms] at h
    exact h.1
  | cons p ps ih =>
    intro s m r h
    cases s with
    | nil => simp [match_atoms] at h
    | cons c cs =>
      simp only [match_atoms] at h
      split at h
      · rename_i hpc
        split at h
        · rename_i m' r' hm
          simp only [Option.some.injEq, Prod.mk.injEq] at h
          obtain ⟨rfl, rfl⟩ := h
          have hp' : p ≠ '.' := hp p (by simp)
          have hc : p = c := by
            simpa [atom_matches, hp'] using hpc
          have := ih (fun q hq => hp q (by simp [hq])) cs m' r' hm
          simp [hc, this]
        · simp at h
      · simp at h

theorem match_lazy_spec :
    ∀ (s m r : List Char), match_lazy s = some (m, r) →
      s = m ++ r ∧ (∃ inner, m = inner ++ ['}']) ∧
        ∀ r', match_lazy (m ++ r') = some (m, r') := by
  intro s
  induction s with
  | nil => intro m r h; simp [match_lazy] at h
  | cons c cs ih =>
    intro m r h
    simp only [match_lazy] at h
    split at h
    · rename_i hc
      simp only [Option.some.injEq, Prod.mk.injEq] at h
      obtain ⟨rfl, rfl⟩ := h
      subst hc
      refine ⟨by simp, ⟨[], by simp⟩, ?_⟩
      intro r'
      simp [match_lazy]
    · rename_i hc
      split at h
      · rename_i hany
        split at h
        · rename_i m' r' hm
          simp only [Option.some.injEq, Prod.mk.injEq] at h
          obtain ⟨rfl, rfl⟩ := h
          obtain ⟨h1, ⟨inner, h2⟩, h3⟩ := ih m' r' hm
          refine ⟨by simp [h1], ⟨c :: inner, by simp [h2]⟩, ?_⟩
          intro r''
          simp [match_lazy, hc, hany, h3 r'']
        · simp at h
      · simp at h

theorem label_delim_no_dot : ∀ p ∈ label_delim, p ≠ '.' := by
  decide

/-- What a match of the regular expression at the start of a text looks like. -/
theorem match_here_spec (pattern_in s : List Char) (m : Match)
    (h : match_here pattern_in s = some m) :
    ∃ c, m.str = label_delim ++ c ++ ['}'] ∧ s = m.str ++ m.suffix ∧
      label_content m = c ∧ match_here pattern_in m.str = some ⟨m.str, []⟩ := by
  unfold match_here at h
  split at h
  · simp at h
  · rename_i m₁ r₁ h₁
    split at h
    · simp at h
    · rename_i m₂ r₂ h₂
      split at h
      · simp at h
      · rename_i m₃ r₃ h₃
        simp only [Option.some.injEq] at h
        subst h
        obtain ⟨e₁, _, x₁⟩ := match_atoms_spec _ _ _ _ h₁
        have l₁ := match_atoms_literal _ label_delim_no_dot _ _ _ h₁
        obtain ⟨e₂, _, x₂⟩ := match_atoms_spec _ _ _ _ h₂
        obtain ⟨e₃, ⟨inner, i₃⟩, x₃⟩ := match_lazy_spec _ _ _ h₃
        subst l₁
        refine ⟨m₂ ++ inner, ?_, ?_, ?_, ?_⟩
        · simp [i₃]
        · simp [e₁, e₂, e₃]
        · have e : List.take (m₂.length + inner.length) (m₂ ++ (inner ++ ['}'])) = m₂ ++ inner := by
            rw [← List.append_assoc, List.take_append_of_le_length (by simp)]
            exact List.take_of_length_le (by simp)
          simpa [label_content, substr, i₃, label_delim] using e
        · have y₁ := x₁ (m₂ ++ m₃)
          have y₂ := x₂ m₃
          have y₃ := x₃ []
          simp only [List.append_nil] at y₃
          simp only [match_here, List.append_assoc, y₁, y₂, y₃]

/-- What the match found by `regex_search` looks like. -/
theorem regex_search_spec (pattern_in : List Char) :
    ∀ (s : List Char) (m : Match), regex_search pattern_in s = some m →
      ∃ pre c, s = pre ++ m.str ++ m.suffix ∧ m.str = label_delim ++ c ++ ['}'] ∧
        label_content m = c ∧ regex_search pattern_in m.str = some ⟨m.str, []⟩ := by
  intro s
  induction s with
  | nil =>
    intro m h
    simp only [regex_search] at h
    obtain ⟨c, h1, h2, _, _⟩ := match_here_spec _ _ _ h
    rw [h1] at h2
    simp [label_delim] at h2
  | cons a as ih =>
    intro m h
    simp only [regex_search] at h
    split at h
    · rename_i m' hm
      simp only [Option.some.injEq] at h
      subst h
      obtain ⟨c, h1, h2, h3, h4⟩ := match_here_spec _ _ _ hm
      refine ⟨[], c, by simpa using h2, h1, h3, ?_⟩
      have hstr : m'.str = '\\' :: (['l', 'a', 'b', 'e', 'l', '{'] ++ c ++ ['}']) := by
        rw [h1]; simp [label_delim]
      rw [hstr] at h4 ⊢
      simp only [regex_search, h4]
    · obtain ⟨pre, c, h1, h2, h3, h4⟩ := ih m h
      exact ⟨a :: pre, c, by simp [h1], h2, h3, h4⟩

theorem regex_search_suffix_lt (pattern_in s : List Char) (m : Match)
    (h : regex_search pattern_in s = some m) : m.suffix.length < s.length := by
  obtain ⟨pre, c, h1, h2, _, _⟩ := regex_search_spec _ _ _ h
  rw [h1, h2]
  simp
  omega

/-! ## The scan as a fold over the definitions it finds -/

theorem register_all_append (st : ScanState) (ds es : List (List Char × Nat)) :
    register_all st (ds ++ es) = register_all (register_all st ds) es := by
  simp [register_all, List.foldl_append]

theorem register_all_cons (st : ScanState) (d : List Char × Nat) (ds : List (List Char × Nat)) :
    register_all st (d :: ds) = register_all (register st d.1 d.2) ds := by
  simp [register_all]

/-- With more fuel than the line has characters the loop of `scan_line` ends,
having registered the definitions of the line in turn. -/
theorem scan_line_eq (pattern_in : List Char) (line_no : Nat) :
    ∀ (fuel : Nat) (line : List Char) (st : ScanState), line.length < fuel →
      scan_line pattern_in line_no fuel line st =
        some (register_all st ((line_defs pattern_in fuel line).map (fun c => (c, line_no)))) := by
  intro fuel
  induction fuel with
  | zero => intro line st h; omega
  | succ f ih =>
    intro line st h
    simp only [scan_line, line_defs]
    cases hm : regex_search pattern_in line with
    | none => simp [register_all]
    | some m =>
      have hlt := regex_search_suffix_lt _ _ _ hm
      simp only [List.map_cons, register_all_cons]
      exact ih m.suffix _ (by omega)

theorem scan_lines_eq (pattern_in : List Char) (ignore_comments : Bool) :
    ∀ (lines : List (List Char)) (line_no : Nat) (st : ScanState),
      scan_lines pattern_in ignore_comments lines line_no st =
        some (register_all st (defs_of_lines pattern_in ignore_comments lines line_no)) := by
  intro lines
  induction lines with
  | nil => intro line_no st; simp [scan_lines, defs_of_lines, register_all]
  | cons line rest ih =>
    intro line_no st
    simp only [scan_lines, defs_of_lines]
    rw [scan_line_eq _ _ _ _ _ (Nat.lt_succ_self _)]
    simp only [register_all_append]
    exact ih _ _

/-- The function `build_labels` always returns: its result is the state reached
by registering the definitions of the input in the order of the scan. -/
theorem build_labels_eq (input pattern_in : List Char) (ignore_comments : Bool) :
    build_labels input pattern_in ignore_comments =
      some ((register_all ⟨[], 1, []⟩ (definitions input pattern_in ignore_comments)).result,
            (register_all ⟨[], 1, []⟩ (definitions input pattern_in ignore_comments)).warnings) := by
  simp only [build_labels, definitions, scan_lines_eq]

/-! ## The invariant of the scan -/

theorem scanInv_init : ScanInv ⟨[], 1, []⟩ := by
  constructor <;> simp [map_find, keys]
  intro i h1 h2; omega

theorem register_dup (st : ScanState) (c : List Char) (n : Nat)
    (h : map_find st.result c ≠ none) :
    register st c n = { st with warnings := st.warnings ++ [Diag.duplicate c n] } := by
  simp [register, h]

theorem register_new (st : ScanState) (c : List Char) (n : Nat)
    (h : map_find st.result c = none) :
    register st c n = { st with result := map_assign st.result c st.label_no,
                                label_no := st.label_no + 1 } := by
  simp [register, h]

theorem scanInv_register (st : ScanState) (c : List Char) (n : Nat) (inv : ScanInv st) :
    ScanInv (register st c n) := by
  by_cases h : map_find st.result c = none
  · rw [register_new _ _ _ h]
    constructor
    · intro k i hk
      simp only [map_find_assign] at hk
      show 1 ≤ i ∧ i < st.label_no + 1
      split at hk
      · simp only [Option.some.injEq] at hk
        have := inv.card
        omega
      · have := inv.lo k i hk
        omega
    · intro i h1 h2
      simp only [map_find_assign]
      by_cases hi : i = st.label_no
      · exact ⟨c, by simp [hi]⟩
      · obtain ⟨k, hk⟩ := inv.hi i h1 (by simp only at h2; omega)
        refine ⟨k, ?_⟩
        have : k ≠ c := by
          intro e; rw [e, h] at hk; simp at hk
        simp [this, hk]
    · intro k k' i hk hk'
      simp only [map_find_assign] at hk hk'
      split at hk
      · split at hk'
        · simp_all
        · simp only [Option.some.injEq] at hk
          have := inv.lo k' i hk'
          omega
      · split at hk'
        · simp only [Option.some.injEq] at hk'
          have := inv.lo k i hk
          omega
        · exact inv.inj k k' i hk hk'
    · have hp := (keys_assign_perm st.result c st.label_no h).length_eq
      have := inv.card
      simp only [List.length_cons] at hp
      simp only
      omega
    · have hp := keys_assign_perm st.result c st.label_no h
      refine hp.nodup_iff.mpr ?_
      refine List.nodup_cons.mpr ⟨?_, inv.nodup⟩
      rw [mem_keys_iff]
      simp [h]
  · rw [register_dup _ _ _ h]
    exact ⟨inv.lo, inv.hi, inv.inj, inv.card, inv.nodup⟩

theorem scanInv_register_all (ds : List (List Char × Nat)) :
    ∀ (st : ScanState), ScanInv st → ScanInv (register_all st ds) := by
  induction ds with
  | nil => intro st inv; simpa [register_all] using inv
  | cons d ds ih =>
    intro st inv
    rw [register_all_cons]
    exact ih _ (scanInv_register st d.1 d.2 inv)

/-- An index once assigned is kept. -/
theorem register_keeps (st : ScanState) (c : List Char) (n : Nat) (k : List Char) (i : Nat)
    (h : map_find st.result k = some i) : map_find (register st c n).result k = some i := by
  by_cases hc : map_find st.result c = none
  · rw [register_new _ _ _ hc]
    simp only [map_find_assign]
    have : k ≠ c := by
      intro e; rw [e, hc] at h; simp at h
    simp [this, h]
  · rw [register_dup _ _ _ hc]
    exact h

theorem register_all_keeps (ds : List (List Char × Nat)) :
    ∀ (st : ScanState) (k : List Char) (i : Nat), map_find st.result k = some i →
      map_find (register_all st ds).result k = some i := by
  induction ds with
  | nil => intro st k i h; simpa [register_all] using h
  | cons d ds ih =>
    intro st k i h
    rw [register_all_cons]
    exact ih _ k i (register_keeps st d.1 d.2 k i h)

/-- A definition met by the scan is in the table afterwards. -/
theorem register_mem (st : ScanState) (c : List Char) (n : Nat) :
    ∃ i, map_find (register st c n).result c = some i := by
  by_cases hc : map_find st.result c = none
  · rw [register_new _ _ _ hc]
    exact ⟨st.label_no, by simp [map_find_assign]⟩
  · rw [register_dup _ _ _ hc]
    cases h : map_find st.result c with
    | none => exact absurd h hc
    | some i => exact ⟨i, rfl⟩

theorem register_all_mem (ds : List (List Char × Nat)) :
    ∀ (st : ScanState) (k : List Char), k ∈ ds.map Prod.fst →
      ∃ i, map_find (register_all st ds).result k = some i := by
  induction ds with
  | nil => intro st k h; simp at h
  | cons d ds ih =>
    intro st k h
    rw [register_all_cons]
    simp only [List.map_cons, List.mem_cons] at h
    rcases h with h | h
    · obtain ⟨i, hi⟩ := register_mem st d.1 d.2
      exact ⟨i, register_all_keeps ds _ k i (by rw [h]; exact hi)⟩
    · exact ih _ k h

/-- The keys of the table are keys it had before or definitions met since. -/
theorem register_all_keys (ds : List (List Char × Nat)) :
    ∀ (st : ScanState) (k : List Char), map_find (register_all st ds).result k ≠ none →
      map_find st.result k ≠ none ∨ k ∈ ds.map Prod.fst := by
  induction ds with
  | nil => intro st k h; left; simpa [register_all] using h
  | cons d ds ih =>
    intro st k h
    rw [register_all_cons] at h
    rcases ih _ k h with h' | h'
    · by_cases hc : map_find st.result d.1 = none
      · rw [register_new _ _ _ hc] at h'
        simp only [map_find_assign] at h'
        by_cases hk : k = d.1
        · right; simp [hk]
        · left; simpa [hk] using h'
      · rw [register_dup _ _ _ hc] at h'
        left; exact h'
    · right; simp [h']

/-! ## Lemmas on `find` -/

theorem find_from_some (pat : List Char) :
    ∀ (s : List Char) (off r : Nat), find_from pat s off = some r →
      ∃ k, r = off + k ∧ k ≤ s.length ∧ pat <+: s.drop k ∧
        ∀ j, j < k → ¬ pat <+: s.drop j := by
  intro s
  induction s with
  | nil =>
    intro off r h
    simp only [find_from] at h
    split at h
    · rename_i hp
      simp only [Option.some.injEq] at h
      exact ⟨0, by omega, by simp, by simpa [List.isPrefixOf_iff_prefix] using hp, by simp⟩
    · simp at h
  | cons c cs ih =>
    intro off r h
    simp only [find_from] at h
    split at h
    · rename_i hp
      simp only [Option.some.injEq] at h
      exact ⟨0, by omega, by simp, by simpa [List.isPrefixOf_iff_prefix] using hp, by simp⟩
    · rename_i hp
      obtain ⟨k, h1, h2, h3, h4⟩ := ih _ _ h
      refine ⟨k + 1, by omega, by simp; omega, by simpa using h3, ?_⟩
      intro j hj
      cases j with
      | zero => simpa [List.isPrefixOf_iff_prefix] using hp
      | succ j => simpa using h4 j (by omega)

theorem find_from_none (pat : List Char) :
    ∀ (s : List Char) (off : Nat), find_from pat s off = none →
      ∀ j, j ≤ s.length → ¬ pat <+: s.drop j := by
  intro s
  induction s with
  | nil =>
    intro off h j hj
    simp only [find_from] at h
    split at h
    · simp at h
    · rename_i hp
      simp only [List.length_nil, Nat.le_zero] at hj
      subst hj
      simpa [List.isPrefixOf_iff_prefix] using hp
  | cons c cs ih =>
    intro off h j hj
    simp only [find_from] at h
    split at h
    · simp at h
    · rename_i hp
      cases j with
      | zero => simpa [List.isPrefixOf_iff_prefix] using hp
      | succ j => simpa using ih _ h j (by simpa using hj)

/-- A position returned by `find` is the first occurrence from `pos` on. -/
theorem find_some (s pat : List Char) (pos r : Nat) (h : find s pat pos = some r) :
    pos ≤ r ∧ r ≤ s.length ∧ pat <+: s.drop r ∧
      ∀ j, pos ≤ j → j < r → ¬ pat <+: s.drop j := by
  unfold find at h
  split at h
  · simp at h
  · rename_i hpos
    obtain ⟨k, h1, h2, h3, h4⟩ := find_from_some _ _ _ _ h
    simp only [List.length_drop] at h2
    subst h1
    refine ⟨by omega, by omega, ?_, ?_⟩
    · simpa [List.drop_drop, Nat.add_comm] using h3
    · intro j hj1 hj2
      have := h4 (j - pos) (by omega)
      simpa [List.drop_drop, Nat.add_sub_cancel' hj1, Nat.add_comm] using this

/-- When `find` returns `npos` the text does not occur from `pos` on. -/
theorem find_none (s pat : List Char) (pos : Nat) (h : find s pat pos = none) :
    ∀ j, pos ≤ j → j ≤ s.length → ¬ pat <+: s.drop j := by
  intro j hj1 hj2
  unfold find at h
  split at h
  · omega
  · have := find_from_none _ _ _ h (j - pos) (by simp; omega)
    simpa [List.drop_drop, Nat.add_sub_cancel' hj1, Nat.add_comm] using this

theorem find_from_char_some (ch : Char) :
    ∀ (s : List Char) (off r : Nat), find_from [ch] s off = some r →
      off ≤ r ∧ ch ∉ s.take (r - off) := by
  intro s
  induction s with
  | nil => intro off r h; simp [find_from, List.isPrefixOf] at h
  | cons c cs ih =>
    intro off r h
    simp only [find_from] at h
    split at h
    · simp only [Option.some.injEq] at h
      subst h
      simp
    · rename_i hp
      obtain ⟨h1, h2⟩ := ih _ _ h
      have hc : ¬ ch = c := by
        intro e; apply hp; simp [List.isPrefixOf, e]
      refine ⟨by omega, ?_⟩
      have e : r - off = (r - (off + 1)) + 1 := by omega
      rw [e, List.take_succ_cons]
      simp [hc, h2]

theorem find_from_char_none (ch : Char) :
    ∀ (s : List Char) (off : Nat), find_from [ch] s off = none → ch ∉ s := by
  intro s
  induction s with
  | nil => intro off h; simp
  | cons c cs ih =>
    intro off h
    simp only [find_from] at h
    split at h
    · simp at h
    · rename_i hp
      have hc : ¬ ch = c := by
        intro e; apply hp; simp [List.isPrefixOf, e]
      simp [hc, ih _ h]

/-- The part of a line that the scan searches has no `%` when comments are
ignored. -/
theorem active_no_comment (line : List Char) : '%' ∉ active true line := by
  simp only [active, if_true, find_char, find]
  simp only [Nat.not_lt_zero, if_false, List.drop_zero]
  cases h : find_from ['%'] line 0 with
  | none => simpa using find_from_char_none _ _ _ h
  | some pos =>
    have := (find_from_char_some _ _ _ _ h).2
    simpa [erase] using this

theorem active_subset (ignore_comments : Bool) (line : List Char) :
    ∀ x ∈ active ignore_comments line, x ∈ line := by
  intro x hx
  unfold active at hx
  split at hx
  · split at hx
    · exact List.mem_of_mem_take hx
    · exact hx
  · exact hx

/-! ## Lemmas on the definitions found by the scan -/

theorem regex_search_nil (pattern_in : List Char) : regex_search pattern_in [] = none := by
  simp [regex_search, match_here, match_atoms, label_delim]

/-- Every definition found on a line is found again, alone, in the text
`\label{` + name + `}`, and is made of characters of the line. -/
theorem line_defs_ok (pattern_in : List Char) :
    ∀ (fuel : Nat) (s c : List Char), c ∈ line_defs pattern_in fuel s →
      regex_search pattern_in (label_delim ++ c ++ ['}']) =
          some ⟨label_delim ++ c ++ ['}'], []⟩ ∧
        ∀ x ∈ c, x ∈ s := by
  intro fuel
  induction fuel with
  | zero => intro s c h; simp [line_defs] at h
  | succ f ih =>
    intro s c h
    simp only [line_defs] at h
    split at h
    · simp at h
    · rename_i m hm
      obtain ⟨pre, c', h1, h2, h3, h4⟩ := regex_search_spec _ _ _ hm
      simp only [List.mem_cons] at h
      rcases h with h | h
      · rw [h3] at h
        subst h
        rw [h2] at h4
        refine ⟨h4, ?_⟩
        intro x hx
        rw [h1, h2]
        simp [hx]
      · obtain ⟨g1, g2⟩ := ih _ _ h
        refine ⟨g1, ?_⟩
        intro x hx
        rw [h1]
        simp [g2 x hx]

/-- The definitions of a line lie in it from left to right, in the order of the
list: the line is made of the texts `\label{` + name + `}` of its definitions,
each after a gap, and of a rest in which the expression does not match. -/
theorem line_defs_textual (pattern_in : List Char) :
    ∀ (fuel : Nat) (line : List Char), line.length < fuel →
      ∃ (gaps : List (List Char)) (tail : List Char),
        gaps.length = (line_defs pattern_in fuel line).length ∧
        line = (List.zipWith (fun g c => g ++ label_delim ++ c ++ ['}']) gaps
          (line_defs pattern_in fuel line)).flatten ++ tail ∧
        regex_search pattern_in tail = none := by
  intro fuel
  induction fuel with
  | zero => intro line h; omega
  | succ f ih =>
    intro line h
    simp only [line_defs]
    cases hm : regex_search pattern_in line with
    | none => exact ⟨[], line, by simp, by simp, hm⟩
    | some m =>
      obtain ⟨pre, c, h1, h2, h3, _⟩ := regex_search_spec _ _ _ hm
      have hlt := regex_search_suffix_lt _ _ _ hm
      obtain ⟨gaps, tail, g1, g2, g3⟩ := ih m.suffix (by omega)
      refine ⟨pre :: gaps, tail, by simp [g1], ?_, g3⟩
      simp only [List.zipWith_cons_cons, List.flatten_cons, h3]
      rw [List.append_assoc, ← g2, h1, h2]
      simp

theorem defs_of_lines_ok (pattern_in : List Char) (ignore_comments : Bool) :
    ∀ (lines : List (List Char)) (line_no : Nat) (d : List Char × Nat),
      d ∈ defs_of_lines pattern_in ignore_comments lines line_no →
        regex_search pattern_in (label_delim ++ d.1 ++ ['}']) =
            some ⟨label_delim ++ d.1 ++ ['}'], []⟩ ∧
          (ignore_comments = true → '%' ∉ d.1) := by
  intro lines
  induction lines with
  | nil => intro line_no d h; simp [defs_of_lines] at h
  | cons line rest ih =>
    intro line_no d h
    simp only [defs_of_lines, List.mem_append, List.mem_map] at h
    rcases h with ⟨c, hc, rfl⟩ | h
    · obtain ⟨g1, g2⟩ := line_defs_ok _ _ _ _ hc
      refine ⟨g1, ?_⟩
      intro hic hmem
      subst hic
      exact active_no_comment line (g2 _ hmem)
    · exact ih _ _ h

theorem defs_of_lines_append (pattern_in : List Char) (ignore_comments : Bool) :
    ∀ (l₁ l₂ : List (List Char)) (line_no : Nat),
      defs_of_lines pattern_in ignore_comments (l₁ ++ l₂) line_no =
        defs_of_lines pattern_in ignore_comments l₁ line_no ++
          defs_of_lines pattern_in ignore_comments l₂ (line_no + l₁.length) := by
  intro l₁
  induction l₁ with
  | nil => intro l₂ line_no; simp [defs_of_lines]
  | cons line rest ih =>
    intro l₂ line_no
    have e : line_no + 1 + rest.length = line_no + (rest.length + 1) := by omega
    show _ ++ defs_of_lines pattern_in ignore_comments (rest ++ l₂) (line_no + 1) = _
    rw [ih]
    simp only [defs_of_lines, List.append_assoc, List.length_cons, e]

/-- The only definition of the line `\label{` + name + `}` of a name already
found by the scan is that name. -/
theorem defs_of_single (pattern_in : List Char) (ignore_comments : Bool) (X : List Char)
    (line_no : Nat)
    (h1 : regex_search pattern_in (label_delim ++ X ++ ['}']) =
      some ⟨label_delim ++ X ++ ['}'], []⟩)
    (h2 : ignore_comments = true → '%' ∉ X) :
    defs_of_lines pattern_in ignore_comments [label_delim ++ X ++ ['}']] line_no =
      [(X, line_no)] := by
  have hact : active ignore_comments (label_delim ++ X ++ ['}']) = label_delim ++ X ++ ['}'] := by
    cases ignore_comments with
    | false => simp [active]
    | true =>
      have hX := h2 rfl
      simp only [active, if_true, find_char, find]
      simp only [Nat.not_lt_zero, if_false, List.drop_zero]
      cases h : find_from ['%'] (label_delim ++ X ++ ['}']) 0 with
      | none => rfl
      | some pos =>
        obtain ⟨k, e, hk, hpre, _⟩ := find_from_some _ _ _ _ h
        exfalso
        have hmem : '%' ∈ List.drop k (label_delim ++ X ++ ['}']) := by
          obtain ⟨t, ht⟩ := hpre
          rw [← ht]; simp
        have := List.mem_of_mem_drop hmem
        simp [label_delim, hX] at this
  have hcontent : label_content ⟨label_delim ++ X ++ ['}'], []⟩ = X := by
    simp [label_content, substr, label_delim]
  have hnil : ∀ f, line_defs pattern_in f [] = [] := by
    intro f
    cases f <;> simp [line_defs, regex_search_nil]
  simp only [defs_of_lines, hact, List.append_nil]
  rw [line_defs]
  simp only [h1, hcontent, hnil, List.map_cons, List.map_nil]

/-! ## The scanner: index density, order, duplicates -/

/-- C3 (index density): for every input, either comment mode and every literal
prefix, `build_labels` returns a table whose keys are pairwise distinct, whose
indices are exactly the numbers 1, ..., N for N the number of keys, and in which
no two keys share an index. -/
theorem build_labels_index_density (input pattern_in : List Char) (ignore_comments : Bool)
    (_hlit : literal pattern_in) :
    ∃ t w, build_labels input pattern_in ignore_comments = some (t, w) ∧
      (keys t).Nodup ∧
      (∀ i, (∃ k, map_find t k = some i) ↔ 1 ≤ i ∧ i ≤ (keys t).length) ∧
      (∀ k k' i, map_find t k = some i → map_find t k' = some i → k = k') := by
  have inv := scanInv_register_all (definitions input pattern_in ignore_comments) _ scanInv_init
  refine ⟨_, _, build_labels_eq input pattern_in ignore_comments, inv.nodup, ?_, inv.inj⟩
  intro i
  have hc := inv.card
  constructor
  · rintro ⟨k, hk⟩
    have := inv.lo k i hk
    omega
  · rintro ⟨h1, h2⟩
    exact inv.hi i h1 (by omega)

/-- The input `\label{eq:a}\label{eq:b}` / `\label{eq:a}` with the prefix `eq:`
is an instance of C3. -/
theorem build_labels_index_density_witness :
    literal pat_eq ∧
    ∃ t w, build_labels input_aba pat_eq true = some (t, w) ∧
      (keys t).Nodup ∧
      (∀ i, (∃ k, map_find t k = some i) ↔ 1 ≤ i ∧ i ≤ (keys t).length) ∧
      (∀ k k' i, map_find t k = some i → map_find t k' = some i → k = k') :=
  ⟨by decide, build_labels_index_density input_aba pat_eq true (by decide)⟩

/-- C4 (order preservation): for every input and literal prefix, when the scan
finds a definition of `A` before the first definition of `B` (on an earlier
line, or further left on the same line), the index of `A` in the returned table
is smaller than the index of `B`; and every definition that the scan finds,
also the second and later ones of a line, has an index in the table. -/
theorem build_labels_order (input pattern_in : List Char) (ignore_comments : Bool)
    (_hlit : literal pattern_in) (A B : List Char) (n : Nat)
    (p q : List (List Char × Nat))
    (hsplit : definitions input pattern_in ignore_comments = p ++ (B, n) :: q)
    (hA : A ∈ p.map Prod.fst) (hB : B ∉ p.map Prod.fst) :
    ∃ t w, build_labels input pattern_in ignore_comments = some (t, w) ∧
      (∃ i j, map_find t A = some i ∧ map_find t B = some j ∧ i < j) ∧
      (∀ d ∈ definitions input pattern_in ignore_comments, ∃ i, map_find t d.1 = some i) := by
  refine ⟨_, _, build_labels_eq input pattern_in ignore_comments, ?_, ?_⟩
  · rw [hsplit, register_all_append, register_all_cons]
    have inv := scanInv_register_all p _ scanInv_init
    obtain ⟨i, hi⟩ := register_all_mem p ⟨[], 1, []⟩ A hA
    have hnone : map_find (register_all ⟨[], 1, []⟩ p).result B = none := by
      by_contra hne
      rcases register_all_keys p _ B hne with h | h
      · simp [map_find] at h
      · exact hB h
    refine ⟨i, (register_all ⟨[], 1, []⟩ p).label_no, ?_, ?_, (inv.lo A i hi).2⟩
    · exact register_all_keeps q _ A i (register_keeps _ B n A i hi)
    · apply register_all_keeps q
      show map_find (register (register_all ⟨[], 1, []⟩ p) B n).result B = _
      rw [register_new _ _ _ hnone]
      simp [map_find_assign]
  · intro d hd
    exact register_all_mem _ _ d.1 (List.mem_map_of_mem Prod.fst hd)

/-- The input `\label{eq:a}\label{eq:b}` / `\label{eq:a}` with the prefix `eq:`
is an instance of C4: `eq:a` is defined before `eq:b` on line 1. -/
theorem build_labels_order_witness :
    literal pat_eq ∧
    definitions input_aba pat_eq true = [(eq_a, 1)] ++ (eq_b, 1) :: [(eq_a, 2)] ∧
    eq_a ∈ [(eq_a, 1)].map Prod.fst ∧ eq_b ∉ [(eq_a, 1)].map Prod.fst ∧
    ∃ t w, build_labels input_aba pat_eq true = some (t, w) ∧
      (∃ i j, map_find t eq_a = some i ∧ map_find t eq_b = some j ∧ i < j) ∧
      (∀ d ∈ definitions input_aba pat_eq true, ∃ i, map_find t d.1 = some i) :=
  ⟨by decide, by decide, by decide, by decide,
    build_labels_order input_aba pat_eq true (by decide) eq_a eq_b 1
      [(eq_a, 1)] [(eq_a, 2)] (by decide) (by decide) (by decide)⟩

/-- C5 (duplicate handling): for every input and literal prefix, when the name
`X` is in the table of the input, the input with the line `\label{X}` appended
gets the same table, the same warnings followed by the one duplicate-label
warning for `X` on the appended line, and `build_labels` returns. -/
theorem build_labels_duplicate (input input' pattern_in : List Char) (ignore_comments : Bool)
    (_hlit : literal pattern_in) (X : List Char) (t : Table) (w : List Diag) (i : Nat)
    (hlines : getlines input' = getlines input ++ [label_delim ++ X ++ ['}']])
    (hres : build_labels input pattern_in ignore_comments = some (t, w))
    (hX : map_find t X = some i) :
    build_labels input' pattern_in ignore_comments =
      some (t, w ++ [Diag.duplicate X ((getlines input).length + 1)]) := by
  rw [build_labels_eq] at hres ⊢
  simp only [Option.some.injEq, Prod.mk.injEq] at hres
  obtain ⟨ht, hw⟩ := hres
  have hmem : X ∈ (definitions input pattern_in ignore_comments).map Prod.fst := by
    have hne : map_find (register_all ⟨[], 1, []⟩
        (definitions input pattern_in ignore_comments)).result X ≠ none := by
      rw [ht, hX]; simp
    rcases register_all_keys _ _ X hne with h | h
    · simp [map_find] at h
    · exact h
  obtain ⟨d, hd, hdX⟩ := List.mem_map.mp hmem
  obtain ⟨ok1, ok2⟩ := defs_of_lines_ok _ _ _ _ d hd
  rw [hdX] at ok1 ok2
  have hdefs : definitions input' pattern_in ignore_comments =
      definitions input pattern_in ignore_comments ++ [(X, (getlines input).length + 1)] := by
    simp only [definitions, hlines, defs_of_lines_append]
    rw [defs_of_single _ _ X _ ok1 ok2, Nat.add_comm]
  rw [hdefs, register_all_append]
  have hdup : map_find (register_all ⟨[], 1, []⟩
      (definitions input pattern_in ignore_comments)).result X ≠ none := by
    rw [ht, hX]; simp
  rw [register_all_cons]
  simp only [register_all, List.foldl_nil]
  rw [← register_all, register_dup _ _ _ hdup]
  simp [ht, hw]

/-- Scenario 3, an instance of C5: the input `\label{eq:a}` / `\label{eq:a}`
with the prefix `eq:` gives the table with the one entry `eq:a -> 1` and one
duplicate warning for line 2. -/
theorem build_labels_duplicate_witness :
    literal pat_eq ∧
    getlines input_aa = getlines label_a ++ [label_delim ++ eq_a ++ ['}']] ∧
    build_labels label_a pat_eq true = some ([(eq_a, 1)], []) ∧
    map_find [(eq_a, 1)] eq_a = some 1 ∧
    build_labels input_aa pat_eq true =
      some ([(eq_a, 1)], [] ++ [Diag.duplicate eq_a ((getlines label_a).length + 1)]) :=
  ⟨by decide, by decide, by decide, by decide,
    build_labels_duplicate label_a input_aa pat_eq true (by decide) eq_a [(eq_a, 1)] [] 1
      (by decide) (by decide) (by decide)⟩

/-! ## The rewriter on a line without a rewritable construct -/

theorem find_char_none_not_mem (line : List Char) (ch : Char) (pos : Nat)
    (h : find_char line ch pos = none) : ch ∉ line.drop pos := by
  unfold find_char find at h
  split at h
  · rename_i hlt
    rw [List.drop_eq_nil_of_le (by omega)]
    simp
  · exact find_from_char_none _ _ _ h

/-- The closing brace found for an occurrence of a delimiter lies after the
start of the occurrence and inside the line. -/
theorem scan_progress (elem line : List Char) (helem : delimiter_ok elem)
    (e s e' : Nat) (h1 : find line elem e = some s) (h2 : find_char line '}' s = some e') :
    e < e' ∧ e' < line.length := by
  obtain ⟨c, cs, rfl, hc⟩ := helem
  obtain ⟨a1, _, a3, _⟩ := find_some _ _ _ _ h1
  obtain ⟨b1, b2, b3, _⟩ := find_some _ _ _ _ h2
  have hlt : e' < line.length := by
    by_contra hge
    rw [List.drop_eq_nil_of_le (by omega)] at b3
    simp at b3
  refine ⟨?_, hlt⟩
  by_contra hle
  have hse : s = e' := by omega
  subst hse
  obtain ⟨t1, ht1⟩ := a3
  obtain ⟨t2, ht2⟩ := b3
  rw [← ht1] at ht2
  simp at ht2
  exact hc ht2.1.symm

/-- The scan of a line on which no scanned construct is a key of the table:
the line is left as it is, a warning is written for every scanned inner text
that begins with the prefix, and the scan ends with the fatal error exactly
when it comes to a delimiter with no closing brace. -/
theorem replace_loop_no_key (elem pattern_in pattern_out : List Char) (labels : Table)
    (line_no : Nat) (pos_comment : Option Nat) (line : List Char)
    (helem : delimiter_ok elem) :
    ∀ (f g e : Nat) (w : List Diag), e ≤ line.length → line.length < f + e →
      line.length < g + e →
      (∀ c ∈ scanned_from elem line pos_comment g e, map_find labels c = none) →
      replace_loop elem pattern_in pattern_out labels line_no pos_comment f line e w =
        if unterminated_from elem line pos_comment g e then
          LineResult.fatal (w ++ undefined_warnings pattern_in elem line_no
            (scanned_from elem line pos_comment g e) ++ [Diag.no_brace line_no])
        else
          LineResult.done line (w ++ undefined_warnings pattern_in elem line_no
            (scanned_from elem line pos_comment g e)) := by
  intro f
  induction f with
  | zero => intro g e w h1 h2; omega
  | succ f ih =>
    intro g e w h1 h2 h3 hk
    cases g with
    | zero => omega
    | succ g =>
      simp only [replace_loop, scanned_from, unterminated_from] at hk ⊢
      cases hs : find line elem e with
      | none => simp [undefined_warnings]
      | some s =>
        simp only [hs] at hk ⊢
        by_cases hb : beyond s pos_comment = true
        · simp [hb, undefined_warnings]
        · simp only [hb, Bool.false_eq_true, if_false] at hk ⊢
          cases he : find_char line '}' s with
          | none => simp [undefined_warnings]
          | some e' =>
            simp only [he] at hk ⊢
            obtain ⟨p1, p2⟩ := scan_progress elem line helem e s e' hs he
            have hnone := hk _ (List.mem_cons_self _ _)
            simp only [hnone]
            have hrest : ∀ c ∈ scanned_from elem line pos_comment g e',
                map_find labels c = none :=
              fun c hc => hk c (List.mem_cons_of_mem _ hc)
            by_cases hp : compare_zero
                (substr line (s + elem.length) (size_sub e' (s + elem.length))) pattern_in = true
            · simp only [hp, if_true]
              rw [ih g e' _ (by omega) (by omega) (by omega) hrest]
              simp [undefined_warnings, hp]
            · simp only [hp, Bool.false_eq_true, if_false]
              rw [ih g e' _ (by omega) (by omega) (by omega) hrest]
              simp [undefined_warnings, hp]

/-- A line in which every occurrence of the delimiter is followed by a closing
brace has no unterminated construct. -/
theorem unterminated_of_braces (elem line : List Char) (pos_comment : Option Nat)
    (hbrace : ∀ s, s < line.length → elem <+: line.drop s → '}' ∈ line.drop s)
    (helem : delimiter_ok elem) :
    ∀ (g e : Nat), unterminated_from elem line pos_comment g e = false := by
  intro g
  induction g with
  | zero => intro e; simp [unterminated_from]
  | succ g ih =>
    intro e
    simp only [unterminated_from]
    cases hs : find line elem e with
    | none => rfl
    | some s =>
      simp only
      split
      · rfl
      · cases he : find_char line '}' s with
        | none =>
          exfalso
          obtain ⟨_, a2, a3, _⟩ := find_some _ _ _ _ hs
          have hlt : s < line.length := by
            obtain ⟨c, cs, rfl, _⟩ := helem
            by_contra hge
            rw [List.drop_eq_nil_of_le (by omega)] at a3
            simp at a3
          exact find_char_none_not_mem _ _ _ he (hbrace s hlt a3)
        | some e' => exact ih e'

theorem canonical_refs_ok : ∀ d ∈ canonical_refs, delimiter_ok d := by
  intro d hd
  simp only [canonical_refs, List.mem_cons, List.mem_singleton, List.not_mem_nil, or_false] at hd
  rcases hd with rfl | rfl | rfl | rfl <;> exact ⟨_, _, rfl, by decide⟩

/-- The loop over the kinds on a line without a rewritable construct and
without an unterminated one. -/
theorem replace_kinds_no_key_done (pattern_in pattern_out : List Char) (labels : Table)
    (line_no : Nat) (pos_comment : Option Nat) (fuel : Nat) (line : List Char)
    (hfuel : line.length < fuel) :
    ∀ (refs : List (List Char)) (w : List Diag), (∀ d ∈ refs, delimiter_ok d) →
      (∀ d ∈ refs, ∀ c ∈ scanned d line pos_comment, map_find labels c = none) →
      (∀ d ∈ refs, unterminated_from d line pos_comment (line.length + 1) 0 = false) →
      replace_kinds pattern_in pattern_out labels line_no pos_comment fuel refs line w =
        LineResult.done line (w ++ refs.flatMap (fun d =>
          undefined_warnings pattern_in d line_no (scanned d line pos_comment))) := by
  intro refs
  induction refs with
  | nil => intro w _ _ _; simp [replace_kinds]
  | cons d rest ih =>
    intro w hok hk hu
    simp only [replace_kinds]
    rw [replace_loop_no_key d pattern_in pattern_out labels line_no pos_comment line
      (hok d (List.mem_cons_self _ _)) fuel (line.length + 1) 0 w (by omega) (by omega)
      (by omega) (hk d (List.mem_cons_self _ _))]
    simp only [hu d (List.mem_cons_self _ _), Bool.false_eq_true, if_false]
    rw [ih _ (fun x hx => hok x (List.mem_cons_of_mem _ hx))
      (fun x hx => hk x (List.mem_cons_of_mem _ hx))
      (fun x hx => hu x (List.mem_cons_of_mem _ hx))]
    simp [scanned, List.flatMap_cons]

/-- The loop over the kinds on a line without a rewritable construct either
returns the line as it is or ends with the fatal error. -/
theorem replace_kinds_no_key_cases (pattern_in pattern_out : List Char) (labels : Table)
    (line_no : Nat) (pos_comment : Option Nat) (fuel : Nat) (line : List Char)
    (hfuel : line.length < fuel) :
    ∀ (refs : List (List Char)) (w : List Diag), (∀ d ∈ refs, delimiter_ok d) →
      (∀ d ∈ refs, ∀ c ∈ scanned d line pos_comment, map_find labels c = none) →
      (∃ w', replace_kinds pattern_in pattern_out labels line_no pos_comment fuel refs line w =
          LineResult.done line w') ∨
      (∃ w', replace_kinds pattern_in pattern_out labels line_no pos_comment fuel refs line w =
          LineResult.fatal w') := by
  intro refs
  induction refs with
  | nil => intro w _ _; left; exact ⟨w, by simp [replace_kinds]⟩
  | cons d rest ih =>
    intro w hok hk
    simp only [replace_kinds]
    rw [replace_loop_no_key d pattern_in pattern_out labels line_no pos_comment line
      (hok d (List.mem_cons_self _ _)) fuel (line.length + 1) 0 w (by omega) (by omega)
      (by omega) (hk d (List.mem_cons_self _ _))]
    by_cases hu : unterminated_from d line pos_comment (line.length + 1) 0 = true
    · simp only [hu, if_true]
      right; exact ⟨_, rfl⟩
    · simp only [hu, Bool.false_eq_true, if_false]
      exact ih _ (fun x hx => hok x (List.mem_cons_of_mem _ hx))
        (fun x hx => hk x (List.mem_cons_of_mem _ hx))

/-! ## The rewriter: undefined and foreign references -/

/-- C6 (undefined references): on a line in which every occurrence of a
delimiter is followed by a closing brace and no scanned construct has a key of
the table as its inner text, `replace_refs_in_line` returns the line and writes,
kind after kind in the order of `refs` and left to right within a kind, one
warning for every scanned construct whose inner text begins with the prefix,
with the delimiter, the inner text and the line number, and nothing else. -/
theorem undefined_reference_warnings (fuel : Nat) (line pattern_in pattern_out : List Char)
    (labels : Table) (line_no : Nat) (ignore_comments : Bool)
    (hfuel : line.length < fuel)
    (hbrace : ∀ d ∈ canonical_refs, ∀ s, s < line.length → d <+: line.drop s →
      '}' ∈ line.drop s)
    (hkeys : ∀ d ∈ canonical_refs,
      ∀ c ∈ scanned d line (comment_pos ignore_comments line), map_find labels c = none) :
    replace_refs_in_line fuel line pattern_in pattern_out labels canonical_refs line_no
        ignore_comments =
      LineResult.done line (canonical_refs.flatMap (fun d =>
        undefined_warnings pattern_in d line_no
          (scanned d line (comment_pos ignore_comments line)))) := by
  unfold replace_refs_in_line
  rw [replace_kinds_no_key_done pattern_in pattern_out labels line_no _ fuel line hfuel
    canonical_refs [] canonical_refs_ok hkeys
    (fun d hd => unterminated_of_braces d line _ (hbrace d hd) (canonical_refs_ok d hd) _ _)]
  simp

/-- Scenarios 4 and 6, instances of C6 with the prefix `eq:` and the table
`eq:a -> 1`: the line `\ref{eq:missing}` is returned as it is with one warning,
the line `\ref{fig:y}` with none. -/
theorem undefined_reference_warnings_witness :
    (ref_missing.length < 32 ∧
      (∀ d ∈ canonical_refs, ∀ s, s < ref_missing.length → d <+: ref_missing.drop s →
        '}' ∈ ref_missing.drop s) ∧
      (∀ d ∈ canonical_refs,
        ∀ c ∈ scanned d ref_missing (comment_pos true ref_missing), map_find table_a c = none) ∧
      replace_refs_in_line 32 ref_missing pat_eq ['E'] table_a canonical_refs 1 true =
        LineResult.done ref_missing (canonical_refs.flatMap (fun d =>
          undefined_warnings pat_eq d 1 (scanned d ref_missing (comment_pos true ref_missing)))) ∧
      canonical_refs.flatMap (fun d =>
          undefined_warnings pat_eq d 1 (scanned d ref_missing (comment_pos true ref_missing))) =
        [Diag.undefined ref_delim ['e', 'q', ':', 'm', 'i', 's', 's', 'i', 'n', 'g'] 1]) ∧
    (ref_fig_y.length < 32 ∧
      (∀ d ∈ canonical_refs, ∀ s, s < ref_fig_y.length → d <+: ref_fig_y.drop s →
        '}' ∈ ref_fig_y.drop s) ∧
      (∀ d ∈ canonical_refs,
        ∀ c ∈ scanned d ref_fig_y (comment_pos true ref_fig_y), map_find table_a c = none) ∧
      replace_refs_in_line 32 ref_fig_y pat_eq ['E'] table_a canonical_refs 1 true =
        LineResult.done ref_fig_y (canonical_refs.flatMap (fun d =>
          undefined_warnings pat_eq d 1 (scanned d ref_fig_y (comment_pos true ref_fig_y)))) ∧
      canonical_refs.flatMap (fun d =>
          undefined_warnings pat_eq d 1 (scanned d ref_fig_y (comment_pos true ref_fig_y))) =
        []) :=
  ⟨⟨by decide, by decide, by decide,
      undefined_reference_warnings 32 ref_missing pat_eq ['E'] table_a 1 true
        (by decide) (by decide) (by decide),
      by decide⟩,
    ⟨by decide, by decide, by decide,
      undefined_reference_warnings 32 ref_fig_y pat_eq ['E'] table_a 1 true
        (by decide) (by decide) (by decide),
      by decide⟩⟩

/-- C7 (unresolved references): when no construct that `replace_refs_in_line`
scans on a line has a key of the table as its inner text and the call does
not end with the fatal error, it returns the line as it was. -/
theorem unresolved_line_untouched (fuel : Nat) (line pattern_in pattern_out : List Char)
    (labels : Table) (line_no : Nat) (ignore_comments : Bool)
    (hfuel : line.length < fuel)
    (hkeys : ∀ d ∈ canonical_refs,
      ∀ c ∈ scanned d line (comment_pos ignore_comments line), map_find labels c = none)
    (hreturns : ∀ w, replace_refs_in_line fuel line pattern_in pattern_out labels
      canonical_refs line_no ignore_comments ≠ LineResult.fatal w) :
    ∃ w, replace_refs_in_line fuel line pattern_in pattern_out labels canonical_refs line_no
      ignore_comments = LineResult.done line w := by
  unfold replace_refs_in_line at hreturns ⊢
  rcases replace_kinds_no_key_cases pattern_in pattern_out labels line_no _ fuel line hfuel
    canonical_refs [] canonical_refs_ok hkeys with h | ⟨w', h⟩
  · exact h
  · exact absurd h (hreturns w')

/-- Scenario 6, an instance of C7: the line `\ref{fig:y}` with the prefix `eq:`
and the table `eq:a -> 1` is returned as it is. -/
theorem unresolved_line_untouched_witness :
    ref_fig_y.length < 32 ∧
    (∀ d ∈ canonical_refs,
      ∀ c ∈ scanned d ref_fig_y (comment_pos true ref_fig_y), map_find table_a c = none) ∧
    replace_refs_in_line 32 ref_fig_y pat_eq ['E'] table_a canonical_refs 1 true =
      LineResult.done ref_fig_y [] ∧
    ∃ w, replace_refs_in_line 32 ref_fig_y pat_eq ['E'] table_a canonical_refs 1 true =
      LineResult.done ref_fig_y w :=
  ⟨by decide, by decide, by decide,
    unresolved_line_untouched 32 ref_fig_y pat_eq ['E'] table_a 1 true
      (by decide) (by decide)
      (fun w h => by
        rw [show replace_refs_in_line 32 ref_fig_y pat_eq ['E'] table_a canonical_refs 1 true =
          LineResult.done ref_fig_y [] from by decide] at h
        exact LineResult.noConfusion h)⟩

/-! ## The pipeline of `main` -/

theorem rewrite_lines_status (fuel : Nat) (pattern_in pattern_out : List Char) (labels : Table)
    (ignore_comments : Bool) :
    ∀ (lines : List (List Char)) (line_no : Nat) (out : List (List Char)) (diags : List Diag),
      (rewrite_lines fuel pattern_in pattern_out labels ignore_comments lines line_no out
        diags).status ≠ Status.fatal_not_found := by
  intro lines
  induction lines with
  | nil => intro line_no out diags; simp [rewrite_lines]
  | cons line rest ih =>
    intro line_no out diags
    simp only [rewrite_lines]
    split
    · exact ih _ _ _
    · simp
    · simp

theorem rewrite_lines_append (fuel : Nat) (pattern_in pattern_out : List Char) (labels : Table)
    (ignore_comments : Bool) :
    ∀ (l₁ l₂ : List (List Char)) (line_no : Nat) (out out' : List (List Char))
      (diags diags' : List Diag),
      rewrite_lines fuel pattern_in pattern_out labels ignore_comments l₁ line_no out diags =
        ⟨out', diags', Status.success⟩ →
      rewrite_lines fuel pattern_in pattern_out labels ignore_comments (l₁ ++ l₂) line_no out
          diags =
        rewrite_lines fuel pattern_in pattern_out labels ignore_comments l₂
          (line_no + l₁.length) out' diags' := by
  intro l₁
  induction l₁ with
  | nil =>
    intro l₂ line_no out out' diags diags' h
    simp only [rewrite_lines, Run.mk.injEq] at h
    obtain ⟨rfl, rfl, _⟩ := h
    simp
  | cons line rest ih =>
    intro l₂ line_no out out' diags diags' h
    simp only [List.cons_append, rewrite_lines] at h ⊢
    split at h
    · rename_i line' warns hr
      show rewrite_lines fuel pattern_in pattern_out labels ignore_comments (rest ++ l₂)
        (line_no + 1) (out ++ [line']) (diags ++ warns) = _
      rw [ih l₂ _ _ _ _ _ h]
      simp only [List.length_cons]
      congr 1
      omega
    · simp at h
    · simp at h

theorem rewrite_lines_length (fuel : Nat) (pattern_in pattern_out : List Char) (labels : Table)
    (ignore_comments : Bool) :
    ∀ (lines : List (List Char)) (line_no : Nat) (out out' : List (List Char))
      (diags diags' : List Diag),
      rewrite_lines fuel pattern_in pattern_out labels ignore_comments lines line_no out diags =
        ⟨out', diags', Status.success⟩ →
      out'.length = out.length + lines.length := by
  intro lines
  induction lines with
  | nil =>
    intro line_no out out' diags diags' h
    simp only [rewrite_lines, Run.mk.injEq] at h
    simp [h.1]
  | cons line rest ih =>
    intro line_no out out' diags diags' h
    simp only [rewrite_lines] at h
    split at h
    · have := ih _ _ _ _ _ h
      simp only [List.length_append, List.length_cons, List.length_nil] at this ⊢
      omega
    · simp at h
    · simp at h

theorem find_char_eq_none (line : List Char) (ch : Char) (pos : Nat)
    (h : ch ∉ line.drop pos) : find_char line ch pos = none := by
  cases he : find_char line ch pos with
  | none => rfl
  | some e =>
    exfalso
    obtain ⟨a1, _, a3, _⟩ := find_some _ _ _ _ he
    apply h
    obtain ⟨t, ht⟩ := a3
    have hmem : ch ∈ line.drop e := by rw [← ht]; simp
    have e1 : line.drop e = (line.drop pos).drop (e - pos) := by
      rw [List.drop_drop]; congr 1; omega
    rw [e1] at hmem
    exact List.mem_of_mem_drop hmem

/-- A line whose first `\label{` lies before any `%` and has no closing brace
after it ends the rewriter with the fatal error. -/
theorem replace_refs_unterminated (fuel : Nat) (a rest pattern_in pattern_out : List Char)
    (labels : Table) (line_no : Nat) (ignore_comments : Bool) (hfuel : 0 < fuel)
    (hfirst : find (a ++ label_delim ++ rest) label_delim 0 = some a.length)
    (hcomment : '%' ∉ a) (hbrace : '}' ∉ rest) :
    replace_refs_in_line fuel (a ++ label_delim ++ rest) pattern_in pattern_out labels
        canonical_refs line_no ignore_comments =
      LineResult.fatal [Diag.no_brace line_no] := by
  obtain ⟨f, rfl⟩ : ∃ f, fuel = f + 1 := ⟨fuel - 1, by omega⟩
  have hb : beyond a.length (comment_pos ignore_comments (a ++ label_delim ++ rest)) = false := by
    cases ignore_comments with
    | false => simp [comment_pos, beyond]
    | true =>
      simp only [comment_pos, if_true]
      cases hp : find_char (a ++ label_delim ++ rest) '%' 0 with
      | none => rfl
      | some p =>
        simp only [beyond, decide_eq_false_iff_not, Nat.not_lt]
        by_contra hlt
        obtain ⟨_, _, a3, _⟩ := find_some _ _ _ _ hp
        apply hcomment
        obtain ⟨t, ht⟩ := a3
        have hmem : '%' ∈ (List.drop p (a ++ label_delim ++ rest)).take (a.length - p) := by
          rw [← ht]
          have : a.length - p = (a.length - p - 1) + 1 := by omega
          rw [this]
          simp
        rw [List.append_assoc, List.drop_append_of_le_length (by omega),
          List.take_append_of_le_length (by simp)] at hmem
        exact List.mem_of_mem_drop (List.mem_of_mem_take hmem)
  have hn : find_char (a ++ label_delim ++ rest) '}' a.length = none := by
    apply find_char_eq_none
    rw [List.append_assoc, List.drop_left]
    simp [label_delim, hbrace]
  have hc : canonical_refs = label_delim :: canonical_refs.tail := rfl
  unfold replace_refs_in_line
  rw [hc]
  simp only [replace_kinds, replace_loop, hfirst, hb, hn, Bool.false_eq_true, if_false,
    List.nil_append]

/-! ## The rewriter: positions kept across a replacement -/

/-- C1 (completeness of rewriting), evaluated: with the table `eq:energy -> 1`
and the replacement `E`, the line `\ref{eq:energy}\ref{eq:energy}` comes back
as `\ref{E1}\ref{eq:energy}`: the second reference, to a defined label, is not
rewritten, as the search resumes at the old position of the closing brace. -/
theorem two_references_second_missed :
    replace_refs_in_line 64 two_refs pat_eq ['E'] table_energy canonical_refs 1 true =
        LineResult.done (ref_delim ++ ['E', '1', '}'] ++ ref_delim ++ eq_energy ++ ['}']) [] ∧
      replace_refs_in_line 64 two_refs pat_eq ['E'] table_energy canonical_refs 1 true ≠
        LineResult.done (ref_delim ++ ['E', '1', '}'] ++ ref_delim ++ ['E', '1', '}']) [] ∧
      build_labels (label_delim ++ eq_energy ++ ['}']) pat_eq true =
        some (table_energy, []) := by
  decide

/-- C2 (comment isolation), evaluated: with the table `eq:a -> 1` and the
replacement `E`, the line `\ref{eq:a} % \ref{eq:a}` comes back as
`\ref{E1} % \ref{E1}`, so the text from the first `%` on is rewritten, and the
line `\ref{eq:a} % \ref{eq:zz}` gets a warning for the reference in its
comment. -/
theorem comment_rewritten_after_shrink :
    replace_refs_in_line 64 ref_then_comment pat_eq ['E'] table_a canonical_refs 1 true =
        LineResult.done
          (ref_delim ++ ['E', '1', '}', ' ', '%', ' '] ++ ref_delim ++ ['E', '1', '}']) [] ∧
      ¬ ((['%', ' '] ++ ref_delim ++ eq_a ++ ['}']) <:+
          (ref_delim ++ ['E', '1', '}', ' ', '%', ' '] ++ ref_delim ++ ['E', '1', '}'])) ∧
      replace_refs_in_line 64 ref_then_undefined pat_eq ['E'] table_a canonical_refs 1 true =
        LineResult.done
          (ref_delim ++ ['E', '1', '}', ' ', '%', ' '] ++ ref_delim ++
            ['e', 'q', ':', 'z', 'z', '}'])
          [Diag.undefined ref_delim ['e', 'q', ':', 'z', 'z'] 1] := by
  decide

/-- C8 (fatal unterminated construct), evaluated: with the table `eq:a -> 1`
and the replacement `E`, the line `\ref{eq:a} % \ref{eq:` ends with the fatal
error although every delimiter of its active portion `\ref{eq:a} ` is closed
there, and the line `\ref{eq:x % }` is returned although the delimiter of its
active portion `\ref{eq:x ` has no closing brace there. -/
theorem fatal_not_by_active_portion :
    replace_refs_in_line 64 ref_then_open pat_eq ['E'] table_a canonical_refs 1 true =
        LineResult.fatal [Diag.no_brace 1] ∧
      active true ref_then_open = ref_delim ++ eq_a ++ ['}', ' '] ∧
      (∀ d ∈ canonical_refs, ∀ s, s < (active true ref_then_open).length →
        d <+: (active true ref_then_open).drop s → '}' ∈ (active true ref_then_open).drop s) ∧
      replace_refs_in_line 64 ref_closed_in_comment pat_eq ['E'] table_a canonical_refs 1 true =
        LineResult.done ref_closed_in_comment
          [Diag.undefined ref_delim ['e', 'q', ':', 'x', ' ', '%', ' '] 1] ∧
      active true ref_closed_in_comment = ref_delim ++ ['e', 'q', ':', 'x', ' '] ∧
      ref_delim <+: (active true ref_closed_in_comment).drop 0 ∧
      '}' ∉ (active true ref_closed_in_comment).drop 0 := by
  decide

/-! ## The pipeline: fatal errors -/

/-- C9, evaluated: on the one-line input `\label{eq:a` with the prefix `eq:`,
where `\label{` is followed by the prefix and by no closing brace, the scan of
`build_labels` passes over the open definition and the run ends with the error
`pattern not found`, not with the structural error for line 1.  On the same line
the manual search of `src/cpp98texnumber.cpp` exits with the missing-brace error
for line 1, and so does `replace_refs_in_line` of the program itself. -/
theorem unterminated_label_not_found :
    getlines label_open = [label_delim ++ pat_eq ++ ['a']] ∧
      '}' ∉ label_delim ++ pat_eq ++ ['a'] ∧
      main 64 label_open pat_eq ['E'] true =
        ⟨[], [Diag.not_found pat_eq], Status.fatal_not_found⟩ ∧
      (main 64 label_open pat_eq ['E'] true).status ≠ Status.fatal_structural 1 ∧
      Cpp98.build_labels label_open pat_eq = Cpp98.Scan.fatal 1 ∧
      replace_refs_in_line 64 (label_delim ++ pat_eq ++ ['a']) pat_eq ['E'] table_a
        canonical_refs 1 true = LineResult.fatal [Diag.no_brace 1] := by
  decide

/-- Two more runs in which a `\label{` followed by the prefix has no closing
brace in the active portion of its line and the run succeeds: the brace of the
comment closes the construct of `\label{eq:a % }`, and in
`\label{eq:energy}\label{eq:x` the search for the second `\label{` resumes
behind it after the first name has been replaced by a shorter one. -/
theorem unterminated_label_hidden :
    main 64 input_b_comment_brace pat_eq ['E'] true =
        ⟨[label_delim ++ ['E', '1', '}'], label_delim ++ eq_a ++ [' ', '%', ' ', '}']],
          [Diag.undefined label_delim (eq_a ++ [' ', '%', ' ']) 2], Status.success⟩ ∧
      main 64 input_energy_open pat_eq ['E'] true =
        ⟨[label_delim ++ ['E', '1', '}'] ++ label_delim ++ pat_eq ++ ['x']], [],
          Status.success⟩ := by
  decide

/-- The run on an open definition: let `build_labels` return the table `t` for the input.  When
`t` is empty the run ends with the error `pattern not found` and writes no
line.  When `t` is not empty, the lines before line `k` are rewritten without
an abort, and the first `\label{` of line `k` lies before any `%`, is followed
by the prefix and has no closing brace after it on the line, the run ends with
the structural error for line `k`, having written the lines before it only. -/
theorem unterminated_label_run (fuel : Nat) (input pattern_in pattern_out : List Char)
    (ignore_comments : Bool) (t : Table) (w : List Diag) (pre post : List (List Char))
    (a b : List Char) (out : List (List Char)) (diags : List Diag)
    (hfuel : 0 < fuel)
    (hres : build_labels input pattern_in ignore_comments = some (t, w))
    (hlines : getlines input = pre ++ (a ++ label_delim ++ (pattern_in ++ b)) :: post)
    (hfirst : find (a ++ label_delim ++ (pattern_in ++ b)) label_delim 0 = some a.length)
    (hcomment : '%' ∉ a) (hbrace : '}' ∉ pattern_in ++ b)
    (hpre : t ≠ [] → rewrite_lines fuel pattern_in pattern_out t ignore_comments pre 1 [] w =
      ⟨out, diags, Status.success⟩) :
    main fuel input pattern_in pattern_out ignore_comments =
      (if t = [] then ⟨[], w ++ [Diag.not_found pattern_in], Status.fatal_not_found⟩
       else ⟨out, diags ++ [Diag.no_brace (pre.length + 1)],
         Status.fatal_structural (pre.length + 1)⟩) ∧
      (t ≠ [] → out.length = pre.length) := by
  by_cases ht : t = []
  · subst ht
    simp [main, hres]
  · have hp := hpre ht
    refine ⟨?_, fun _ => by simpa using rewrite_lines_length _ _ _ _ _ _ _ _ _ _ _ hp⟩
    have hemp : t.isEmpty = false := by
      cases t with
      | nil => exact absurd rfl ht
      | cons _ _ => rfl
    simp only [main, hres, hemp, ht, if_false, Bool.false_eq_true, hlines]
    rw [rewrite_lines_append _ _ _ _ _ _ _ _ _ _ _ _ hp]
    simp only [rewrite_lines]
    rw [replace_refs_unterminated fuel a (pattern_in ++ b) pattern_in pattern_out t _
      ignore_comments hfuel hfirst hcomment hbrace, Nat.add_comm]

/-- The input `\label{eq:b}` / `\label{eq:a` with the prefix `eq:` is an instance
of `unterminated_label_run`: line 1 is written and the run ends with the structural
error for line 2. -/
theorem unterminated_label_run_witness :
    0 < 64 ∧
    build_labels input_b_open pat_eq true = some ([(eq_b, 1)], []) ∧
    getlines input_b_open = [label_b] ++ ([] ++ label_delim ++ (pat_eq ++ ['a'])) :: [] ∧
    find ([] ++ label_delim ++ (pat_eq ++ ['a'])) label_delim 0 = some ([] : List Char).length ∧
    '%' ∉ ([] : List Char) ∧ '}' ∉ pat_eq ++ ['a'] ∧
    main 64 input_b_open pat_eq ['E'] true =
      (if [(eq_b, 1)] = ([] : Table) then
        ⟨[], [] ++ [Diag.not_found pat_eq], Status.fatal_not_found⟩
       else ⟨[label_delim ++ ['E', '1', '}']], [] ++ [Diag.no_brace ([label_b].length + 1)],
         Status.fatal_structural ([label_b].length + 1)⟩) ∧
      ([(eq_b, 1)] ≠ ([] : Table) → [label_delim ++ ['E', '1', '}']].length = [label_b].length) :=
  ⟨by decide, by decide, by decide, by decide, by decide, by decide,
    unterminated_label_run 64 input_b_open pat_eq ['E'] true [(eq_b, 1)] [] [label_b] []
      [] ['a'] [label_delim ++ ['E', '1', '}']] [] (by decide) (by decide) (by decide)
      (by decide) (by decide) (by decide) (fun _ => by decide)⟩

/-- C10 (fatal empty result): the run ends with the error `pattern not found`
exactly when the table that `build_labels` returns for the whole input is
empty, and then it has written no line and nothing but the warnings of
`build_labels` and that error. -/
theorem fatal_not_found_iff (fuel : Nat) (input pattern_in pattern_out : List Char)
    (ignore_comments : Bool) :
    ∃ t w, build_labels input pattern_in ignore_comments = some (t, w) ∧
      ((main fuel input pattern_in pattern_out ignore_comments).status = Status.fatal_not_found
        ↔ t = []) ∧
      (t = [] → main fuel input pattern_in pattern_out ignore_comments =
        ⟨[], w ++ [Diag.not_found pattern_in], Status.fatal_not_found⟩) := by
  refine ⟨_, _, build_labels_eq input pattern_in ignore_comments, ?_, ?_⟩
  · constructor
    · intro h
      by_contra hne
      simp only [main, build_labels_eq] at h
      split at h
      · rename_i hemp
        exact hne (List.isEmpty_iff.mp hemp)
      · exact rewrite_lines_status _ _ _ _ _ _ _ _ _ h
    · intro h
      simp [main, build_labels_eq, h]
  · intro h
    simp [main, build_labels_eq, h]

/-- Scenario 2: on the input `\label{fig:x}` with the prefix `eq:` the table is
empty, and the run ends with the error `pattern not found` and no output. -/
theorem scenario_fig_not_found :
    build_labels label_fig_x pat_eq true = some ([], []) ∧
      main 64 label_fig_x pat_eq ['E'] true =
        ⟨[], [Diag.not_found pat_eq], Status.fatal_not_found⟩ := by
  decide

/-! ## The pipeline: every line is rewritten with the complete table -/

/-- The lines that the second pass writes are, in order, the results of
`replace_refs_in_line` on the lines of the input with the same table, each
with its line number; after a successful pass there is one for every line. -/
theorem rewrite_lines_output (fuel : Nat) (pattern_in pattern_out : List Char) (labels : Table)
    (ignore_comments : Bool) :
    ∀ (lines : List (List Char)) (line_no : Nat) (out : List (List Char)) (diags : List Diag),
      ∃ outs, (rewrite_lines fuel pattern_in pattern_out labels ignore_comments lines line_no out
          diags).output = out ++ outs ∧
        (∀ k line', outs[k]? = some line' → ∃ l warns, lines[k]? = some l ∧
          replace_refs_in_line fuel l pattern_in pattern_out labels canonical_refs (line_no + k)
            ignore_comments = LineResult.done line' warns) ∧
        ((rewrite_lines fuel pattern_in pattern_out labels ignore_comments lines line_no out
          diags).status = Status.success → outs.length = lines.length) := by
  intro lines
  induction lines with
  | nil =>
    intro line_no out diags
    exact ⟨[], by simp [rewrite_lines], by simp, by simp⟩
  | cons line rest ih =>
    intro line_no out diags
    simp only [rewrite_lines]
    cases hr : replace_refs_in_line fuel line pattern_in pattern_out labels canonical_refs
        line_no ignore_comments with
    | done line' warns =>
      obtain ⟨outs, h1, h2, h3⟩ := ih (line_no + 1) (out ++ [line']) (diags ++ warns)
      refine ⟨line' :: outs, by simp [h1], ?_, ?_⟩
      · intro k l' hk
        cases k with
        | zero =>
          simp only [List.getElem?_cons_zero, Option.some.injEq] at hk
          subst hk
          exact ⟨line, warns, by simp, by simpa using hr⟩
        | succ k =>
          simp only [List.getElem?_cons_succ] at hk
          obtain ⟨l, w, g1, g2⟩ := h2 k l' hk
          refine ⟨l, w, by simpa using g1, ?_⟩
          have e : line_no + (k + 1) = line_no + 1 + k := by omega
          rw [e]; exact g2
      · intro hs
        simp only [List.length_cons]
        rw [h3 hs]
    | fatal warns => exact ⟨[], by simp, by simp, by simp⟩
    | timeout => exact ⟨[], by simp, by simp, by simp⟩

/-! ## Lemmas on a line with one delimiter -/

theorem find_eq_none (s pat : List Char) (pos : Nat)
    (h : ∀ j, pos ≤ j → ¬ pat <+: s.drop j) : find s pat pos = none := by
  cases hf : find s pat pos with
  | none => rfl
  | some r =>
    obtain ⟨a1, _, a3, _⟩ := find_some _ _ _ _ hf
    exact absurd a3 (h r a1)

theorem find_eq_some (s pat : List Char) (pos r : Nat) (h1 : pos ≤ r) (hr : r ≤ s.length)
    (h2 : pat <+: s.drop r) (h3 : ∀ j, pos ≤ j → j < r → ¬ pat <+: s.drop j) :
    find s pat pos = some r := by
  cases hf : find s pat pos with
  | none => exact absurd h2 (find_none _ _ _ hf r h1 hr)
  | some r' =>
    obtain ⟨a1, _, a3, a4⟩ := find_some _ _ _ _ hf
    rcases Nat.lt_trichotomy r' r with hlt | heq | hgt
    · exact absurd a3 (h3 r' a1 hlt)
    · rw [heq]
    · exact absurd h2 (a4 r h1 hgt)

/-- In a text with one backslash, a text that starts with a backslash can only
occur at the place of that backslash. -/
theorem backslash_position (rest ds : List Char) (hrest : '\\' ∉ rest) :
    ∀ (pre : List Char) (j : Nat), '\\' ∉ pre →
      ('\\' :: ds) <+: (pre ++ '\\' :: rest).drop j → j = pre.length := by
  intro pre
  induction pre with
  | nil =>
    intro j _ h
    cases j with
    | zero => rfl
    | succ j =>
      exfalso
      apply hrest
      obtain ⟨t, ht⟩ := h
      have hmem : '\\' ∈ List.drop j rest := by
        simp only [List.nil_append, List.drop_succ_cons] at ht
        rw [← ht]; simp
      exact List.mem_of_mem_drop hmem
  | cons p ps ih =>
    intro j hpre h
    have hp : ¬ '\\' = p := fun e => hpre (List.mem_cons.mpr (Or.inl e))
    have hps : '\\' ∉ ps := fun e => hpre (List.mem_cons_of_mem _ e)
    cases j with
    | zero =>
      exfalso
      obtain ⟨t, ht⟩ := h
      simp only [List.drop_zero, List.cons_append, List.cons.injEq] at ht
      exact hp ht.1
    | succ j =>
      have := ih j hps (by simpa using h)
      simp [this]

/-- The shape of the four delimiters. -/
theorem canonical_shape : ∀ d ∈ canonical_refs,
    ∃ ds, d = '\\' :: ds ∧ '\\' ∉ ds ∧ '}' ∉ d ∧ '%' ∉ d := by
  intro d hd
  simp only [canonical_refs, List.mem_cons, List.mem_singleton, List.not_mem_nil, or_false] at hd
  rcases hd with rfl | rfl | rfl | rfl <;> exact ⟨_, rfl, by decide, by decide, by decide⟩

/-- None of the four delimiters is the start of another one. -/
theorem canonical_prefix_eq (d d' x : List Char) (hd : d ∈ canonical_refs)
    (hd' : d' ∈ canonical_refs) (h : d' <+: d ++ x) : d' = d := by
  simp only [canonical_refs, List.mem_cons, List.mem_singleton, List.not_mem_nil, or_false]
    at hd hd'
  rcases hd with rfl | rfl | rfl | rfl <;> rcases hd' with rfl | rfl | rfl | rfl <;>
    first
      | rfl
      | (exfalso
         obtain ⟨t, ht⟩ := h
         simp at ht)

/-- The search for a delimiter in a line whose only backslash starts the
delimiter `delim`. -/
theorem find_single (pre delim tail d : List Char) (pos : Nat) (hd : d ∈ canonical_refs)
    (hdelim : delim ∈ canonical_refs) (hpre : '\\' ∉ pre) (htail : '\\' ∉ tail) :
    find (pre ++ (delim ++ tail)) d pos =
      if d = delim ∧ pos ≤ pre.length then some pre.length else none := by
  obtain ⟨ds, rfl, _, _, _⟩ := canonical_shape d hd
  obtain ⟨es, rfl, hes, _, _⟩ := canonical_shape delim hdelim
  have hrest : '\\' ∉ es ++ tail := by simp [hes, htail]
  have hocc : ∀ j, ('\\' :: ds) <+: (pre ++ ('\\' :: es ++ tail)).drop j →
      j = pre.length ∧ '\\' :: ds = '\\' :: es := by
    intro j hj
    have e := backslash_position (es ++ tail) ds hrest pre j hpre (by simpa using hj)
    refine ⟨e, ?_⟩
    subst e
    rw [List.drop_left] at hj
    exact canonical_prefix_eq _ _ tail hdelim hd hj
  split
  · rename_i hc
    obtain ⟨hc1, hc2⟩ := hc
    apply find_eq_some _ _ _ _ hc2 (by simp)
    · rw [List.drop_left, hc1]
      exact List.prefix_append _ _
    · intro j _ hj2 hj
      have := (hocc j hj).1
      omega
  · rename_i hc
    apply find_eq_none
    intro j hj1 hj
    obtain ⟨e1, e2⟩ := hocc j hj
    exact hc ⟨e2, by omega⟩

theorem find_from_char_first (ch : Char) (c : List Char) :
    ∀ (b : List Char) (off : Nat), ch ∉ b →
      find_from [ch] (b ++ ch :: c) off = some (off + b.length) := by
  intro b
  induction b with
  | nil => intro off _; simp [find_from, List.isPrefixOf]
  | cons x xs ih =>
    intro off hb
    have hx : ¬ ch = x := fun e => hb (List.mem_cons.mpr (Or.inl e))
    have hxs : ch ∉ xs := fun e => hb (List.mem_cons_of_mem _ e)
    have hp : [ch].isPrefixOf (x :: (xs ++ ch :: c)) = false := by
      simp [List.isPrefixOf, hx]
    show find_from [ch] (x :: (xs ++ ch :: c)) off = _
    rw [find_from, hp, if_neg (by simp), ih (off + 1) hxs]
    simp only [List.length_cons, Option.some.injEq]
    omega

/-- The first closing brace after a position. -/
theorem find_char_first (a b c : List Char) (ch : Char) (hb : ch ∉ b) :
    find_char (a ++ (b ++ ch :: c)) ch a.length = some (a.length + b.length) := by
  unfold find_char find
  simp only [List.length_append, List.drop_left]
  rw [if_neg (by omega)]
  exact find_from_char_first ch c b a.length hb

/-- The text `to_string n` is the decimal numeral of `n`, as `Nat.repr` prints
it. -/
theorem to_string_eq_repr (n : Nat) : String.mk (to_string n) = Nat.repr n := rfl

/-- The decimal digits of a number include no backslash. -/
theorem to_string_no_backslash (n : Nat) : '\\' ∉ to_string n := by
  have hdigit : ∀ m, m < 10 → Nat.digitChar m ≠ '\\' := by
    decide
  have hcore : ∀ (f m : Nat) (acc : List Char), '\\' ∉ acc →
      '\\' ∉ Nat.toDigitsCore 10 f m acc := by
    intro f
    induction f with
    | zero => intro m acc h; simpa [Nat.toDigitsCore] using h
    | succ f ih =>
      intro m acc h
      have hacc : '\\' ∉ Nat.digitChar (m % 10) :: acc := by
        simp only [List.mem_cons, not_or]
        exact ⟨fun e => hdigit _ (Nat.mod_lt _ (by decide)) e.symm, h⟩
      simp only [Nat.toDigitsCore]
      split
      · exact hacc
      · exact ih _ _ hacc
  exact hcore _ _ _ (by simp)

/-- The scan for a delimiter other than the one of the line finds nothing. -/
theorem replace_loop_other (d delim pre tail pattern_in pattern_out : List Char)
    (labels : Table) (line_no : Nat) (pos_comment : Option Nat) (f : Nat) (w : List Diag)
    (hd : d ∈ canonical_refs) (hdelim : delim ∈ canonical_refs) (hne : d ≠ delim)
    (hpre : '\\' ∉ pre) (htail : '\\' ∉ tail) :
    replace_loop d pattern_in pattern_out labels line_no pos_comment (f + 1)
        (pre ++ (delim ++ tail)) 0 w =
      LineResult.done (pre ++ (delim ++ tail)) w := by
  rw [replace_loop, find_single pre delim tail d 0 hd hdelim hpre htail]
  simp [hne]

/-- The scan for the delimiter of a line with one construct, whose name is a
key of the table: the name is replaced, and the next search finds nothing. -/
theorem replace_loop_single (delim pre name post pattern_in pattern_out : List Char)
    (labels : Table) (line_no : Nat) (pos_comment : Option Nat) (f : Nat) (w : List Diag)
    (i : Nat) (hdelim : delim ∈ canonical_refs) (hpre : '\\' ∉ pre)
    (hname : '\\' ∉ name) (hclose : '}' ∉ name) (hpost : '\\' ∉ post)
    (hout : '\\' ∉ pattern_out) (hkey : map_find labels name = some i)
    (hb : beyond pre.length pos_comment = false) :
    replace_loop delim pattern_in pattern_out labels line_no pos_comment (f + 2)
        (pre ++ (delim ++ (name ++ '}' :: post))) 0 w =
      LineResult.done (pre ++ (delim ++ (pattern_out ++ to_string i ++ '}' :: post))) w := by
  obtain ⟨es, hes, _, hdc, _⟩ := canonical_shape delim hdelim
  have hlen : 1 ≤ delim.length := by rw [hes]; simp
  have htail : '\\' ∉ name ++ '}' :: post := by
    simp only [List.mem_append, List.mem_cons, not_or]
    exact ⟨hname, by decide, hpost⟩
  have htail' : '\\' ∉ pattern_out ++ to_string i ++ '}' :: post := by
    simp only [List.mem_append, List.mem_cons, not_or]
    exact ⟨⟨hout, to_string_no_backslash i⟩, by decide, hpost⟩
  have hfind := find_single pre delim (name ++ '}' :: post) delim 0 hdelim hdelim hpre htail
  simp only [Nat.zero_le, and_self, if_true] at hfind
  have hbrace : find_char (pre ++ (delim ++ (name ++ '}' :: post))) '}' pre.length =
      some (pre.length + (delim.length + name.length)) := by
    have := find_char_first pre (delim ++ name) post '}'
      (by simp only [List.mem_append, not_or]; exact ⟨hdc, hclose⟩)
    simpa [List.append_assoc] using this
  have hsize : size_sub (pre.length + (delim.length + name.length)) (pre.length + delim.length) =
      name.length := by
    unfold size_sub
    rw [if_pos (by omega)]
    omega
  have hsub : substr (pre ++ (delim ++ (name ++ '}' :: post))) (pre.length + delim.length)
      name.length = name := by
    unfold substr
    rw [← List.append_assoc, List.drop_left' (by simp), List.take_left]
  have hrep : replace (pre ++ (delim ++ (name ++ '}' :: post))) (pre.length + delim.length)
      name.length (pattern_out ++ to_string i) =
        pre ++ (delim ++ (pattern_out ++ to_string i ++ '}' :: post)) := by
    unfold replace
    rw [← List.append_assoc pre delim, List.take_left' (by simp), List.drop_left' (by simp),
      List.drop_left]
    simp [List.append_assoc]
  have hfind' := find_single pre delim (pattern_out ++ to_string i ++ '}' :: post) delim
    (pre.length + (delim.length + name.length)) hdelim hdelim hpre htail'
  rw [if_neg (by omega)] at hfind'
  rw [replace_loop]
  simp only [hfind, hb, Bool.false_eq_true, if_false, hbrace, hsize, hsub, hkey, hrep]
  rw [replace_loop]
  simp only [hfind']

theorem replace_kinds_other (delim pre tail pattern_in pattern_out : List Char)
    (labels : Table) (line_no : Nat) (pos_comment : Option Nat) (f : Nat)
    (hdelim : delim ∈ canonical_refs) (hpre : '\\' ∉ pre) (htail : '\\' ∉ tail) :
    ∀ (refs : List (List Char)) (w : List Diag),
      (∀ d ∈ refs, d ∈ canonical_refs ∧ d ≠ delim) →
      replace_kinds pattern_in pattern_out labels line_no pos_comment (f + 1) refs
          (pre ++ (delim ++ tail)) w =
        LineResult.done (pre ++ (delim ++ tail)) w := by
  intro refs
  induction refs with
  | nil => intro w _; simp [replace_kinds]
  | cons d rest ih =>
    intro w h
    obtain ⟨h1, h2⟩ := h d (List.mem_cons_self _ _)
    rw [replace_kinds, replace_loop_other d delim pre tail pattern_in pattern_out labels line_no
      pos_comment f w h1 hdelim h2 hpre htail]
    exact ih w (fun x hx => h x (List.mem_cons_of_mem _ hx))

theorem replace_kinds_append (pattern_in pattern_out : List Char) (labels : Table)
    (line_no : Nat) (pos_comment : Option Nat) (fuel : Nat) :
    ∀ (r₁ r₂ : List (List Char)) (line line' : List Char) (w w' : List Diag),
      replace_kinds pattern_in pattern_out labels line_no pos_comment fuel r₁ line w =
        LineResult.done line' w' →
      replace_kinds pattern_in pattern_out labels line_no pos_comment fuel (r₁ ++ r₂) line w =
        replace_kinds pattern_in pattern_out labels line_no pos_comment fuel r₂ line' w' := by
  intro r₁
  induction r₁ with
  | nil =>
    intro r₂ line line' w w' h
    simp only [replace_kinds, LineResult.done.injEq] at h
    obtain ⟨rfl, rfl⟩ := h
    rfl
  | cons d rest ih =>
    intro r₂ line line' w w' h
    simp only [List.cons_append, replace_kinds] at h ⊢
    cases hl : replace_loop d pattern_in pattern_out labels line_no pos_comment fuel line 0 w with
    | done l₁ w₁ =>
      rw [hl] at h
      exact ih r₂ l₁ line' w₁ w' h
    | fatal w₁ => rw [hl] at h; simp at h
    | timeout => rw [hl] at h; simp at h

/-- Every delimiter splits the vector `refs` of `main` into the delimiters
before it and the delimiters after it. -/
theorem canonical_split (delim : List Char) (hdelim : delim ∈ canonical_refs) :
    ∃ before after, canonical_refs = before ++ delim :: after ∧
      (∀ d ∈ before, d ∈ canonical_refs ∧ d ≠ delim) ∧
      (∀ d ∈ after, d ∈ canonical_refs ∧ d ≠ delim) := by
  simp only [canonical_refs, List.mem_cons, List.mem_singleton, List.not_mem_nil, or_false]
    at hdelim
  rcases hdelim with rfl | rfl | rfl | rfl
  · exact ⟨[], canonical_refs.drop 1, by decide, by decide, by decide⟩
  · exact ⟨canonical_refs.take 1, canonical_refs.drop 2, by decide, by decide, by decide⟩
  · exact ⟨canonical_refs.take 2, canonical_refs.drop 3, by decide, by decide, by decide⟩
  · exact ⟨canonical_refs.take 3, [], by decide, by decide, by decide⟩

/-- The loop over the four kinds on a line with one construct whose name is a
key of the table. -/
theorem replace_kinds_single (delim pre name post pattern_in pattern_out : List Char)
    (labels : Table) (line_no : Nat) (pos_comment : Option Nat) (f : Nat) (i : Nat)
    (hdelim : delim ∈ canonical_refs) (hpre : '\\' ∉ pre)
    (hname : '\\' ∉ name) (hclose : '}' ∉ name) (hpost : '\\' ∉ post)
    (hout : '\\' ∉ pattern_out) (hkey : map_find labels name = some i)
    (hb : beyond pre.length pos_comment = false) :
    replace_kinds pattern_in pattern_out labels line_no pos_comment (f + 2) canonical_refs
        (pre ++ (delim ++ (name ++ '}' :: post))) [] =
      LineResult.done (pre ++ (delim ++ (pattern_out ++ to_string i ++ '}' :: post))) [] := by
  obtain ⟨before, after, hsplit, hbefore, hafter⟩ := canonical_split delim hdelim
  have htail : '\\' ∉ name ++ '}' :: post := by
    simp only [List.mem_append, List.mem_cons, not_or]
    exact ⟨hname, by decide, hpost⟩
  have htail' : '\\' ∉ pattern_out ++ to_string i ++ '}' :: post := by
    simp only [List.mem_append, List.mem_cons, not_or]
    exact ⟨⟨hout, to_string_no_backslash i⟩, by decide, hpost⟩
  rw [hsplit]
  rw [replace_kinds_append _ _ _ _ _ _ before (delim :: after) _ _ _ _
    (replace_kinds_other delim pre _ pattern_in pattern_out labels line_no pos_comment (f + 1)
      hdelim hpre htail before [] hbefore)]
  rw [replace_kinds, replace_loop_single delim pre name post pattern_in pattern_out labels line_no
    pos_comment f [] i hdelim hpre hname hclose hpost hout hkey hb]
  exact replace_kinds_other delim pre _ pattern_in pattern_out labels line_no pos_comment (f + 1)
    hdelim hpre htail' after [] hafter

/-- A position before which the line has no `%` is not beyond `pos_comment`. -/
theorem beyond_comment_pos (a rest : List Char) (ignore_comments : Bool) (ha : '%' ∉ a) :
    beyond a.length (comment_pos ignore_comments (a ++ rest)) = false := by
  cases ignore_comments with
  | false => simp [comment_pos, beyond]
  | true =>
    simp only [comment_pos, if_true]
    cases hp : find_char (a ++ rest) '%' 0 with
    | none => rfl
    | some p =>
      simp only [beyond, decide_eq_false_iff_not, Nat.not_lt]
      by_contra hlt
      obtain ⟨_, _, a3, _⟩ := find_some _ _ _ _ hp
      apply ha
      obtain ⟨t, ht⟩ := a3
      have hmem : '%' ∈ (List.drop p (a ++ rest)).take (a.length - p) := by
        rw [← ht]
        have : a.length - p = (a.length - p - 1) + 1 := by omega
        rw [this]
        simp
      rw [List.drop_append_of_le_length (by omega),
        List.take_append_of_le_length (by simp)] at hmem
      exact List.mem_of_mem_drop (List.mem_of_mem_take hmem)

/-- The lines that `main` writes are the results of `replace_refs_in_line` on
the lines of the input, each with its line number, all with the table that
`build_labels` returns for the whole input; a run that succeeds writes one
for every line. -/
theorem main_output (fuel : Nat) (input pattern_in pattern_out : List Char)
    (ignore_comments : Bool) (t : Table) (w : List Diag)
    (hres : build_labels input pattern_in ignore_comments = some (t, w)) :
    (∀ k line', (main fuel input pattern_in pattern_out ignore_comments).output[k]? =
        some line' →
      ∃ l warns, (getlines input)[k]? = some l ∧
        replace_refs_in_line fuel l pattern_in pattern_out t canonical_refs (k + 1)
          ignore_comments = LineResult.done line' warns) ∧
    ((main fuel input pattern_in pattern_out ignore_comments).status = Status.success →
      (main fuel input pattern_in pattern_out ignore_comments).output.length =
        (getlines input).length) := by
  unfold main
  rw [hres]
  simp only
  split
  · exact ⟨by simp, by simp⟩
  · obtain ⟨outs, h1, h2, h3⟩ := rewrite_lines_output fuel pattern_in pattern_out t
      ignore_comments (getlines input) 1 [] w
    rw [List.nil_append] at h1
    rw [h1]
    refine ⟨?_, h3⟩
    intro k line' hk
    obtain ⟨l, warns, g1, g2⟩ := h2 k line' hk
    exact ⟨l, warns, g1, by rw [Nat.add_comm]; exact g2⟩

/-! ## The pipeline: forward references, single references, line count -/

/-- C12 (exact rewrite of a single reference): a line `pre` + delimiter + `name`
+ `}` + `post`, where the delimiter is one of the four of `main`, `name` is a
key of the table with index `i` and has no `}` and no backslash, `pre` has no
backslash and no `%`, and `post` and the replacement have no backslash, is
returned as `pre` + delimiter + replacement + decimal of `i` + `}` + `post`,
with no diagnostic.  The key looked up is the whole inner text. -/
theorem single_reference_rewritten (fuel : Nat)
    (pre delim name post pattern_in pattern_out : List Char) (labels : Table)
    (line_no i : Nat) (ignore_comments : Bool)
    (hfuel : (pre ++ delim ++ name ++ ['}'] ++ post).length < fuel)
    (hdelim : delim ∈ canonical_refs) (hkey : map_find labels name = some i)
    (hname : '\\' ∉ name) (hclose : '}' ∉ name) (hpre : '\\' ∉ pre) (hcomment : '%' ∉ pre)
    (hpost : '\\' ∉ post) (hout : '\\' ∉ pattern_out) :
    replace_refs_in_line fuel (pre ++ delim ++ name ++ ['}'] ++ post) pattern_in pattern_out
        labels canonical_refs line_no ignore_comments =
      LineResult.done (pre ++ delim ++ pattern_out ++ to_string i ++ ['}'] ++ post) [] := by
  obtain ⟨f, rfl⟩ : ∃ f, fuel = f + 2 := by
    refine ⟨fuel - 2, ?_⟩
    simp only [List.length_append, List.length_cons, List.length_nil] at hfuel
    omega
  have e : pre ++ delim ++ name ++ ['}'] ++ post = pre ++ (delim ++ (name ++ '}' :: post)) := by
    simp
  have e' : pre ++ delim ++ pattern_out ++ to_string i ++ ['}'] ++ post =
      pre ++ (delim ++ (pattern_out ++ to_string i ++ '}' :: post)) := by
    simp
  unfold replace_refs_in_line
  rw [e, e']
  exact replace_kinds_single delim pre name post pattern_in pattern_out labels line_no _ f i
    hdelim hpre hname hclose hpost hout hkey (beyond_comment_pos pre _ ignore_comments hcomment)

/-- Scenario 1, an instance of C12: with the table `eq:a -> 1` and the
replacement `E` the line `\ref{eq:a}` is returned as `\ref{E1}`. -/
theorem single_reference_rewritten_witness :
    ([] ++ ref_delim ++ eq_a ++ ['}'] ++ []).length < 64 ∧
    ref_delim ∈ canonical_refs ∧ map_find table_a eq_a = some 1 ∧
    '\\' ∉ eq_a ∧ '}' ∉ eq_a ∧ '\\' ∉ ([] : List Char) ∧ '%' ∉ ([] : List Char) ∧
    '\\' ∉ ([] : List Char) ∧ '\\' ∉ ['E'] ∧
    replace_refs_in_line 64 ([] ++ ref_delim ++ eq_a ++ ['}'] ++ []) pat_eq ['E'] table_a
        canonical_refs 2 true =
      LineResult.done ([] ++ ref_delim ++ ['E'] ++ to_string 1 ++ ['}'] ++ []) [] ∧
    [] ++ ref_delim ++ ['E'] ++ to_string 1 ++ ['}'] ++ [] = ref_delim ++ ['E', '1', '}'] :=
  ⟨by decide, by decide, by decide, by decide, by decide, by decide, by decide, by decide,
    by decide,
    single_reference_rewritten 64 [] ref_delim eq_a [] pat_eq ['E'] table_a 2 1 true
      (by decide) (by decide) (by decide) (by decide) (by decide) (by decide) (by decide)
      (by decide) (by decide),
    by decide⟩

/-- C11, evaluated: on the three lines `\ref{eq:energy}\ref{eq:a}`,
`\label{eq:energy}`, `\label{eq:a}` with the prefix `eq:` and the replacement `E`
the run succeeds with the table `eq:energy -> 1`, `eq:a -> 2`, and it writes
`\ref{E1}\ref{eq:a}` as its first line: the reference `\ref{eq:a}` to the label
defined on line 3 is not rewritten, as the search resumes at the old position of
the closing brace. -/
theorem forward_reference_second_missed :
    getlines input_forward_two =
      [ref_delim ++ eq_energy ++ ['}'] ++ ref_delim ++ eq_a ++ ['}'],
        label_delim ++ eq_energy ++ ['}'], label_a] ∧
    build_labels input_forward_two pat_eq true = some (table_energy_a, []) ∧
    map_find table_energy_a eq_a = some 2 ∧
    main 64 input_forward_two pat_eq ['E'] true =
      ⟨[ref_delim ++ ['E', '1', '}'] ++ ref_delim ++ eq_a ++ ['}'],
        label_delim ++ ['E', '1', '}'], label_delim ++ ['E', '2', '}']], [],
        Status.success⟩ := by
  decide

/-- One table for all lines: `build_labels` returns one table for the whole
input, which holds every definition that the scan finds; every line that `main`
writes, the first included, is the result of `replace_refs_in_line` with that
table; so a line with one reference to a name defined anywhere in the input,
also on a later line, is written with the index of that name. -/
theorem forward_references (fuel : Nat) (input pattern_in pattern_out : List Char)
    (ignore_comments : Bool) :
    ∃ t w, build_labels input pattern_in ignore_comments = some (t, w) ∧
      (∀ d ∈ definitions input pattern_in ignore_comments, ∃ i, map_find t d.1 = some i) ∧
      (∀ k line', (main fuel input pattern_in pattern_out ignore_comments).output[k]? =
          some line' →
        ∃ l warns, (getlines input)[k]? = some l ∧
          replace_refs_in_line fuel l pattern_in pattern_out t canonical_refs (k + 1)
            ignore_comments = LineResult.done line' warns) ∧
      (∀ (k n : Nat) (pre delim name post line' : List Char),
        (getlines input)[k]? = some (pre ++ delim ++ name ++ ['}'] ++ post) →
        (name, n) ∈ definitions input pattern_in ignore_comments →
        (pre ++ delim ++ name ++ ['}'] ++ post).length < fuel →
        delim ∈ canonical_refs → '\\' ∉ name → '}' ∉ name → '\\' ∉ pre → '%' ∉ pre →
        '\\' ∉ post → '\\' ∉ pattern_out →
        (main fuel input pattern_in pattern_out ignore_comments).output[k]? = some line' →
        ∃ i, map_find t name = some i ∧
          line' = pre ++ delim ++ pattern_out ++ to_string i ++ ['}'] ++ post) := by
  have hres := build_labels_eq input pattern_in ignore_comments
  have hall : ∀ d ∈ definitions input pattern_in ignore_comments,
      ∃ i, map_find (register_all ⟨[], 1, []⟩
        (definitions input pattern_in ignore_comments)).result d.1 = some i :=
    fun d hd => register_all_mem _ _ d.1 (List.mem_map_of_mem Prod.fst hd)
  have hout := (main_output fuel input pattern_in pattern_out ignore_comments _ _ hres).1
  refine ⟨_, _, hres, hall, hout, ?_⟩
  intro k n pre delim name post line' hline hdef hfuel hdelim hname hclose hpre hcomment hpost
    hpo hk
  obtain ⟨i, hi⟩ := hall (name, n) hdef
  refine ⟨i, hi, ?_⟩
  obtain ⟨l, warns, g1, g2⟩ := hout k line' hk
  rw [hline] at g1
  simp only [Option.some.injEq] at g1
  subst g1
  obtain ⟨f, rfl⟩ : ∃ f, fuel = f + 2 := by
    refine ⟨fuel - 2, ?_⟩
    simp only [List.length_append, List.length_cons, List.length_nil] at hfuel
    omega
  have e : pre ++ delim ++ name ++ ['}'] ++ post = pre ++ (delim ++ (name ++ '}' :: post)) := by
    simp
  unfold replace_refs_in_line at g2
  rw [e, replace_kinds_single delim pre name post pattern_in pattern_out _ (k + 1) _ f i
    hdelim hpre hname hclose hpost hpo hi
    (beyond_comment_pos pre _ ignore_comments hcomment)] at g2
  simp only [LineResult.done.injEq] at g2
  rw [← g2.1]
  simp

/-- A forward reference that is rewritten: on the input `\ref{eq:a}` / `\label{eq:a}` with the
prefix `eq:` and the replacement `E` the output is `\ref{E1}` / `\label{E1}`. -/
theorem forward_references_witness :
    main 64 input_forward pat_eq ['E'] true =
        ⟨[ref_delim ++ ['E', '1', '}'], label_delim ++ ['E', '1', '}']], [], Status.success⟩ ∧
      definitions input_forward pat_eq true = [(eq_a, 2)] ∧
      ∃ t w, build_labels input_forward pat_eq true = some (t, w) ∧
        (∀ d ∈ definitions input_forward pat_eq true, ∃ i, map_find t d.1 = some i) ∧
        (∀ k line', (main 64 input_forward pat_eq ['E'] true).output[k]? = some line' →
          ∃ l warns, (getlines input_forward)[k]? = some l ∧
            replace_refs_in_line 64 l pat_eq ['E'] t canonical_refs (k + 1) true =
              LineResult.done line' warns) ∧
        (∀ (k n : Nat) (pre delim name post line' : List Char),
          (getlines input_forward)[k]? = some (pre ++ delim ++ name ++ ['}'] ++ post) →
          (name, n) ∈ definitions input_forward pat_eq true →
          (pre ++ delim ++ name ++ ['}'] ++ post).length < 64 →
          delim ∈ canonical_refs → '\\' ∉ name → '}' ∉ name → '\\' ∉ pre → '%' ∉ pre →
          '\\' ∉ post → '\\' ∉ ['E'] →
          (main 64 input_forward pat_eq ['E'] true).output[k]? = some line' →
          ∃ i, map_find t name = some i ∧
            line' = pre ++ delim ++ ['E'] ++ to_string i ++ ['}'] ++ post) :=
  ⟨by decide, by decide, forward_references 64 input_forward pat_eq ['E'] true⟩

/-- The writes of a run: when the run succeeds, `main` has written once
for every line of the input, and the `k`-th text written is what
`replace_refs_in_line` returns for the `k`-th line of the input with the line
number `k` and the table of `build_labels`. -/
theorem round_trip_writes (fuel : Nat) (input pattern_in pattern_out : List Char)
    (ignore_comments : Bool)
    (hs : (main fuel input pattern_in pattern_out ignore_comments).status = Status.success) :
    ∃ t w, build_labels input pattern_in ignore_comments = some (t, w) ∧
      (main fuel input pattern_in pattern_out ignore_comments).output.length =
        (getlines input).length ∧
      ∀ k l, (getlines input)[k]? = some l →
        ∃ line' warns,
          (main fuel input pattern_in pattern_out ignore_comments).output[k]? = some line' ∧
          replace_refs_in_line fuel l pattern_in pattern_out t canonical_refs (k + 1)
            ignore_comments = LineResult.done line' warns := by
  have hres := build_labels_eq input pattern_in ignore_comments
  obtain ⟨h1, h2⟩ := main_output fuel input pattern_in pattern_out ignore_comments _ _ hres
  have hlen := h2 hs
  refine ⟨_, _, hres, hlen, ?_⟩
  intro k l hk
  have hklt : k < (getlines input).length := by
    by_contra hge
    rw [List.getElem?_eq_none (by omega)] at hk
    simp at hk
  have hko : k < (main fuel input pattern_in pattern_out ignore_comments).output.length := by
    omega
  obtain ⟨l', warns, g1, g2⟩ := h1 k _ (List.getElem?_eq_getElem hko)
  rw [hk] at g1
  simp only [Option.some.injEq] at g1
  subst g1
  exact ⟨_, warns, List.getElem?_eq_getElem hko, g2⟩

/-- The input `\ref{eq:a}` / `\label{eq:a}` is an example: two lines
in, two writes. -/
theorem round_trip_writes_example :
    (main 64 input_forward pat_eq ['E'] true).status = Status.success ∧
    (getlines input_forward).length = 2 ∧
    ∃ t w, build_labels input_forward pat_eq true = some (t, w) ∧
      (main 64 input_forward pat_eq ['E'] true).output.length = (getlines input_forward).length ∧
      ∀ k l, (getlines input_forward)[k]? = some l →
        ∃ line' warns,
          (main 64 input_forward pat_eq ['E'] true).output[k]? = some line' ∧
          replace_refs_in_line 64 l pat_eq ['E'] t canonical_refs (k + 1) true =
            LineResult.done line' warns :=
  ⟨by decide, by decide, round_trip_writes 64 input_forward pat_eq ['E'] true (by decide)⟩

/-! ## The scanner: comments -/

theorem getlines_append_newline (rest : List Char) :
    ∀ (l : List Char), '\n' ∉ l → getlines (l ++ '\n' :: rest) = l :: getlines rest := by
  intro l
  induction l with
  | nil => intro _; simp [getlines]
  | cons c cs ih =>
    intro h
    have hc : ¬ c = '\n' := fun e => h (List.mem_cons.mpr (Or.inl e.symm))
    have hcs : '\n' ∉ cs := fun e => h (List.mem_cons_of_mem _ e)
    show getlines (c :: (cs ++ '\n' :: rest)) = _
    rw [getlines, if_neg hc, ih hcs]

theorem getlines_unlines :
    ∀ (ls : List (List Char)), (∀ l ∈ ls, '\n' ∉ l) → getlines (unlines ls) = ls := by
  intro ls
  induction ls with
  | nil => intro _; simp [unlines, getlines]
  | cons l rest ih =>
    intro h
    have e : unlines (l :: rest) = l ++ '\n' :: unlines rest := by
      simp [unlines, List.flatMap_cons]
    rw [e, getlines_append_newline _ l (h l (List.mem_cons_self _ _)),
      ih (fun x hx => h x (List.mem_cons_of_mem _ hx))]

theorem getlines_no_newline :
    ∀ (s : List Char), ∀ l ∈ getlines s, '\n' ∉ l := by
  intro s
  induction s with
  | nil => intro l h; simp [getlines] at h
  | cons c cs ih =>
    intro l h
    simp only [getlines] at h
    split at h
    · simp only [List.mem_cons] at h
      rcases h with rfl | h
      · simp
      · exact ih l h
    · rename_i hc
      split at h
      · simp only [List.mem_singleton] at h
        subst h
        simpa using fun e : '\n' = c => hc e.symm
      · rename_i l' ls' hg
        simp only [List.mem_cons] at h
        rcases h with rfl | h
        · have := ih l' (by rw [hg]; simp)
          simp only [List.mem_cons, not_or]
          exact ⟨fun e => hc e.symm, this⟩
        · exact ih l (by rw [hg]; simp [h])

theorem cut_comment_some :
    ∀ (s : List Char) (off r : Nat), find_from ['%'] s off = some r →
      cut_comment s = s.take (r - off) := by
  intro s
  induction s with
  | nil => intro off r h; simp [find_from, List.isPrefixOf] at h
  | cons c cs ih =>
    intro off r h
    by_cases hc : c = '%'
    · subst hc
      simp only [find_from, List.isPrefixOf, beq_self_eq_true, Bool.and_self, if_true,
        Option.some.injEq] at h
      subst h
      simp [cut_comment]
    · have hc' : ¬ '%' = c := fun e => hc e.symm
      have hp : ['%'].isPrefixOf (c :: cs) = false := by
        simp [List.isPrefixOf, hc']
      simp only [find_from, hp, Bool.false_eq_true, if_false] at h
      have hle := (find_from_char_some '%' cs (off + 1) r h).1
      have e : r - off = (r - (off + 1)) + 1 := by omega
      have hi := ih _ _ h
      unfold cut_comment at hi ⊢
      rw [List.takeWhile_cons, e, List.take_succ_cons, ← hi]
      simp [hc]

theorem cut_comment_none :
    ∀ (s : List Char) (off : Nat), find_from ['%'] s off = none → cut_comment s = s := by
  intro s
  induction s with
  | nil => intro off _; rfl
  | cons c cs ih =>
    intro off h
    by_cases hc : c = '%'
    · subst hc
      simp [find_from, List.isPrefixOf] at h
    · have hc' : ¬ '%' = c := fun e => hc e.symm
      have hp : ['%'].isPrefixOf (c :: cs) = false := by
        simp [List.isPrefixOf, hc']
      simp only [find_from, hp, Bool.false_eq_true, if_false] at h
      have hi := ih _ h
      unfold cut_comment at hi ⊢
      rw [List.takeWhile_cons, hi]
      simp [hc]

/-- The active portion that `build_labels` scans with `ignore_comments` is the
line truncated at its first `%`. -/
theorem active_eq_cut (line : List Char) : active true line = cut_comment line := by
  simp only [active, if_true, find_char, find, Nat.not_lt_zero, if_false, List.drop_zero]
  cases h : find_from ['%'] line 0 with
  | none => simp only [cut_comment_none line 0 h]
  | some r => simp only [cut_comment_some line 0 r h, erase, Nat.sub_zero]

/-- The lines of the truncated input are the lines of the input, each truncated
at its first `%`. -/
theorem getlines_truncate_comments (input : List Char) :
    getlines (truncate_comments input) = (getlines input).map cut_comment := by
  unfold truncate_comments
  apply getlines_unlines
  intro l hl
  obtain ⟨l', hl', rfl⟩ := List.mem_map.mp hl
  exact fun h => getlines_no_newline input l' hl'
    ((List.takeWhile_prefix _).subset h)

theorem defs_of_lines_active (pattern_in : List Char) :
    ∀ (lines : List (List Char)) (line_no : Nat),
      defs_of_lines pattern_in false (lines.map (active true)) line_no =
        defs_of_lines pattern_in true lines line_no := by
  intro lines
  induction lines with
  | nil => intro line_no; simp [defs_of_lines]
  | cons l rest ih =>
    intro line_no
    simp only [List.map_cons, defs_of_lines, ih]
    simp [active]

theorem defs_of_lines_cut (pattern_in : List Char) (lines : List (List Char)) (line_no : Nat) :
    defs_of_lines pattern_in false (lines.map cut_comment) line_no =
      defs_of_lines pattern_in true lines line_no := by
  rw [← defs_of_lines_active]
  congr 1
  apply List.map_congr_left
  intro l _
  exact (active_eq_cut l).symm

/-- The scan with `ignore_comments` is the scan without it of the truncated
input. -/
theorem build_labels_truncate (input pattern_in : List Char) :
    build_labels input pattern_in true =
      build_labels (truncate_comments input) pattern_in false := by
  rw [build_labels_eq, build_labels_eq]
  simp only [definitions, getlines_truncate_comments, defs_of_lines_cut]

/-! ## The rewriter: the comment flag, the resume position, the older variant -/

/-- C14 (the comment flag on a line without a comment), evaluated: with the
table `eq:a -> 1` and the replacement `EquationNumber`, the line
`\ref{eq:a}\ref{eq:a}`, which has no `%`, comes back with both references
rewritten when `ignore_comments = true` and with the second one untouched when
`ignore_comments = false`. -/
theorem comment_flag_changes_line :
    '%' ∉ two_short_refs ∧
      replace_refs_in_line 64 two_short_refs pat_eq long_replacement table_a canonical_refs 1
          true =
        LineResult.done (ref_delim ++ long_replacement ++ ['1', '}'] ++ ref_delim ++
          long_replacement ++ ['1', '}']) [] ∧
      replace_refs_in_line 64 two_short_refs pat_eq long_replacement table_a canonical_refs 1
          false =
        LineResult.done (ref_delim ++ long_replacement ++ ['1', '}'] ++ ref_delim ++
          eq_a ++ ['}']) [] ∧
      comment_pos false two_short_refs = some 20 ∧
      find (ref_delim ++ long_replacement ++ ['1', '}'] ++ ref_delim ++ eq_a ++ ['}'])
        ref_delim 9 = some 21 := by
  decide

/-- C17 (resume position after a replacement), evaluated.  With the table
`eq:energy -> 1`, `eq:a -> 2` and the replacement `E`, the line
`\eqref{eq:energy} and \eqref{eq:a}` comes back as `\eqref{E1} and \eqref{eq:a}`:
in the modified line the closing brace is at position 9 and the second
`\eqref{` at 15, but the search resumes at 16, the place of the brace before
the replacement.  With the table `eq:a -> 1` and the replacement
`see \ref{eq:zz}`, the line `\ref{eq:a}` gets a warning for `\ref{eq:zz}`: the
search resumes inside the inserted text. -/
theorem resume_position_is_old_brace :
    replace_refs_in_line 64 energy_and_a pat_eq ['E'] table_energy_a canonical_refs 1 true =
        LineResult.done (eqref_delim ++ ['E', '1', '}', ' ', 'a', 'n', 'd', ' '] ++
          eqref_delim ++ eq_a ++ ['}']) [] ∧
      find_char energy_and_a '}' 0 = some 16 ∧
      find_char (eqref_delim ++ ['E', '1', '}', ' ', 'a', 'n', 'd', ' '] ++
          eqref_delim ++ eq_a ++ ['}']) '}' 0 = some 9 ∧
      find (eqref_delim ++ ['E', '1', '}', ' ', 'a', 'n', 'd', ' '] ++
          eqref_delim ++ eq_a ++ ['}']) eqref_delim 9 = some 15 ∧
      find (eqref_delim ++ ['E', '1', '}', ' ', 'a', 'n', 'd', ' '] ++
          eqref_delim ++ eq_a ++ ['}']) eqref_delim 16 = none ∧
      replace_refs_in_line 64 ref_a pat_eq see_undefined table_a canonical_refs 1 true =
        LineResult.done (ref_delim ++ see_undefined ++ ['1', '}'])
          [Diag.undefined ref_delim ['e', 'q', ':', 'z', 'z'] 1] := by
  decide

/-- C19 (old and new rewriter), evaluated: with the table `eq:energy -> 1` and
the replacement `E`, the line `\eqref{eq:energy} % see \eqref{eq:energy}` is
written as `\eqref{E1} % see \eqref{E1}` by `replace_refs_in_line` and as
`\eqref{E1} % see \eqref{eq:energy}` by the older `replace_refs`. -/
theorem old_and_new_rewriter_differ :
    replace_refs_in_line 64 eqref_then_comment pat_eq ['E'] table_energy canonical_refs 1 true =
        LineResult.done (eqref_delim ++ ['E', '1', '}', ' ', '%', ' ', 's', 'e', 'e', ' '] ++
          eqref_delim ++ ['E', '1', '}']) [] ∧
      Old.replace_refs 64 eqref_then_comment pat_eq ['E'] table_energy canonical_refs 1 =
        LineResult.done (eqref_delim ++ ['E', '1', '}', ' ', '%', ' ', 's', 'e', 'e', ' '] ++
          eqref_delim ++ eq_energy ++ ['}']) [] := by
  decide

/-! ## The scanner: the prefix as a regular expression -/

/-- C20 (the prefix as literal text), evaluated: with the prefix `eq.` the
scanner registers the definition `\label{eq:a}`, whose inner text `eq:a` does
not begin with `eq.`; the run then rewrites the references to it. -/
theorem wildcard_prefix_registers :
    build_labels label_a pat_dot true = some ([(eq_a, 1)], []) ∧
      compare_zero eq_a pat_dot = false ∧
      main 64 input_label_ref pat_dot ['E'] true =
        ⟨[label_delim ++ ['E', '1', '}'], ref_delim ++ ['E', '1', '}']], [],
          Status.success⟩ := by
  decide

/-! ## The rewriter: a replacement that contains a reference -/

theorem repeat_text_length (x : List Char) :
    ∀ k, (repeat_text x k).length = k * x.length := by
  intro k
  induction k with
  | zero => simp [repeat_text]
  | succ k ih => simp [repeat_text, ih, Nat.succ_mul, Nat.add_comm]

theorem repeat_text_snoc (x : List Char) :
    ∀ k, repeat_text x k ++ x = x ++ repeat_text x k := by
  intro k
  induction k with
  | zero => simp [repeat_text]
  | succ k ih => simp [repeat_text, ih]

theorem nested_length_prefix (k : Nat) : (repeat_text ref_see k).length = 9 * k := by
  rw [repeat_text_length]
  simp [ref_see, ref_delim, Nat.mul_comm]

/-- One iteration of the loop on the line after `k` replacements: the
reference inside the inserted text is found and replaced in turn. -/
theorem nested_step (pattern_in : List Char) (line_no f k : Nat) (w : List Diag) :
    replace_loop ref_delim pattern_in see_ref_a table_a line_no none (f + 1) (nested k)
        (9 * k) w =
      replace_loop ref_delim pattern_in see_ref_a table_a line_no none f (nested (k + 1))
        (9 * (k + 1)) w := by
  have hlen := nested_length_prefix k
  have hfind : find (nested k) ref_delim (9 * k) = some (9 * k) := by
    unfold find nested
    rw [if_neg (by simp [hlen])]
    rw [List.drop_left' hlen]
    simp [find_from, ref_a, ref_delim, List.isPrefixOf]
  have hbrace : find_char (nested k) '}' (9 * k) = some (9 * k + 9) := by
    have := find_char_first (repeat_text ref_see k) (ref_delim ++ eq_a)
      (repeat_text ['1', '}'] k) '}' (by decide)
    rw [hlen] at this
    simpa [nested, ref_a, List.append_assoc] using this
  have hsize : size_sub (9 * k + 9) (9 * k + ref_delim.length) = 4 := by
    unfold size_sub
    simp only [ref_delim, List.length_cons, List.length_nil]
    rw [if_pos (by omega)]
    omega
  have hdrop : List.drop (9 * k + ref_delim.length) (nested k) =
      eq_a ++ '}' :: repeat_text ['1', '}'] k := by
    have e : nested k = (repeat_text ref_see k ++ ref_delim) ++
        (eq_a ++ '}' :: repeat_text ['1', '}'] k) := by
      simp [nested, ref_a, List.append_assoc]
    rw [e, List.drop_left' (by simp [hlen])]
  have htake : List.take (9 * k + ref_delim.length) (nested k) =
      repeat_text ref_see k ++ ref_delim := by
    have e : nested k = (repeat_text ref_see k ++ ref_delim) ++
        (eq_a ++ '}' :: repeat_text ['1', '}'] k) := by
      simp [nested, ref_a, List.append_assoc]
    rw [e, List.take_left' (by simp [hlen])]
  have hsub : substr (nested k) (9 * k + ref_delim.length) 4 = eq_a := by
    unfold substr
    rw [hdrop]
    rfl
  have hrep : replace (nested k) (9 * k + ref_delim.length) 4 (see_ref_a ++ to_string 1) =
      nested (k + 1) := by
    unfold replace
    rw [htake, hdrop]
    have e1 : List.drop 4 (eq_a ++ '}' :: repeat_text ['1', '}'] k) =
        '}' :: repeat_text ['1', '}'] k := rfl
    have e2 : to_string 1 = ['1'] := by decide
    have e3 : repeat_text ref_see k ++ ref_delim ++ (see_ref_a ++ ['1']) =
        (repeat_text ref_see k ++ ref_see) ++ (ref_a ++ ['1']) := by
      simp [see_ref_a, ref_see, List.append_assoc]
    rw [e1, e2, e3, repeat_text_snoc]
    simp [nested, repeat_text, List.append_assoc]
  have hkey : map_find table_a eq_a = some 1 := by decide
  have hnext : 9 * k + 9 = 9 * (k + 1) := by omega
  rw [replace_loop]
  simp only [hfind, beyond, Bool.false_eq_true, if_false, hbrace, hsize, hsub, hkey, hrep]
  rw [hnext]

/-- The loop for `\ref{` on the line after `k` replacements never ends. -/
theorem nested_loop_timeout (pattern_in : List Char) (line_no : Nat) :
    ∀ (f k : Nat) (w : List Diag),
      replace_loop ref_delim pattern_in see_ref_a table_a line_no none f (nested k) (9 * k) w =
        LineResult.timeout := by
  intro f
  induction f with
  | zero => intro k w; rfl
  | succ f ih =>
    intro k w
    rw [nested_step]
    exact ih (k + 1) w

/-- C18 (termination of the rewriter), evaluated: with the table `eq:a -> 1`
and the replacement `see \ref{eq:a}`, which contains `\ref{` followed by the
name of a defined label, the loop of `replace_refs_in_line` on the line
`\ref{eq:a}` does not end, however many iterations it is given: every
iteration replaces the reference inside the text inserted by the one before. -/
theorem replacement_with_reference_loops (fuel : Nat) :
    replace_refs_in_line fuel ref_a pat_eq see_ref_a table_a canonical_refs 1 true =
      LineResult.timeout := by
  cases fuel with
  | zero => rfl
  | succ f =>
    have hpos : comment_pos true ref_a = none := by decide
    have h1 : find ref_a label_delim 0 = none := by decide
    have h2 : find ref_a eqref_delim 0 = none := by decide
    have hline : ref_a = nested 0 := by decide
    have hc : canonical_refs = label_delim :: eqref_delim :: ref_delim :: canonical_refs.drop 3 :=
      by decide
    have l1 : replace_loop label_delim pat_eq see_ref_a table_a 1 none (f + 1) ref_a 0 [] =
        LineResult.done ref_a [] := by
      rw [replace_loop]
      simp only [h1]
    have l2 : replace_loop eqref_delim pat_eq see_ref_a table_a 1 none (f + 1) ref_a 0 [] =
        LineResult.done ref_a [] := by
      rw [replace_loop]
      simp only [h2]
    have l3 := nested_loop_timeout pat_eq 1 (f + 1) 0 []
    rw [Nat.mul_zero, ← hline] at l3
    unfold replace_refs_in_line
    rw [hpos, hc, replace_kinds, l1]
    simp only
    rw [replace_kinds, l2]
    simp only
    rw [replace_kinds, l3]

/-! ## The report: `map_by_value` and `log` -/

theorem idx_find_assign (m : IdxTable) (i : Nat) (l : List Char) (j : Nat) :
    idx_find (idx_assign m i l) j = if j = i then some l else idx_find m j := by
  induction m with
  | nil => simp [idx_assign, idx_find]
  | cons hd tl ih =>
    obtain ⟨i', l'⟩ := hd
    by_cases h1 : i = i'
    · subst h1
      by_cases h4 : j = i <;> simp [idx_assign, idx_find, h4]
    · by_cases h2 : i < i'
      · by_cases h4 : j = i <;> simp [idx_assign, idx_find, h1, h2, h4]
      · by_cases h4 : j = i
        · subst h4
          simp [idx_assign, idx_find, h1, h2, ih]
        · simp [idx_assign, idx_find, h1, h2, h4, ih]

theorem mem_idx_keys_iff (m : IdxTable) (i : Nat) :
    i ∈ m.map Prod.fst ↔ idx_find m i ≠ none := by
  induction m with
  | nil => simp [idx_find]
  | cons hd tl ih =>
    obtain ⟨i', l'⟩ := hd
    by_cases h : i = i'
    · simp [idx_find, h]
    · simp [idx_find, h, ih]

theorem idx_find_of_mem (m : IdxTable) (hnd : (m.map Prod.fst).Nodup) (i : Nat)
    (l : List Char) (h : (i, l) ∈ m) : idx_find m i = some l := by
  induction m with
  | nil => simp at h
  | cons hd tl ih =>
    obtain ⟨i', l'⟩ := hd
    simp only [List.map_cons, List.nodup_cons] at hnd
    simp only [List.mem_cons, Prod.mk.injEq] at h
    rcases h with ⟨rfl, rfl⟩ | h
    · simp [idx_find]
    · have hne : ¬ i = i' := by
        intro e
        apply hnd.1
        rw [← e]
        exact List.mem_map_of_mem Prod.fst h
      simp only [idx_find, hne, if_false]
      exact ih hnd.2 h

theorem map_find_of_mem (t : Table) (hnd : (keys t).Nodup) (k : List Char) (v : Nat)
    (h : (k, v) ∈ t) : map_find t k = some v := by
  induction t with
  | nil => simp at h
  | cons hd tl ih =>
    obtain ⟨k', v'⟩ := hd
    simp only [keys, List.map_cons, List.nodup_cons] at hnd
    simp only [List.mem_cons, Prod.mk.injEq] at h
    rcases h with ⟨rfl, rfl⟩ | h
    · simp [map_find]
    · have hne : ¬ k = k' := by
        intro e
        apply hnd.1
        rw [← e]
        exact List.mem_map_of_mem Prod.fst h
      simp only [map_find, hne, if_false]
      exact ih hnd.2 h

theorem mem_of_map_find (t : Table) (k : List Char) (v : Nat) (h : map_find t k = some v) :
    (k, v) ∈ t := by
  induction t with
  | nil => simp [map_find] at h
  | cons hd tl ih =>
    obtain ⟨k', v'⟩ := hd
    simp only [map_find] at h
    split at h
    · rename_i e
      simp only [Option.some.injEq] at h
      simp [e, h]
    · exact List.mem_cons_of_mem _ (ih h)

/-- The assignment keeps the entries in ascending index order. -/
theorem idx_assign_sorted (m : IdxTable) (i : Nat) (l : List Char)
    (h : (m.map Prod.fst).Pairwise (· < ·)) :
    ((idx_assign m i l).map Prod.fst).Pairwise (· < ·) := by
  induction m with
  | nil => simp [idx_assign]
  | cons hd tl ih =>
    obtain ⟨i', l'⟩ := hd
    simp only [List.map_cons, List.pairwise_cons] at h
    obtain ⟨h1, h2⟩ := h
    simp only [idx_assign]
    split
    · rename_i e
      subst e
      simp only [List.map_cons, List.pairwise_cons]
      exact ⟨h1, h2⟩
    · split
      · rename_i hlt
        simp only [List.map_cons, List.pairwise_cons, List.mem_cons]
        refine ⟨?_, h1, h2⟩
        intro a ha
        rcases ha with rfl | ha
        · exact hlt
        · exact Nat.lt_trans hlt (h1 a ha)
      · rename_i hne hlt
        simp only [List.map_cons, List.pairwise_cons]
        refine ⟨?_, ih h2⟩
        intro a ha
        rw [mem_idx_keys_iff, idx_find_assign] at ha
        by_cases e : a = i
        · subst e; omega
        · simp only [e, if_false] at ha
          exact h1 a ((mem_idx_keys_iff tl a).mpr ha)

theorem fold_idx_sorted (labels : Table) :
    ∀ (m : IdxTable), (m.map Prod.fst).Pairwise (· < ·) →
      ((labels.foldl (fun result elem => idx_assign result elem.2 elem.1) m).map
        Prod.fst).Pairwise (· < ·) := by
  induction labels with
  | nil => intro m h; simpa using h
  | cons e rest ih =>
    intro m h
    simp only [List.foldl_cons]
    exact ih _ (idx_assign_sorted m e.2 e.1 h)

theorem fold_idx_find_none (labels : Table) (i : Nat) :
    ∀ (m : IdxTable), (∀ e ∈ labels, e.2 ≠ i) →
      idx_find (labels.foldl (fun result elem => idx_assign result elem.2 elem.1) m) i =
        idx_find m i := by
  induction labels with
  | nil => intro m _; rfl
  | cons e rest ih =>
    intro m h
    simp only [List.foldl_cons]
    rw [ih _ (fun x hx => h x (List.mem_cons_of_mem _ hx)), idx_find_assign]
    have : ¬ i = e.2 := fun c => h e (List.mem_cons_self _ _) c.symm
    simp [this]

theorem fold_idx_find_mem (labels : Table) (i : Nat) (name : List Char) :
    ∀ (m : IdxTable),
      idx_find (labels.foldl (fun result elem => idx_assign result elem.2 elem.1) m) i =
        some name →
      (name, i) ∈ labels ∨ idx_find m i = some name := by
  induction labels with
  | nil => intro m h; right; exact h
  | cons e rest ih =>
    intro m h
    simp only [List.foldl_cons] at h
    rcases ih _ h with h' | h'
    · left; exact List.mem_cons_of_mem _ h'
    · rw [idx_find_assign] at h'
      split at h'
      · rename_i c
        simp only [Option.some.injEq] at h'
        left
        have : e = (name, i) := Prod.ext h' c.symm
        rw [this]
        exact List.mem_cons_self _ _
      · right; exact h'

theorem fold_idx_find_of_mem (labels : Table) (i : Nat) (name : List Char)
    (huniq : ∀ e ∈ labels, e.2 = i → e.1 = name) :
    ∀ (m : IdxTable), (name, i) ∈ labels →
      idx_find (labels.foldl (fun result elem => idx_assign result elem.2 elem.1) m) i =
        some name := by
  induction labels with
  | nil => intro m h; simp at h
  | cons e rest ih =>
    intro m h
    simp only [List.foldl_cons]
    by_cases hr : (name, i) ∈ rest
    · exact ih (fun x hx => huniq x (List.mem_cons_of_mem _ hx)) _ hr
    · have he : e = (name, i) := by
        rcases List.mem_cons.mp h with h | h
        · exact h.symm
        · exact absurd h hr
      subst he
      rw [fold_idx_find_none rest i _ ?_, idx_find_assign]
      · simp
      · intro x hx c
        apply hr
        have := huniq x (List.mem_cons_of_mem _ hx) c
        have hx' : x = (name, i) := Prod.ext this c
        rw [← hx']
        exact hx

/-- For a table with distinct keys whose indices are the numbers 1, ..., N,
each under one key, `map_by_value` has the indices 1, ..., N in this order and
is the inverse of the table. -/
theorem map_by_value_spec (t : Table) (hnd : (keys t).Nodup)
    (hinj : ∀ k k' i, map_find t k = some i → map_find t k' = some i → k = k')
    (hrange : ∀ i, (∃ k, map_find t k = some i) ↔ 1 ≤ i ∧ i ≤ (keys t).length) :
    (map_by_value t).map Prod.fst = List.range' 1 (keys t).length ∧
      ∀ i name, idx_find (map_by_value t) i = some name ↔ map_find t name = some i := by
  have hinv : ∀ i name, idx_find (map_by_value t) i = some name ↔ map_find t name = some i := by
    intro i name
    constructor
    · intro h
      rcases fold_idx_find_mem t i name [] h with h' | h'
      · exact map_find_of_mem t hnd name i h'
      · simp [idx_find] at h'
    · intro h
      apply fold_idx_find_of_mem t i name _ [] (mem_of_map_find t name i h)
      intro e he c
      have h1 : map_find t e.1 = some i := by
        rw [← c]
        exact map_find_of_mem t hnd e.1 e.2 he
      exact hinj _ _ _ h1 h
  refine ⟨?_, hinv⟩
  have hsorted : ((map_by_value t).map Prod.fst).Pairwise (· < ·) :=
    fold_idx_sorted t [] (by simp)
  have hmem : ∀ i, i ∈ (map_by_value t).map Prod.fst ↔ i ∈ List.range' 1 (keys t).length := by
    intro i
    rw [mem_idx_keys_iff, List.mem_range'_1]
    constructor
    · intro h
      cases hf : idx_find (map_by_value t) i with
      | none => exact absurd hf h
      | some name =>
        have := (hrange i).mp ⟨name, (hinv i name).mp hf⟩
        omega
    · intro h
      obtain ⟨name, hn⟩ := (hrange i).mpr ⟨h.1, by omega⟩
      rw [(hinv i name).mpr hn]
      simp
  have hnd' : ((map_by_value t).map Prod.fst).Nodup :=
    hsorted.imp (fun h => Nat.ne_of_lt h)
  have hperm := (List.perm_ext_iff_of_nodup hnd' (List.nodup_range' 1 (keys t).length)).mpr hmem
  exact List.eq_of_perm_of_sorted hperm hsorted (List.pairwise_lt_range' 1 (keys t).length)

/-- The two-way table and the entries of the report: for the table `t` with N
keys that `build_labels` returns, `map_by_value t` has N entries, with the
indices 1, ..., N in ascending order, and is the inverse of `t`; the loop of
`log` writes N texts, the `i`-th being the name with index `i`, the text ` -> `,
the replacement and the decimal of `i`. -/
theorem report_entries (input pattern_in pattern_out : List Char) (ignore_comments : Bool)
    (t : Table) (w : List Diag)
    (hres : build_labels input pattern_in ignore_comments = some (t, w)) :
    (map_by_value t).length = (keys t).length ∧
      (map_by_value t).map Prod.fst = List.range' 1 (keys t).length ∧
      (∀ i name, idx_find (map_by_value t) i = some name ↔ map_find t name = some i) ∧
      (log_entries t pattern_out).length = (keys t).length ∧
      (∀ k, k < (keys t).length → ∃ name, map_find t name = some (k + 1) ∧
        (log_entries t pattern_out)[k]? = some (name ++ arrow ++ pattern_out ++ to_string (k + 1))) := by
  have inv := scanInv_register_all (definitions input pattern_in ignore_comments) _ scanInv_init
  rw [build_labels_eq] at hres
  simp only [Option.some.injEq, Prod.mk.injEq] at hres
  have hlo := inv.lo
  have hhi := inv.hi
  have hinj := inv.inj
  have hcard := inv.card
  have hnodup := inv.nodup
  rw [hres.1] at hlo hhi hinj hcard hnodup
  have hrange : ∀ i, (∃ k, map_find t k = some i) ↔ 1 ≤ i ∧ i ≤ (keys t).length := by
    intro i
    constructor
    · rintro ⟨k, hk⟩
      have := hlo k i hk
      omega
    · rintro ⟨h1, h2⟩
      exact hhi i h1 (by omega)
  obtain ⟨hkeys, hinv⟩ := map_by_value_spec t hnodup hinj hrange
  have hlen : (map_by_value t).length = (keys t).length := by
    have := congrArg List.length hkeys
    simpa using this
  refine ⟨hlen, hkeys, hinv, by simp [log_entries, hlen], ?_⟩
  intro k hk
  have hk' : k < (map_by_value t).length := by omega
  have hfst : ((map_by_value t)[k]).1 = k + 1 := by
    have h1 : ((map_by_value t).map Prod.fst)[k]? = some ((map_by_value t)[k]).1 := by
      simp [List.getElem?_eq_getElem hk']
    rw [hkeys, List.getElem?_range'] at h1
    · simp only [Option.some.injEq] at h1
      omega
    · exact hk
  have hnd : ((map_by_value t).map Prod.fst).Nodup := by
    rw [hkeys]; exact List.nodup_range' 1 _
  have hmem : (((map_by_value t)[k]).1, ((map_by_value t)[k]).2) ∈ map_by_value t :=
    List.getElem_mem hk'
  have hfind := idx_find_of_mem _ hnd _ _ hmem
  rw [hfst] at hfind
  refine ⟨((map_by_value t)[k]).2, (hinv _ _).mp hfind, ?_⟩
  simp [log_entries, List.getElem?_eq_getElem hk', hfst]

/-- The input `\label{eq:energy}` / `\label{eq:a}` with the prefix `eq:` is an
example: the table is stored as `eq:a -> 2`, `eq:energy -> 1`, and the
report is `eq:energy -> E1`, `eq:a -> E2`. -/
theorem report_entries_example :
    build_labels input_energy_a pat_eq true = some (table_energy_a, []) ∧
    log_entries table_energy_a ['E'] = [eq_energy ++ arrow ++ ['E', '1'], eq_a ++ arrow ++ ['E', '2']] ∧
    ((map_by_value table_energy_a).length = (keys table_energy_a).length ∧
      (map_by_value table_energy_a).map Prod.fst = List.range' 1 (keys table_energy_a).length ∧
      (∀ i name, idx_find (map_by_value table_energy_a) i = some name ↔
        map_find table_energy_a name = some i) ∧
      (log_entries table_energy_a ['E']).length = (keys table_energy_a).length ∧
      (∀ k, k < (keys table_energy_a).length → ∃ name,
        map_find table_energy_a name = some (k + 1) ∧
        (log_entries table_energy_a ['E'])[k]? = some (name ++ arrow ++ ['E'] ++ to_string (k + 1)))) :=
  ⟨by decide, by decide,
    report_entries input_energy_a pat_eq ['E'] true table_energy_a [] (by decide)⟩

/-! ## The older variant on a line without a comment -/

theorem old_loop_eq (elem pattern_in pattern_out : List Char) (labels : Table) (line_no : Nat) :
    ∀ (f : Nat) (line : List Char) (e : Nat) (w : List Diag),
      replace_loop elem pattern_in pattern_out labels line_no none f line e w =
        Old.replace_line_loop elem pattern_in pattern_out labels line_no f line e w := by
  intro f
  induction f with
  | zero => intro line e w; rfl
  | succ f ih =>
    intro line e w
    simp only [replace_loop, Old.replace_line_loop, beyond, Bool.false_eq_true, if_false, ih]

theorem old_kinds_eq (pattern_in pattern_out : List Char) (labels : Table) (line_no fuel : Nat) :
    ∀ (refs : List (List Char)) (line : List Char) (w : List Diag),
      replace_kinds pattern_in pattern_out labels line_no none fuel refs line w =
        Old.replace_line_kinds pattern_in pattern_out labels line_no fuel refs line w := by
  intro refs
  induction refs with
  | nil => intro line w; rfl
  | cons d rest ih =>
    intro line w
    simp only [replace_kinds, Old.replace_line_kinds, old_loop_eq, ih]

theorem getline_until_no_comment :
    ∀ (line : List Char), '%' ∉ line → Old.getline_until line = line := by
  intro line
  induction line with
  | nil => intro _; rfl
  | cons c cs ih =>
    intro h
    have hc : ¬ c = '%' := fun e => h (List.mem_cons.mpr (Or.inl e.symm))
    have hcs : '%' ∉ cs := fun e => h (List.mem_cons_of_mem _ e)
    simp only [Old.getline_until, hc, if_false, ih hcs]

/-- On a line without `%` the old and the new rewriter return the same line and
the same events, for the same number of iterations allowed. -/
theorem old_new_agree_without_comment (fuel : Nat) (line pattern_in pattern_out : List Char)
    (labels : Table) (refs : List (List Char)) (line_no : Nat) (h : '%' ∉ line) :
    Old.replace_refs fuel line pattern_in pattern_out labels refs line_no =
      replace_refs_in_line fuel line pattern_in pattern_out labels refs line_no true := by
  have hpos : comment_pos true line = none := by
    simp only [comment_pos, if_true]
    exact find_char_eq_none line '%' 0 (by simpa using h)
  unfold Old.replace_refs Old.replace_line replace_refs_in_line
  rw [hpos, getline_until_no_comment line h, old_kinds_eq]
  simp only [if_true]
  cases Old.replace_line_kinds pattern_in pattern_out labels line_no fuel refs line [] <;> simp

/-! ## The scanner of `src/cpp98texnumber.cpp` -/

theorem match_atoms_self :
    ∀ (pat : List Char), (∀ p ∈ pat, p ≠ '.') → ∀ (r : List Char),
      match_atoms pat (pat ++ r) = some (pat, r) := by
  intro pat
  induction pat with
  | nil => intro _ r; simp [match_atoms]
  | cons p ps ih =>
    intro h r
    have hp : p ≠ '.' := h p (List.mem_cons_self _ _)
    have hps := ih (fun x hx => h x (List.mem_cons_of_mem _ hx)) r
    simp [match_atoms, atom_matches, hp, hps]

theorem match_lazy_first (rest : List Char) :
    ∀ (inner : List Char), '}' ∉ inner → (∀ c ∈ inner, any_char c = true) →
      match_lazy (inner ++ '}' :: rest) = some (inner ++ ['}'], rest) := by
  intro inner
  induction inner with
  | nil => intro _ _; simp [match_lazy]
  | cons c cs ih =>
    intro h1 h2
    have hc : ¬ c = '}' := fun e => h1 (List.mem_cons.mpr (Or.inl e.symm))
    have hcs := ih (fun e => h1 (List.mem_cons_of_mem _ e))
      (fun x hx => h2 x (List.mem_cons_of_mem _ hx))
    have ha := h2 c (List.mem_cons_self _ _)
    simp [match_lazy, hc, ha, hcs]

theorem label_content_first (pattern_in inner rest : List Char) :
    label_content ⟨label_delim ++ pattern_in ++ (inner ++ ['}']), rest⟩ =
      pattern_in ++ inner := by
  have hl : label_delim.length = 7 := rfl
  simp only [label_content, substr]
  rw [List.append_assoc, List.drop_left' hl]
  have e : (label_delim ++ (pattern_in ++ (inner ++ ['}']))).length - 8 =
      (pattern_in ++ inner).length := by
    simp only [List.length_append, hl, List.length_cons, List.length_nil]
    omega
  rw [e, ← List.append_assoc, List.take_left]

theorem literal_no_dot (pattern_in : List Char) (hlit : literal pattern_in) :
    ∀ p ∈ pattern_in, p ≠ '.' := by
  intro p hp e
  have := hlit p hp
  rw [e] at this
  exact absurd this (by decide)

theorem literal_no_brace (pattern_in : List Char) (hlit : literal pattern_in) :
    '}' ∉ label_delim ++ pattern_in := by
  intro h
  rcases List.mem_append.mp h with h | h
  · exact absurd h (by decide)
  · exact absurd (hlit _ h) (by decide)

/-- A carriage return before the closing brace: the manual search registers the
name, the regular expression, whose `.` matches no line terminator, finds no
label. -/
theorem scanners_differ_on_carriage_return :
    Cpp98.build_labels label_a_cr pat_eq = Cpp98.Scan.done [(eq_a ++ ['\r'], 1)] 2 ∧
    build_labels label_a_cr pat_eq true = some ([], []) := by
  decide

theorem match_lazy_shape :
    ∀ (s m r : List Char), match_lazy s = some (m, r) →
      ∃ inner, '}' ∉ inner ∧ m = inner ++ ['}'] ∧ s = inner ++ '}' :: r := by
  intro s
  induction s with
  | nil => intro m r h; simp [match_lazy] at h
  | cons c cs ih =>
    intro m r h
    simp only [match_lazy] at h
    split at h
    · rename_i hc
      simp only [Option.some.injEq, Prod.mk.injEq] at h
      obtain ⟨rfl, rfl⟩ := h
      exact ⟨[], by simp, by simp, by simp [hc]⟩
    · rename_i hc
      split at h
      · cases hm : match_lazy cs with
        | none => rw [hm] at h; simp at h
        | some x =>
          obtain ⟨m', r'⟩ := x
          rw [hm] at h
          simp only [Option.some.injEq, Prod.mk.injEq] at h
          obtain ⟨rfl, rfl⟩ := h
          obtain ⟨inner, h1, h2, h3⟩ := ih m' r' hm
          refine ⟨c :: inner, ?_, by simp [h2], by simp [h3]⟩
          simp only [List.mem_cons, not_or]
          exact ⟨fun e => hc e.symm, h1⟩
      · simp at h

/-- A match of the expression of a prefix without wildcard: `\label{`, the
prefix, an inner text without closing brace, and the brace. -/
theorem match_here_shape (pattern_in s : List Char) (m : Match)
    (hp : ∀ p ∈ pattern_in, p ≠ '.') (h : match_here pattern_in s = some m) :
    ∃ inner, '}' ∉ inner ∧ s = label_delim ++ (pattern_in ++ (inner ++ '}' :: m.suffix)) ∧
      m.str = label_delim ++ pattern_in ++ (inner ++ ['}']) := by
  unfold match_here at h
  cases h1 : match_atoms label_delim s with
  | none => rw [h1] at h; simp at h
  | some x1 =>
    obtain ⟨m₁, r₁⟩ := x1
    rw [h1] at h
    simp only at h
    cases h2 : match_atoms pattern_in r₁ with
    | none => rw [h2] at h; simp at h
    | some x2 =>
      obtain ⟨m₂, r₂⟩ := x2
      rw [h2] at h
      simp only at h
      cases h3 : match_lazy r₂ with
      | none => rw [h3] at h; simp at h
      | some x3 =>
        obtain ⟨m₃, r₃⟩ := x3
        rw [h3] at h
        simp only [Option.some.injEq] at h
        subst h
        have e1 := (match_atoms_spec _ _ _ _ h1).1
        have e2 := match_atoms_literal _ label_delim_no_dot _ _ _ h1
        have e3 := (match_atoms_spec _ _ _ _ h2).1
        have e4 := match_atoms_literal _ hp _ _ _ h2
        obtain ⟨inner, g1, g2, g3⟩ := match_lazy_shape _ _ _ h3
        refine ⟨inner, g1, ?_, ?_⟩
        · rw [e1, e3, e2, e4, g3]
        · simp only [e2, e4, g2]

theorem match_here_first (pattern_in inner rest : List Char)
    (hp : ∀ p ∈ pattern_in, p ≠ '.') (hclose : '}' ∉ inner)
    (hany : ∀ c ∈ inner, any_char c = true) :
    match_here pattern_in (label_delim ++ (pattern_in ++ (inner ++ '}' :: rest))) =
      some ⟨label_delim ++ pattern_in ++ (inner ++ ['}']), rest⟩ := by
  unfold match_here
  rw [match_atoms_self label_delim label_delim_no_dot]
  simp only
  rw [match_atoms_self pattern_in hp]
  simp only
  rw [match_lazy_first rest inner hclose hany]

/-- The match that `regex_search` returns is a match at some position, and
there is no match at a position before it. -/
theorem regex_search_leftmost (pattern_in : List Char) :
    ∀ (s : List Char) (m : Match), regex_search pattern_in s = some m →
      ∃ g t, s = g ++ t ∧ match_here pattern_in t = some m ∧
        ∀ j, j < g.length → match_here pattern_in (s.drop j) = none := by
  intro s
  induction s with
  | nil =>
    intro m h
    exact ⟨[], [], rfl, by simpa [regex_search] using h, by simp⟩
  | cons c cs ih =>
    intro m h
    simp only [regex_search] at h
    cases hm : match_here pattern_in (c :: cs) with
    | some m' =>
      rw [hm] at h
      simp only [Option.some.injEq] at h
      subst h
      exact ⟨[], c :: cs, rfl, hm, by simp⟩
    | none =>
      rw [hm] at h
      simp only at h
      obtain ⟨g, t, h1, h2, h3⟩ := ih m h
      refine ⟨c :: g, t, by rw [h1]; rfl, h2, ?_⟩
      intro j hj
      cases j with
      | zero => simpa using hm
      | succ j =>
        simp only [List.length_cons] at hj
        simpa using h3 j (by omega)

theorem regex_search_some_of_match (pattern_in : List Char) :
    ∀ (s : List Char) (j : Nat) (m : Match), match_here pattern_in (s.drop j) = some m →
      regex_search pattern_in s ≠ none := by
  intro s
  induction s with
  | nil =>
    intro j m h
    simp only [List.drop_nil] at h
    simp [regex_search, h]
  | cons c cs ih =>
    intro j m h
    simp only [regex_search]
    cases hm : match_here pattern_in (c :: cs) with
    | some m' => simp
    | none =>
      simp only
      cases j with
      | zero => simp only [List.drop_zero] at h; rw [hm] at h; simp at h
      | succ j => exact ih j m (by simpa using h)

theorem first_brace_unique :
    ∀ (a a' b b' : List Char), '}' ∉ a → '}' ∉ a' → a ++ '}' :: b = a' ++ '}' :: b' →
      a = a' ∧ b = b' := by
  intro a
  induction a with
  | nil =>
    intro a' b b' _ h2 h
    cases a' with
    | nil => simpa using h
    | cons x xs =>
      simp only [List.nil_append, List.cons_append, List.cons.injEq] at h
      exact absurd (List.mem_cons.mpr (Or.inl h.1)) h2
  | cons y ys ih =>
    intro a' b b' h1 h2 h
    cases a' with
    | nil =>
      simp only [List.nil_append, List.cons_append, List.cons.injEq] at h
      exact absurd (List.mem_cons.mpr (Or.inl h.1.symm)) h1
    | cons x xs =>
      simp only [List.cons_append, List.cons.injEq] at h
      obtain ⟨e1, e2⟩ := ih xs b b' (fun e => h1 (List.mem_cons_of_mem _ e))
        (fun e => h2 (List.mem_cons_of_mem _ e)) h.2
      exact ⟨by rw [h.1, e1], e2⟩

theorem first_brace_within :
    ∀ (a b c d : List Char), '}' ∉ a → '}' ∈ c → a ++ '}' :: b = c ++ d →
      ∃ c', c = a ++ '}' :: c' ∧ b = c' ++ d := by
  intro a
  induction a with
  | nil =>
    intro b c d _ h2 h
    cases c with
    | nil => simp at h2
    | cons x xs =>
      simp only [List.nil_append, List.cons_append, List.cons.injEq] at h
      exact ⟨xs, by rw [← h.1]; rfl, h.2⟩
  | cons y ys ih =>
    intro b c d h1 h2 h
    cases c with
    | nil => simp at h2
    | cons x xs =>
      simp only [List.cons_append, List.cons.injEq] at h
      have hy : ¬ '}' = y := fun e => h1 (List.mem_cons.mpr (Or.inl e))
      have hxs : '}' ∈ xs := by
        rcases List.mem_cons.mp h2 with e | e
        · exact absurd (e.trans h.1.symm) hy
        · exact e
      obtain ⟨c', e1, e2⟩ := ih b xs d (fun e => h1 (List.mem_cons_of_mem _ e)) hxs h.2
      exact ⟨c', by rw [h.1, e1]; rfl, e2⟩

/-- The scan of a line meets a definition all of whose predecessors on the line
are closed before it starts. -/
theorem line_defs_finds (pattern_in inner post : List Char) (hlit : literal pattern_in)
    (hin : '}' ∉ inner) (hany : ∀ c ∈ inner, any_char c = true) :
    ∀ (f : Nat) (pre : List Char),
      (pre ++ (label_delim ++ (pattern_in ++ (inner ++ '}' :: post)))).length < f →
      (∀ j, j < pre.length →
        (label_delim ++ pattern_in) <+:
          (pre ++ (label_delim ++ (pattern_in ++ (inner ++ '}' :: post)))).drop j →
        '}' ∈ pre.drop j) →
      (pattern_in ++ inner) ∈
        line_defs pattern_in f (pre ++ (label_delim ++ (pattern_in ++ (inner ++ '}' :: post)))) := by
  have hp := literal_no_dot pattern_in hlit
  have hclose := literal_no_brace pattern_in hlit
  have hfirst := match_here_first pattern_in inner post hp hin hany
  intro f
  induction f with
  | zero => intro pre h _; omega
  | succ f ih =>
    intro pre hlen hc
    rw [line_defs]
    cases hrs : regex_search pattern_in
        (pre ++ (label_delim ++ (pattern_in ++ (inner ++ '}' :: post)))) with
    | none =>
      exfalso
      exact regex_search_some_of_match pattern_in _ pre.length
        ⟨label_delim ++ pattern_in ++ (inner ++ ['}']), post⟩
        (by rw [List.drop_left]; exact hfirst) hrs
    | some m =>
      simp only
      obtain ⟨g, t, hs, hm, hleft⟩ := regex_search_leftmost pattern_in _ m hrs
      obtain ⟨inner₂, hi2, ht, hstr⟩ := match_here_shape pattern_in t m hp hm
      have hcontent : label_content m = pattern_in ++ inner₂ := by
        have := label_content_first pattern_in inner₂ m.suffix
        rw [← hstr] at this
        exact this
      rcases Nat.lt_trichotomy g.length pre.length with hlt | heq | hgt
      · -- the match starts before the definition
        have hpre : pre = g ++ pre.drop g.length := by
          have h1 := congrArg (List.take g.length) hs
          rw [List.take_left, List.take_append_of_le_length (by omega)] at h1
          conv_lhs => rw [← List.take_append_drop g.length pre]
          rw [h1]
        have ht' : t = pre.drop g.length ++
            (label_delim ++ (pattern_in ++ (inner ++ '}' :: post))) := by
          have h1 := congrArg (List.drop g.length) hs
          rw [List.drop_left, List.drop_append_of_le_length (by omega)] at h1
          exact h1.symm
        have hocc : (label_delim ++ pattern_in) <+:
            (pre ++ (label_delim ++ (pattern_in ++ (inner ++ '}' :: post)))).drop g.length := by
          rw [hs, List.drop_left, ht, ← List.append_assoc]
          exact List.prefix_append _ _
        have hbrace := hc g.length hlt hocc
        have hsplit : (label_delim ++ pattern_in ++ inner₂) ++ '}' :: m.suffix =
            pre.drop g.length ++ (label_delim ++ (pattern_in ++ (inner ++ '}' :: post))) := by
          rw [← ht', ht]
          simp [List.append_assoc]
        obtain ⟨p₃, e1, e2⟩ := first_brace_within _ _ _ _
          (by
            intro e
            rcases List.mem_append.mp e with e | e
            · exact hclose e
            · exact hi2 e)
          hbrace hsplit
        have hmem := ih p₃
          (by
            have : pre.length = g.length + (pre.drop g.length).length := by
              simp only [List.length_drop]
              omega
            rw [e1] at this
            simp only [List.length_append, List.length_cons] at this hlen ⊢
            omega)
          (by
            intro j hj hoccj
            obtain ⟨x, hx⟩ : ∃ x, x = g ++ (label_delim ++ pattern_in ++ inner₂ ++ ['}']) :=
              ⟨_, rfl⟩
            have hpre' : pre = x ++ p₃ := by
              rw [hpre, e1, hx]
              simp [List.append_assoc]
            have hk := hc (x.length + j)
              (by
                have := congrArg List.length hpre'
                simp only [List.length_append] at this
                omega)
              (by
                rw [hpre', List.append_assoc, List.drop_append]
                exact hoccj)
            rw [hpre', List.drop_append] at hk
            exact hk)
        rw [e2]
        exact List.mem_cons_of_mem _ hmem
      · -- the match is the definition
        have hg : g = pre := (List.append_inj hs.symm heq).1
        have ht' : t = label_delim ++ (pattern_in ++ (inner ++ '}' :: post)) := by
          rw [hg] at hs
          exact (List.append_cancel_left hs).symm
        rw [ht] at ht'
        have e3 := List.append_cancel_left (List.append_cancel_left ht')
        obtain ⟨e4, _⟩ := first_brace_unique _ _ _ _ hi2 hin e3
        rw [hcontent, e4]
        exact List.mem_cons_self _ _
      · -- no match before the definition was missed
        exfalso
        have := hleft pre.length hgt
        rw [List.drop_left, hfirst] at this
        simp at this

theorem line_defs_infix (pattern_in : List Char) :
    ∀ (f : Nat) (s c : List Char), c ∈ line_defs pattern_in f s →
      (label_delim ++ c ++ ['}']) <:+: s := by
  intro f
  induction f with
  | zero => intro s c h; simp [line_defs] at h
  | succ f ih =>
    intro s c h
    rw [line_defs] at h
    cases hrs : regex_search pattern_in s with
    | none => rw [hrs] at h; simp at h
    | some m =>
      rw [hrs] at h
      simp only [List.mem_cons] at h
      obtain ⟨pre, c', h1, h2, h3, _⟩ := regex_search_spec _ _ _ hrs
      rcases h with e | e
      · rw [e, h3, ← h2, h1]
        exact ⟨pre, m.suffix, rfl⟩
      · obtain ⟨a, b, hab⟩ := ih _ _ e
        rw [h1, ← hab]
        exact ⟨pre ++ m.str ++ a, b, by simp [List.append_assoc]⟩

theorem defs_of_lines_mem (pattern_in : List Char) (ignore_comments : Bool) :
    ∀ (lines : List (List Char)) (line_no : Nat) (line c : List Char), line ∈ lines →
      c ∈ line_defs pattern_in ((active ignore_comments line).length + 1)
        (active ignore_comments line) →
      c ∈ (defs_of_lines pattern_in ignore_comments lines line_no).map Prod.fst := by
  intro lines
  induction lines with
  | nil => intro _ _ _ h; simp at h
  | cons l rest ih =>
    intro line_no line c hl hc
    simp only [defs_of_lines, List.map_append, List.map_map, List.mem_append]
    rcases List.mem_cons.mp hl with e | e
    · left
      subst e
      simpa using hc
    · right
      exact ih (line_no + 1) line c e hc

theorem defs_of_lines_source (pattern_in : List Char) (ignore_comments : Bool) :
    ∀ (lines : List (List Char)) (line_no : Nat) (c : List Char),
      c ∈ (defs_of_lines pattern_in ignore_comments lines line_no).map Prod.fst →
      ∃ line ∈ lines, c ∈ line_defs pattern_in ((active ignore_comments line).length + 1)
        (active ignore_comments line) := by
  intro lines
  induction lines with
  | nil => intro _ _ h; simp [defs_of_lines] at h
  | cons l rest ih =>
    intro line_no c h
    simp only [defs_of_lines, List.map_append, List.map_map, List.mem_append] at h
    rcases h with h | h
    · exact ⟨l, List.mem_cons_self _ _, by simpa using h⟩
    · obtain ⟨line, h1, h2⟩ := ih (line_no + 1) c h
      exact ⟨line, List.mem_cons_of_mem _ h1, h2⟩

/-- A definition after a `%` that is not registered when comments are not
ignored: on the line `\label{eq:x % \label{eq:a}` the scan without
`ignore_comments` registers the one name `eq:x % \label{eq:a`, which the first
closing brace ends, and not `eq:a`; and on `% \label{eq:a\r}` it registers
nothing, as the `.` of the expression matches no carriage return. -/
theorem label_after_comment_swallowed :
    literal pat_eq ∧
    label_swallowed = (label_delim ++ ['e', 'q', ':', 'x', ' ']) ++ '%' :: ([' '] ++ label_a) ∧
    build_labels label_swallowed pat_eq false = some ([(name_swallowed, 1)], []) ∧
    map_find [(name_swallowed, 1)] eq_a = none ∧
    build_labels label_swallowed pat_eq true = some ([], []) ∧
    build_labels commented_label_cr pat_eq false = some ([], []) := by
  decide

/-- C13, amended (comment stripping in the scanner): for every input and literal
prefix, `build_labels` with `ignore_comments = true` returns the table and the
warnings that `build_labels` with `ignore_comments = false` returns for the input
in which every line is truncated at its first `%`.  Hence in the default mode
every name in the table is defined, closing brace included, before the first `%`
of some line, so a definition that starts after a `%` is never registered; and
when comments are not ignored, a definition `\label{` + prefix + inner text + `}`
anywhere on a line, also after a `%`, is registered, if its inner text holds no
carriage return and every `\label{` + prefix that starts before it on the line
has a closing brace before it. -/
theorem build_labels_comment_stripping (input pattern_in : List Char)
    (hlit : literal pattern_in) :
    build_labels input pattern_in true =
      build_labels (truncate_comments input) pattern_in false ∧
    (∀ t w, build_labels input pattern_in true = some (t, w) →
      ∀ name i, map_find t name = some i →
        ∃ line ∈ getlines input, (label_delim ++ name ++ ['}']) <:+: cut_comment line) ∧
    (∀ t w, build_labels input pattern_in false = some (t, w) →
      ∀ pre inner post,
        (pre ++ (label_delim ++ (pattern_in ++ (inner ++ '}' :: post)))) ∈ getlines input →
        '}' ∉ inner → '\r' ∉ inner →
        (∀ j, j < pre.length →
          (label_delim ++ pattern_in) <+:
            (pre ++ (label_delim ++ (pattern_in ++ (inner ++ '}' :: post)))).drop j →
          '}' ∈ pre.drop j) →
        ∃ i, map_find t (pattern_in ++ inner) = some i) := by
  refine ⟨build_labels_truncate input pattern_in, ?_, ?_⟩
  · intro t w hb name i hk
    rw [build_labels_eq] at hb
    simp only [Option.some.injEq, Prod.mk.injEq] at hb
    obtain ⟨hb1, _⟩ := hb
    have hne : map_find (register_all ⟨[], 1, []⟩
        (definitions input pattern_in true)).result name ≠ none := by
      rw [hb1, hk]
      simp
    rcases register_all_keys _ _ name hne with h | h
    · simp [map_find] at h
    · obtain ⟨line, h1, h2⟩ := defs_of_lines_source pattern_in true _ _ name h
      refine ⟨line, h1, ?_⟩
      rw [← active_eq_cut]
      exact line_defs_infix _ _ _ _ h2
  · intro t w hb pre inner post hline hin hcr hc
    rw [build_labels_eq] at hb
    simp only [Option.some.injEq, Prod.mk.injEq] at hb
    obtain ⟨hb1, _⟩ := hb
    rw [← hb1]
    apply register_all_mem
    apply defs_of_lines_mem pattern_in false _ 1 _ _ hline
    have hact : ∀ l : List Char, active false l = l := fun l => by simp [active]
    rw [hact]
    apply line_defs_finds pattern_in inner post hlit hin _ _ pre (by omega) hc
    intro c hcin
    have h1 : c ≠ '\n' := fun e =>
      getlines_no_newline input _ hline (by rw [← e]; simp [hcin])
    have h2 : c ≠ '\r' := fun e => hcr (e ▸ hcin)
    simp [any_char, h1, h2]

/-- The line `% \label{eq:a}` with the prefix `eq:` is an instance of the
amended C13: the definition after the `%` is not registered in the default
mode, as in the truncated input, and is registered when comments are not
ignored. -/
theorem build_labels_comment_stripping_witness :
    literal pat_eq ∧
    truncate_comments commented_label = ['\n'] ∧
    build_labels commented_label pat_eq true = some ([], []) ∧
    build_labels commented_label pat_eq false = some ([(eq_a, 1)], []) ∧
    (build_labels commented_label pat_eq true =
      build_labels (truncate_comments commented_label) pat_eq false ∧
    (∀ t w, build_labels commented_label pat_eq true = some (t, w) →
      ∀ name i, map_find t name = some i →
        ∃ line ∈ getlines commented_label,
          (label_delim ++ name ++ ['}']) <:+: cut_comment line) ∧
    (∀ t w, build_labels commented_label pat_eq false = some (t, w) →
      ∀ pre inner post,
        (pre ++ (label_delim ++ (pat_eq ++ (inner ++ '}' :: post)))) ∈
          getlines commented_label →
        '}' ∉ inner → '\r' ∉ inner →
        (∀ j, j < pre.length →
          (label_delim ++ pat_eq) <+:
            (pre ++ (label_delim ++ (pat_eq ++ (inner ++ '}' :: post)))).drop j →
          '}' ∈ pre.drop j) →
        ∃ i, map_find t (pat_eq ++ inner) = some i)) :=
  ⟨by decide, by decide, by decide, by decide,
    build_labels_comment_stripping commented_label pat_eq (by decide)⟩

/-! ## The report and the output as texts -/

/-- The decimal numeral of a number consists of digits. -/
theorem to_string_digits (n : Nat) :
    ∀ c ∈ to_string n, c ∈ ['0', '1', '2', '3', '4', '5', '6', '7', '8', '9'] := by
  have hdigit : ∀ m, m < 10 →
      Nat.digitChar m ∈ ['0', '1', '2', '3', '4', '5', '6', '7', '8', '9'] := by
    decide
  have hcore : ∀ (f m : Nat) (acc : List Char),
      (∀ c ∈ acc, c ∈ ['0', '1', '2', '3', '4', '5', '6', '7', '8', '9']) →
      ∀ c ∈ Nat.toDigitsCore 10 f m acc,
        c ∈ ['0', '1', '2', '3', '4', '5', '6', '7', '8', '9'] := by
    intro f
    induction f with
    | zero => intro m acc h; simpa [Nat.toDigitsCore] using h
    | succ f ih =>
      intro m acc h
      have hacc : ∀ c ∈ Nat.digitChar (m % 10) :: acc,
          c ∈ ['0', '1', '2', '3', '4', '5', '6', '7', '8', '9'] := by
        intro c hc
        rcases List.mem_cons.mp hc with e | e
        · rw [e]; exact hdigit _ (Nat.mod_lt _ (by decide))
        · exact h c e
      simp only [Nat.toDigitsCore]
      split
      · exact hacc
      · exact ih _ _ hacc
  exact hcore _ _ _ (by simp)

theorem to_string_no_newline (n : Nat) : '\n' ∉ to_string n := by
  intro h
  exact absurd (to_string_digits n _ h) (by decide)

theorem to_string_no_brace (n : Nat) : '}' ∉ to_string n := by
  intro h
  exact absurd (to_string_digits n _ h) (by decide)

/-- Every key of the table of `build_labels` consists of characters of one line
of the input. -/
theorem build_labels_keys_in_lines (input pattern_in : List Char) (ignore_comments : Bool)
    (t : Table) (w : List Diag)
    (hb : build_labels input pattern_in ignore_comments = some (t, w)) :
    ∀ k i, map_find t k = some i → ∃ line ∈ getlines input, ∀ x ∈ k, x ∈ line := by
  intro k i hk
  rw [build_labels_eq] at hb
  simp only [Option.some.injEq, Prod.mk.injEq] at hb
  obtain ⟨hb1, _⟩ := hb
  have hne : map_find (register_all ⟨[], 1, []⟩
      (definitions input pattern_in ignore_comments)).result k ≠ none := by
    rw [hb1, hk]
    simp
  rcases register_all_keys _ _ k hne with h | h
  · simp [map_find] at h
  · obtain ⟨line, h1, h2⟩ := defs_of_lines_source pattern_in ignore_comments _ _ k h
    refine ⟨line, h1, ?_⟩
    intro x hx
    exact active_subset ignore_comments line x ((line_defs_ok _ _ _ _ h2).2 x hx)

theorem log_eq_unlines (t : Table) (pattern_out : List Char) :
    log t pattern_out = unlines (log_entries t pattern_out) := by
  simp [log, log_entries, unlines, List.flatMap_map, List.append_assoc]

/-- With a newline in the replacement `log` writes more lines than the table
has labels: for the table `eq:a -> 1` of the input `\label{eq:a}` and the
replacement `X`, newline, `Y` it writes the two lines `eq:a -> X` and `Y1`. -/
theorem report_with_newline :
    build_labels label_a pat_eq true = some (table_a, []) ∧
    (keys table_a).length = 1 ∧
    log table_a pat_two_lines = eq_a ++ arrow ++ ['X', '\n', 'Y', '1', '\n'] ∧
    getlines (log table_a pat_two_lines) = [eq_a ++ arrow ++ ['X'], ['Y', '1']] := by
  decide

/-- C15, amended (report and two-way table): for the table `t` with N keys that
`build_labels` returns, `map_by_value t` has N entries, with the indices
1, ..., N in ascending order, and is the inverse of `t`; and for a replacement
without newline the text that `log` writes consists of N lines, each ended by a
newline, the `i`-th being the name with index `i`, the text ` -> `, the
replacement and the decimal of `i`. -/
theorem report_two_way (input pattern_in pattern_out : List Char) (ignore_comments : Bool)
    (t : Table) (w : List Diag)
    (hres : build_labels input pattern_in ignore_comments = some (t, w))
    (hnl : '\n' ∉ pattern_out) :
    (map_by_value t).length = (keys t).length ∧
      (map_by_value t).map Prod.fst = List.range' 1 (keys t).length ∧
      (∀ i name, idx_find (map_by_value t) i = some name ↔ map_find t name = some i) ∧
      log t pattern_out = unlines (getlines (log t pattern_out)) ∧
      (getlines (log t pattern_out)).length = (keys t).length ∧
      (∀ k, k < (keys t).length → ∃ name, map_find t name = some (k + 1) ∧
        (getlines (log t pattern_out))[k]? =
          some (name ++ arrow ++ pattern_out ++ to_string (k + 1))) := by
  obtain ⟨h1, h2, h3, h4, h5⟩ := report_entries input pattern_in pattern_out ignore_comments
    t w hres
  have hnd : ((map_by_value t).map Prod.fst).Nodup := by
    rw [h2]; exact List.nodup_range' 1 _
  have hlines : getlines (log t pattern_out) = log_entries t pattern_out := by
    rw [log_eq_unlines]
    apply getlines_unlines
    intro l hl
    simp only [log_entries, List.mem_map] at hl
    obtain ⟨e, he, rfl⟩ := hl
    have hfind := idx_find_of_mem _ hnd e.1 e.2 he
    have hkey := (h3 _ _).mp hfind
    obtain ⟨line, hline, hsub⟩ := build_labels_keys_in_lines input pattern_in ignore_comments
      t w hres _ _ hkey
    have hname : '\n' ∉ e.2 := fun hx => getlines_no_newline input line hline (hsub _ hx)
    simp only [List.mem_append, not_or]
    exact ⟨⟨⟨hname, by decide⟩, hnl⟩, to_string_no_newline _⟩
  refine ⟨h1, h2, h3, ?_, ?_, ?_⟩
  · rw [hlines, log_eq_unlines]
  · rw [hlines]; exact h4
  · rw [hlines]; exact h5

/-- The input `\label{eq:energy}` / `\label{eq:a}` with the prefix `eq:` and the
replacement `E` is an instance of the amended C15: the table is stored as
`eq:a -> 2`, `eq:energy -> 1`, and the report has the two lines
`eq:energy -> E1` and `eq:a -> E2`. -/
theorem report_two_way_witness :
    build_labels input_energy_a pat_eq true = some (table_energy_a, []) ∧
    '\n' ∉ ['E'] ∧
    log table_energy_a ['E'] =
      eq_energy ++ arrow ++ ['E', '1', '\n'] ++ (eq_a ++ arrow ++ ['E', '2', '\n']) ∧
    ((map_by_value table_energy_a).length = (keys table_energy_a).length ∧
      (map_by_value table_energy_a).map Prod.fst = List.range' 1 (keys table_energy_a).length ∧
      (∀ i name, idx_find (map_by_value table_energy_a) i = some name ↔
        map_find table_energy_a name = some i) ∧
      log table_energy_a ['E'] = unlines (getlines (log table_energy_a ['E'])) ∧
      (getlines (log table_energy_a ['E'])).length = (keys table_energy_a).length ∧
      (∀ k, k < (keys table_energy_a).length → ∃ name,
        map_find table_energy_a name = some (k + 1) ∧
        (getlines (log table_energy_a ['E']))[k]? =
          some (name ++ arrow ++ ['E'] ++ to_string (k + 1)))) :=
  ⟨by decide, by decide, by decide,
    report_two_way input_energy_a pat_eq ['E'] true table_energy_a [] (by decide) (by decide)⟩

theorem replace_no_newline (s str : List Char) (pos count : Nat) (hs : '\n' ∉ s)
    (hstr : '\n' ∉ str) : '\n' ∉ replace s pos count str := by
  unfold replace
  intro h
  rcases List.mem_append.mp h with h | h
  · rcases List.mem_append.mp h with h | h
    · exact hs (List.mem_of_mem_take h)
    · exact hstr h
  · exact hs (List.mem_of_mem_drop (List.mem_of_mem_drop h))

/-- The loop of `replace_refs_in_line` puts no newline into a line when the
replacement has none. -/
theorem replace_loop_no_newline (elem pattern_in pattern_out : List Char) (labels : Table)
    (line_no : Nat) (pos_comment : Option Nat) (hnl : '\n' ∉ pattern_out) :
    ∀ (f : Nat) (line : List Char) (e : Nat) (w : List Diag) (line' : List Char)
      (w' : List Diag), '\n' ∉ line →
      replace_loop elem pattern_in pattern_out labels line_no pos_comment f line e w =
        LineResult.done line' w' → '\n' ∉ line' := by
  intro f
  induction f with
  | zero => intro line e w line' w' _ h; simp [replace_loop] at h
  | succ f ih =>
    intro line e w line' w' hline h
    rw [replace_loop] at h
    cases h1 : find line elem e with
    | none =>
      rw [h1] at h
      simp only [LineResult.done.injEq] at h
      rw [← h.1]; exact hline
    | some start =>
      rw [h1] at h
      simp only at h
      split at h
      · simp only [LineResult.done.injEq] at h
        rw [← h.1]; exact hline
      · cases h2 : find_char line '}' start with
        | none => rw [h2] at h; simp at h
        | some e' =>
          rw [h2] at h
          simp only at h
          split at h
          · rename_i idx _
            refine ih _ _ _ _ _ ?_ h
            apply replace_no_newline _ _ _ _ hline
            intro hx
            rcases List.mem_append.mp hx with hx | hx
            · exact hnl hx
            · exact to_string_no_newline _ hx
          · split at h
            · exact ih _ _ _ _ _ hline h
            · exact ih _ _ _ _ _ hline h

theorem replace_kinds_no_newline (pattern_in pattern_out : List Char) (labels : Table)
    (line_no : Nat) (pos_comment : Option Nat) (fuel : Nat) (hnl : '\n' ∉ pattern_out) :
    ∀ (refs : List (List Char)) (line : List Char) (w : List Diag) (line' : List Char)
      (w' : List Diag), '\n' ∉ line →
      replace_kinds pattern_in pattern_out labels line_no pos_comment fuel refs line w =
        LineResult.done line' w' → '\n' ∉ line' := by
  intro refs
  induction refs with
  | nil =>
    intro line w line' w' hline h
    simp only [replace_kinds, LineResult.done.injEq] at h
    rw [← h.1]; exact hline
  | cons d rest ih =>
    intro line w line' w' hline h
    rw [replace_kinds] at h
    cases hl : replace_loop d pattern_in pattern_out labels line_no pos_comment fuel line 0 w with
    | done l₁ w₁ =>
      rw [hl] at h
      exact ih _ _ _ _
        (replace_loop_no_newline d pattern_in pattern_out labels line_no pos_comment hnl
          _ _ _ _ _ _ hline hl) h
    | fatal w₁ => rw [hl] at h; simp at h
    | timeout => rw [hl] at h; simp at h

/-- The loop of `main` that ends with success: what it writes and what it
reports, line by line. -/
theorem rewrite_lines_results (fuel : Nat) (pattern_in pattern_out : List Char) (labels : Table)
    (ignore_comments : Bool) :
    ∀ (lines : List (List Char)) (line_no : Nat) (out : List (List Char)) (diags : List Diag),
      (rewrite_lines fuel pattern_in pattern_out labels ignore_comments lines line_no out
        diags).status = Status.success →
      ∃ results : List (List Char × List Diag),
        results.length = lines.length ∧
        (rewrite_lines fuel pattern_in pattern_out labels ignore_comments lines line_no out
          diags).output = out ++ results.map Prod.fst ∧
        (rewrite_lines fuel pattern_in pattern_out labels ignore_comments lines line_no out
          diags).diagnostics = diags ++ results.flatMap Prod.snd ∧
        ∀ k l, lines[k]? = some l → ∃ r, results[k]? = some r ∧
          replace_refs_in_line fuel l pattern_in pattern_out labels canonical_refs
            (line_no + k) ignore_comments = LineResult.done r.1 r.2 := by
  intro lines
  induction lines with
  | nil =>
    intro line_no out diags _
    exact ⟨[], rfl, by simp [rewrite_lines], by simp [rewrite_lines], by simp⟩
  | cons line rest ih =>
    intro line_no out diags hs
    simp only [rewrite_lines] at hs ⊢
    cases hr : replace_refs_in_line fuel line pattern_in pattern_out labels canonical_refs
        line_no ignore_comments with
    | done line' warns =>
      rw [hr] at hs
      simp only at hs ⊢
      obtain ⟨results, g1, g2, g3, g4⟩ := ih (line_no + 1) (out ++ [line']) (diags ++ warns) hs
      refine ⟨(line', warns) :: results, by simp [g1], by simp [g2], by simp [g3], ?_⟩
      intro k l hk
      cases k with
      | zero =>
        simp only [List.getElem?_cons_zero, Option.some.injEq] at hk
        subst hk
        exact ⟨(line', warns), by simp, by simpa using hr⟩
      | succ k =>
        simp only [List.getElem?_cons_succ] at hk
        obtain ⟨r, e1, e2⟩ := g4 k l hk
        refine ⟨r, by simpa using e1, ?_⟩
        have e : line_no + (k + 1) = line_no + 1 + k := by omega
        rw [e]; exact e2
    | fatal warns => rw [hr] at hs; simp at hs
    | timeout => rw [hr] at hs; simp at hs

/-- With a newline in the replacement the output has more lines than the
input: on the one line `\label{eq:a}` with the prefix `eq:` and the replacement
`X`, newline, `Y` the run succeeds and writes the two lines `\label{X` and
`Y1}`. -/
theorem output_with_newline :
    (main 64 label_a pat_eq pat_two_lines true).status = Status.success ∧
    getlines label_a = [label_a] ∧
    stdout_text (main 64 label_a pat_eq pat_two_lines true) =
      label_delim ++ ['X', '\n', 'Y', '1', '}', '\n'] ∧
    getlines (stdout_text (main 64 label_a pat_eq pat_two_lines true)) =
      [label_delim ++ ['X'], ['Y', '1', '}']] := by
  decide

/-- C16, amended (round-trip length): for every input and every replacement
without newline on which the run succeeds, the text written to the standard
output consists of exactly one line, ended by a newline, for every line of the
input, in the order of the input; the `k`-th line is the line that
`replace_refs_in_line` returns for the `k`-th line of the input with the line
number `k` and the table of `build_labels`, and the messages of the run are those
of `build_labels` followed by the messages of these calls, in the same order. -/
theorem round_trip_length (fuel : Nat) (input pattern_in pattern_out : List Char)
    (ignore_comments : Bool)
    (hs : (main fuel input pattern_in pattern_out ignore_comments).status = Status.success)
    (hnl : '\n' ∉ pattern_out) :
    ∃ (t : Table) (w : List Diag) (results : List (List Char × List Diag)),
      build_labels input pattern_in ignore_comments = some (t, w) ∧
      results.length = (getlines input).length ∧
      (∀ k l, (getlines input)[k]? = some l → ∃ r, results[k]? = some r ∧
        replace_refs_in_line fuel l pattern_in pattern_out t canonical_refs (k + 1)
          ignore_comments = LineResult.done r.1 r.2) ∧
      stdout_text (main fuel input pattern_in pattern_out ignore_comments) =
        unlines (results.map Prod.fst) ∧
      getlines (stdout_text (main fuel input pattern_in pattern_out ignore_comments)) =
        results.map Prod.fst ∧
      (main fuel input pattern_in pattern_out ignore_comments).diagnostics =
        w ++ results.flatMap Prod.snd := by
  obtain ⟨tw, hres⟩ : ∃ tw, build_labels input pattern_in ignore_comments = some tw :=
    ⟨_, build_labels_eq input pattern_in ignore_comments⟩
  obtain ⟨t, w⟩ := tw
  refine ⟨t, w, ?_⟩
  have hmain : main fuel input pattern_in pattern_out ignore_comments =
      rewrite_lines fuel pattern_in pattern_out t ignore_comments (getlines input) 1 [] w := by
    unfold main at hs ⊢
    rw [hres] at hs ⊢
    simp only at hs ⊢
    split
    · rename_i he
      rw [if_pos he] at hs
      simp at hs
    · rfl
  rw [hmain] at hs ⊢
  obtain ⟨results, g1, g2, g3, g4⟩ := rewrite_lines_results fuel pattern_in pattern_out t
    ignore_comments (getlines input) 1 [] w hs
  have htext : stdout_text (rewrite_lines fuel pattern_in pattern_out t
      ignore_comments (getlines input) 1 [] w) = unlines (results.map Prod.fst) := by
    simp only [stdout_text, g2, List.nil_append, unlines]
  refine ⟨results, hres, g1, ?_, htext, ?_, g3⟩
  · intro k l hk
    obtain ⟨r, e1, e2⟩ := g4 k l hk
    exact ⟨r, e1, by rw [Nat.add_comm]; exact e2⟩
  · rw [htext]
    apply getlines_unlines
    intro l hl
    obtain ⟨r, hr, rfl⟩ := List.mem_map.mp hl
    obtain ⟨k, hk⟩ := List.mem_iff_getElem?.mp hr
    have hklt : k < (getlines input).length := by
      by_contra hge
      rw [List.getElem?_eq_none (by omega)] at hk
      simp at hk
    obtain ⟨r', e1, e2⟩ := g4 k _ (List.getElem?_eq_getElem hklt)
    rw [hk] at e1
    simp only [Option.some.injEq] at e1
    subst e1
    unfold replace_refs_in_line at e2
    exact replace_kinds_no_newline _ _ _ _ _ _ hnl _ _ _ _ _
      (getlines_no_newline input _ (List.getElem_mem hklt)) e2

/-- The input `\ref{eq:a}` / `\label{eq:a}` with the replacement `E` is an
instance of the amended C16: two lines in, the two lines `\ref{E1}` and
`\label{E1}` out. -/
theorem round_trip_length_witness :
    (main 64 input_forward pat_eq ['E'] true).status = Status.success ∧
    '\n' ∉ ['E'] ∧
    stdout_text (main 64 input_forward pat_eq ['E'] true) =
      ref_delim ++ ['E', '1', '}', '\n'] ++ (label_delim ++ ['E', '1', '}', '\n']) ∧
    ∃ (t : Table) (w : List Diag) (results : List (List Char × List Diag)),
      build_labels input_forward pat_eq true = some (t, w) ∧
      results.length = (getlines input_forward).length ∧
      (∀ k l, (getlines input_forward)[k]? = some l → ∃ r, results[k]? = some r ∧
        replace_refs_in_line 64 l pat_eq ['E'] t canonical_refs (k + 1) true =
          LineResult.done r.1 r.2) ∧
      stdout_text (main 64 input_forward pat_eq ['E'] true) = unlines (results.map Prod.fst) ∧
      getlines (stdout_text (main 64 input_forward pat_eq ['E'] true)) =
        results.map Prod.fst ∧
      (main 64 input_forward pat_eq ['E'] true).diagnostics = w ++ results.flatMap Prod.snd :=
  ⟨by decide, by decide, by decide,
    round_trip_length 64 input_forward pat_eq ['E'] true (by decide) (by decide)⟩

/-! ## Lines made of text and constructs -/

/-- Where a text that starts with a backslash occurs, the line has a
backslash. -/
theorem occurrence_head (ds l : List Char) (j : Nat) (h : ('\\' :: ds) <+: l.drop j) :
    l[j]? = some '\\' := by
  obtain ⟨t, ht⟩ := h
  have := congrArg (fun x => x[0]?) ht
  simp only [List.cons_append, List.getElem?_cons_zero, List.getElem?_drop, Nat.add_zero] at this
  exact this.symm

theorem no_backslash_free (m : List Char) (h : '\\' ∉ m) : delimiter_free m := by
  intro d hd hinf
  obtain ⟨ds, rfl, _, _, _⟩ := canonical_shape d hd
  exact h (hinf.subset (List.mem_cons_self _ _))

theorem delimiter_free_initial (a m : List Char) (h : delimiter_free m) (ha : a <+: m) :
    delimiter_free a := by
  intro d hd hinf
  exact h d hd (hinf.trans ha.isInfix)

/-- In a text without occurrence of the delimiter `d`, followed by nothing, by a
backslash or by a closing brace, no occurrence of `d` starts. -/
theorem free_no_occurrence (d m x : List Char) (j : Nat) (hd : d ∈ canonical_refs)
    (hfree : ¬ d <:+: m)
    (hx : x = [] ∨ ∃ c r, x = c :: r ∧ (c = '\\' ∨ c = '}')) (hj : j < m.length) :
    ¬ d <+: (m ++ x).drop j := by
  intro h
  rw [List.drop_append_of_le_length (Nat.le_of_lt hj)] at h
  obtain ⟨ds, rfl, hds, hdc, _⟩ := canonical_shape d hd
  have hu : 0 < (m.drop j).length := by
    simp only [List.length_drop]
    omega
  by_cases hlen : ('\\' :: ds).length ≤ (m.drop j).length
  · have hpre : ('\\' :: ds) <+: m.drop j :=
      List.prefix_of_prefix_length_le h (List.prefix_append _ _) hlen
    exact hfree (hpre.isInfix.trans (List.drop_suffix j m).isInfix)
  · have hpre : m.drop j <+: '\\' :: ds :=
      List.prefix_of_prefix_length_le (List.prefix_append _ _) h (by omega)
    obtain ⟨v, hv⟩ := hpre
    obtain ⟨t, ht⟩ := h
    rw [← hv, List.append_assoc] at ht
    have hvx : v ++ t = x := List.append_cancel_left ht
    have hvlen : 0 < v.length := by
      have := congrArg List.length hv
      simp only [List.length_append] at this
      omega
    cases v with
    | nil => simp at hvlen
    | cons c v' =>
      have hcds : c ∈ ds := by
        cases hm : m.drop j with
        | nil => rw [hm] at hu; simp at hu
        | cons u₀ u' =>
          rw [hm] at hv
          simp only [List.cons_append, List.cons.injEq] at hv
          rw [← hv.2]
          simp
      rcases hx with hx | ⟨c', r, hx, hc'⟩
      · rw [hx] at hvx
        simp at hvx
      · rw [hx] at hvx
        simp only [List.cons_append, List.cons.injEq] at hvx
        rcases hc' with e | e
        · exact hds (by rw [← e, ← hvx.1]; exact hcds)
        · exact hdc (List.mem_cons_of_mem _ (by rw [← e, ← hvx.1]; exact hcds))

theorem no_occurrence_nil (d : List Char) (e : Nat) : no_occurrence d [] e := by
  intro x j _ hj
  simp at hj

theorem no_occurrence_mono (d p : List Char) (e e' : Nat) (h : no_occurrence d p e)
    (he : e ≤ e') : no_occurrence d p e' :=
  fun x j h1 h2 => h x j (Nat.le_trans he h1) h2

theorem no_occurrence_append (d p m : List Char) (e : Nat) (hp : no_occurrence d p e)
    (hm : ∀ x j, j < m.length → e ≤ p.length + j → ¬ d <+: (m ++ x).drop j) :
    no_occurrence d (p ++ m) e := by
  intro x j h1 h2 h
  by_cases hj : j < p.length
  · rw [List.append_assoc] at h
    exact hp _ j h1 hj h
  · obtain ⟨i, rfl⟩ : ∃ i, j = p.length + i := ⟨j - p.length, by omega⟩
    rw [List.append_assoc, List.drop_append] at h
    simp only [List.length_append] at h2
    exact hm x i (by omega) h1 h

/-- In a text, a construct after it and its closing brace, an occurrence of a
delimiter starts at the delimiter of the construct only. -/
theorem construct_silent (d es t₀ inner : List Char) (hd : d ∈ canonical_refs)
    (hes : '\\' ∉ es) (ht : delimiter_free t₀) (hin : delimiter_free inner) :
    ∀ (x : List Char) (j : Nat), j < (t₀ ++ (('\\' :: es) ++ (inner ++ ['}']))).length →
      j ≠ t₀.length → ¬ d <+: ((t₀ ++ (('\\' :: es) ++ (inner ++ ['}']))) ++ x).drop j := by
  intro x j hj hne h
  rcases Nat.lt_or_ge j t₀.length with hlt | hge
  · rw [List.append_assoc] at h
    exact free_no_occurrence d t₀ _ j hd (ht d hd)
      (Or.inr ⟨'\\', _, rfl, Or.inl rfl⟩) hlt h
  · obtain ⟨i, rfl⟩ : ∃ i, j = t₀.length + (1 + i) := ⟨j - t₀.length - 1, by omega⟩
    rw [List.append_assoc, List.drop_append] at h
    simp only [List.cons_append, Nat.add_comm 1 i, List.drop_succ_cons] at h
    simp only [List.length_append, List.length_cons, List.length_nil] at hj
    rcases Nat.lt_or_ge i es.length with h1 | h1
    · obtain ⟨ds, rfl, _, _, _⟩ := canonical_shape d hd
      have hh := occurrence_head ds _ i h
      rw [List.append_assoc, List.getElem?_append_left h1] at hh
      exact hes (List.getElem?_mem hh)
    · obtain ⟨k, rfl⟩ : ∃ k, i = es.length + k := ⟨i - es.length, by omega⟩
      rw [List.append_assoc, List.drop_append] at h
      rcases Nat.lt_or_ge k inner.length with h2 | h2
      · rw [List.append_assoc] at h
        exact free_no_occurrence d inner _ k hd (hin d hd)
          (Or.inr ⟨'}', _, rfl, Or.inr rfl⟩) h2 h
      · have hk : k = inner.length := by omega
        subst hk
        rw [List.append_assoc, List.drop_left] at h
        obtain ⟨ds, rfl, _, _, _⟩ := canonical_shape d hd
        obtain ⟨t, ht'⟩ := h
        simp at ht'

/-- A construct that is not an occurrence of `d` from `e` on, and the text before
it, extend a part without occurrence. -/
theorem no_occurrence_skip (d es p t₀ inner : List Char) (e : Nat) (hd : d ∈ canonical_refs)
    (hp : no_occurrence d p e) (ht : delimiter_free t₀) (hes : '\\' ∉ es)
    (hin : delimiter_free inner)
    (hq : ∀ x, d <+: ('\\' :: es) ++ x → p.length + t₀.length < e) :
    no_occurrence d (p ++ (t₀ ++ (('\\' :: es) ++ (inner ++ ['}'])))) e := by
  apply no_occurrence_append d p _ e hp
  intro x j hj he h
  by_cases hjt : j = t₀.length
  · subst hjt
    rw [List.append_assoc, List.drop_left, List.append_assoc] at h
    have := hq _ h
    omega
  · exact construct_silent d es t₀ inner hd hes ht hin x j hj hjt h

/-- The search from `e` finds the first delimiter that stands after a part
without occurrence and a text without occurrence. -/
theorem find_next (d p t₀ y : List Char) (e : Nat) (hd : d ∈ canonical_refs)
    (hp : no_occurrence d p e) (ht : delimiter_free t₀) (he : e ≤ p.length + t₀.length) :
    find (p ++ (t₀ ++ (d ++ y))) d e = some (p.length + t₀.length) := by
  have e1 : (p ++ (t₀ ++ (d ++ y))).drop (p.length + t₀.length) = d ++ y := by
    rw [← List.append_assoc]
    exact List.drop_left' (by simp)
  apply find_eq_some _ _ _ _ he (by simp)
  · rw [e1]
    exact List.prefix_append _ _
  · intro j h1 h2 h
    by_cases hj : j < p.length
    · exact hp (t₀ ++ (d ++ y)) j h1 hj h
    · obtain ⟨i, rfl⟩ : ∃ i, j = p.length + i := ⟨j - p.length, by omega⟩
      rw [List.drop_append] at h
      obtain ⟨ds, rfl, _, _, _⟩ := canonical_shape d hd
      exact free_no_occurrence _ t₀ _ i hd (ht _ hd)
        (Or.inr ⟨'\\', _, rfl, Or.inl rfl⟩) (by omega) h

/-- The search from `e` finds nothing after the last construct. -/
theorem find_last (d p t₀ : List Char) (e : Nat) (hd : d ∈ canonical_refs)
    (hp : no_occurrence d p e) (ht : delimiter_free t₀) :
    find (p ++ t₀) d e = none := by
  apply find_eq_none
  intro j h1 h
  by_cases hj : j < p.length
  · exact hp t₀ j h1 hj h
  · obtain ⟨i, rfl⟩ : ∃ i, j = p.length + i := ⟨j - p.length, by omega⟩
    rw [List.drop_append] at h
    rcases Nat.lt_or_ge i t₀.length with hlt | hge
    · have := free_no_occurrence d t₀ [] i hd (ht d hd) (Or.inl rfl) hlt
      rw [List.append_nil] at this
      exact this h
    · rw [List.drop_of_length_le hge] at h
      obtain ⟨ds, rfl, _, _, _⟩ := canonical_shape d hd
      obtain ⟨t, ht'⟩ := h
      simp at ht'

theorem replace_loop_step (d pre name post pattern_in pattern_out : List Char)
    (labels : Table) (line_no : Nat) (pos_comment : Option Nat) (f e : Nat) (w : List Diag)
    (hfind : find (pre ++ (d ++ (name ++ '}' :: post))) d e = some pre.length)
    (hd : '}' ∉ d) (hclose : '}' ∉ name) :
    replace_loop d pattern_in pattern_out labels line_no pos_comment (f + 1)
        (pre ++ (d ++ (name ++ '}' :: post))) e w =
      if beyond pre.length pos_comment then
        LineResult.done (pre ++ (d ++ (name ++ '}' :: post))) w
      else
        match map_find labels name with
        | some i =>
          replace_loop d pattern_in pattern_out labels line_no pos_comment f
            (pre ++ (d ++ (pattern_out ++ to_string i ++ '}' :: post)))
            (pre.length + (d.length + name.length)) w
        | none =>
          replace_loop d pattern_in pattern_out labels line_no pos_comment f
            (pre ++ (d ++ (name ++ '}' :: post)))
            (pre.length + (d.length + name.length))
            (if compare_zero name pattern_in then w ++ [Diag.undefined d name line_no]
             else w) := by
  have hbrace : find_char (pre ++ (d ++ (name ++ '}' :: post))) '}' pre.length =
      some (pre.length + (d.length + name.length)) := by
    have := find_char_first pre (d ++ name) post '}'
      (by simp only [List.mem_append, not_or]; exact ⟨hd, hclose⟩)
    simpa [List.append_assoc] using this
  have hsize : size_sub (pre.length + (d.length + name.length)) (pre.length + d.length) =
      name.length := by
    unfold size_sub
    rw [if_pos (by omega)]
    omega
  have hsub : substr (pre ++ (d ++ (name ++ '}' :: post))) (pre.length + d.length)
      name.length = name := by
    unfold substr
    rw [← List.append_assoc, List.drop_left' (by simp), List.take_left]
  have hrep : ∀ i, replace (pre ++ (d ++ (name ++ '}' :: post))) (pre.length + d.length)
      name.length (pattern_out ++ to_string i) =
        pre ++ (d ++ (pattern_out ++ to_string i ++ '}' :: post)) := by
    intro i
    unfold replace
    rw [← List.append_assoc pre d, List.take_left' (by simp), List.drop_left' (by simp),
      List.drop_left]
    simp [List.append_assoc]
  rw [replace_loop]
  simp only [hfind, hbrace, hsize, hsub]
  split
  · rfl
  · cases hk : map_find labels name with
    | some i => simp only [hrep]
    | none =>
      simp only
      split <;> rfl

theorem kept_mono (labels : Table) (pattern_out d : List Char) (scanned_kinds : List (List Char))
    (a b : Construct × List Char) (h : kept labels pattern_out scanned_kinds a b) :
    kept labels pattern_out (d :: scanned_kinds) a b := by
  obtain ⟨h1, h2, h3, h4, h5, h6, h7⟩ := h
  refine ⟨h1, h2, h3, h4, h5, h6, ?_⟩
  rcases h7 with h | ⟨hm, hi⟩
  · exact Or.inl h
  · exact Or.inr ⟨List.mem_cons_of_mem _ hm, hi⟩

/-- The scan of the delimiter `d` over a line of texts and constructs, entered
at any place of the line: it ends, and it leaves the line as it is but for the
inner text of constructs of the delimiter `d`, which it replaces once. -/
theorem scan_shape (d pattern_in pattern_out : List Char) (labels : Table) (line_no : Nat)
    (pos_comment : Option Nat) (scanned_kinds : List (List Char)) (hd : d ∈ canonical_refs)
    (hnew : d ∉ scanned_kinds) (hout : '\\' ∉ pattern_out) :
    ∀ orig cur, List.Forall₂ (kept labels pattern_out scanned_kinds) orig cur →
      ∀ (p t₀ : List Char) (e f : Nat) (w : List Diag), no_occurrence d p e →
        delimiter_free t₀ → cur.length < f →
        ∃ cur' w', replace_loop d pattern_in pattern_out labels line_no pos_comment f
            (p ++ render t₀ cur) e w = LineResult.done (p ++ render t₀ cur') w' ∧
          List.Forall₂ (kept labels pattern_out (d :: scanned_kinds)) orig cur' := by
  obtain ⟨ds, rfl, hds, hdc, _⟩ := canonical_shape d hd
  intro orig cur h
  induction h with
  | nil =>
    intro p t₀ e f w hp ht hf
    cases f with
    | zero => simp at hf
    | succ f =>
      refine ⟨[], w, ?_, List.Forall₂.nil⟩
      rw [replace_loop]
      simp only [render]
      rw [find_last _ p t₀ e hd hp ht]
  | @cons a b l₁ l₂ hab hrest ih =>
    intro p t₀ e f w hp ht hf
    obtain ⟨ca, ta⟩ := a
    obtain ⟨cb, tb⟩ := b
    obtain ⟨ha1, ha2, ha3, ha4, hb1, hb2, hb3⟩ := hab
    simp only at ha1 ha2 ha3 ha4 hb1 hb2 hb3
    have hb2' : ta = tb := hb2.symm
    subst hb2'
    obtain ⟨es, hes, hes', _, _⟩ := canonical_shape ca.delim ha1
    have hnewfree : ∀ i, delimiter_free (pattern_out ++ to_string i) := by
      intro i
      apply no_backslash_free
      simp only [List.mem_append, not_or]
      exact ⟨hout, to_string_no_backslash i⟩
    have hbfree : delimiter_free cb.inner := by
      rcases hb3 with h | ⟨_, i, _, h⟩
      · rw [h]; exact ha2
      · rw [h]; exact hnewfree i
    have hlen : l₂.length < f := by
      simp only [List.length_cons] at hf
      omega
    by_cases hc : cb.delim = '\\' :: ds ∧ e ≤ p.length + t₀.length
    · obtain ⟨hc1, hc2⟩ := hc
      have hbi : cb.inner = ca.inner := by
        rcases hb3 with h | ⟨hm, _⟩
        · exact h
        · exfalso
          apply hnew
          rw [← hc1, hb1]
          exact hm
      cases f with
      | zero => simp at hf
      | succ f =>
        have hlen' : l₂.length < f := by
          simp only [List.length_cons] at hf
          omega
        have hline : p ++ render t₀ ((cb, ta) :: l₂) =
            (p ++ t₀) ++ (('\\' :: ds) ++ (ca.inner ++ '}' :: render ta l₂)) := by
          simp [render, hc1, hbi, List.append_assoc]
        have hfind : find ((p ++ t₀) ++ (('\\' :: ds) ++ (ca.inner ++ '}' :: render ta l₂)))
            ('\\' :: ds) e = some (p ++ t₀).length := by
          have := find_next _ p t₀ (ca.inner ++ '}' :: render ta l₂) e hd hp ht hc2
          simpa [List.append_assoc] using this
        rw [hline, replace_loop_step _ _ _ _ _ _ _ _ _ _ _ _ hfind hdc ha3]
        split
        · refine ⟨(cb, ta) :: l₂, w, by rw [hline], ?_⟩
          exact List.Forall₂.cons
            (kept_mono _ _ _ _ _ _ ⟨ha1, ha2, ha3, ha4, hb1, rfl, hb3⟩)
            (hrest.imp (fun x y hxy => kept_mono _ _ _ _ _ _ hxy))
        · have hno : ∀ (mid : List Char), delimiter_free mid →
              no_occurrence ('\\' :: ds) (p ++ (t₀ ++ (('\\' :: ds) ++ (mid ++ ['}']))))
                ((p ++ t₀).length + (('\\' :: ds).length + ca.inner.length)) := by
            intro mid hmid
            apply no_occurrence_append _ p _ _
              (no_occurrence_mono _ _ _ _ hp (by simp only [List.length_append]; omega))
            intro x j hj he
            apply construct_silent _ ds t₀ mid hd hds ht hmid x j hj
            simp only [List.length_append, List.length_cons] at he
            omega
          cases hk : map_find labels ca.inner with
          | none =>
            simp only
            obtain ⟨cur', w', h1, h2⟩ := ih
              (p ++ (t₀ ++ (('\\' :: ds) ++ (ca.inner ++ ['}']))))
              ta ((p ++ t₀).length + (('\\' :: ds).length + ca.inner.length)) f
              (if compare_zero ca.inner pattern_in then
                w ++ [Diag.undefined ('\\' :: ds) ca.inner line_no] else w)
              (hno _ ha2) ha4 hlen'
            refine ⟨(cb, ta) :: cur', w', ?_, ?_⟩
            · have el : (p ++ t₀) ++ (('\\' :: ds) ++ (ca.inner ++ '}' :: render ta l₂)) =
                  (p ++ (t₀ ++ (('\\' :: ds) ++ (ca.inner ++ ['}'])))) ++ render ta l₂ := by
                simp [List.append_assoc]
              have er : p ++ render t₀ ((cb, ta) :: cur') =
                  (p ++ (t₀ ++ (('\\' :: ds) ++ (ca.inner ++ ['}'])))) ++ render ta cur' := by
                simp [render, hc1, hbi, List.append_assoc]
              rw [el, er]
              exact h1
            · exact List.Forall₂.cons
                (kept_mono _ _ _ _ _ _ ⟨ha1, ha2, ha3, ha4, hb1, rfl, hb3⟩) h2
          | some i =>
            simp only
            obtain ⟨cur', w', h1, h2⟩ := ih
              (p ++ (t₀ ++ (('\\' :: ds) ++ ((pattern_out ++ to_string i) ++ ['}']))))
              ta ((p ++ t₀).length + (('\\' :: ds).length + ca.inner.length)) f w
              (hno _ (hnewfree i)) ha4 hlen'
            refine ⟨(⟨cb.delim, pattern_out ++ to_string i⟩, ta) :: cur', w', ?_, ?_⟩
            · have el : (p ++ t₀) ++
                  (('\\' :: ds) ++ (pattern_out ++ to_string i ++ '}' :: render ta l₂)) =
                  (p ++ (t₀ ++ (('\\' :: ds) ++ ((pattern_out ++ to_string i) ++ ['}'])))) ++
                    render ta l₂ := by
                simp [List.append_assoc]
              have er : p ++ render t₀ ((⟨cb.delim, pattern_out ++ to_string i⟩, ta) :: cur') =
                  (p ++ (t₀ ++ (('\\' :: ds) ++ ((pattern_out ++ to_string i) ++ ['}'])))) ++
                    render ta cur' := by
                simp [render, hc1, List.append_assoc]
              rw [el, er]
              exact h1
            · refine List.Forall₂.cons ⟨ha1, ha2, ha3, ha4, hb1, rfl, Or.inr ⟨?_, i, hk, rfl⟩⟩ h2
              rw [← hb1, hc1]
              exact List.mem_cons_self _ _
    · have hp' : no_occurrence ('\\' :: ds)
          (p ++ (t₀ ++ (('\\' :: es) ++ (cb.inner ++ ['}'])))) e := by
        apply no_occurrence_skip _ es p t₀ cb.inner e hd hp ht hes' hbfree
        intro x hx
        have e1 := canonical_prefix_eq ca.delim ('\\' :: ds) x ha1 hd (by rw [hes]; exact hx)
        have e2 : cb.delim = '\\' :: ds := by rw [hb1, e1]
        by_contra hcon
        exact hc ⟨e2, by omega⟩
      obtain ⟨cur', w', h1, h2⟩ := ih _ ta e f w hp' ha4 hlen
      refine ⟨(cb, ta) :: cur', w', ?_, ?_⟩
      · have el : ∀ l, p ++ render t₀ ((cb, ta) :: l) =
            (p ++ (t₀ ++ (('\\' :: es) ++ (cb.inner ++ ['}'])))) ++ render ta l := by
          intro l
          simp [render, hb1, hes, List.append_assoc]
        rw [el, el]
        exact h1
      · exact List.Forall₂.cons
          (kept_mono _ _ _ _ _ _ ⟨ha1, ha2, ha3, ha4, hb1, rfl, hb3⟩) h2

/-- The scans of the delimiters `refs`, one after the other, over a line of
texts and constructs. -/
theorem kinds_shape (pattern_in pattern_out : List Char) (labels : Table) (line_no : Nat)
    (pos_comment : Option Nat) (f : Nat) (t₀ : List Char) (orig : List (Construct × List Char))
    (hout : '\\' ∉ pattern_out) (ht : delimiter_free t₀) (hf : orig.length < f) :
    ∀ (refs scanned_kinds : List (List Char)) (cur : List (Construct × List Char))
      (w : List Diag),
      (∀ d ∈ refs, d ∈ canonical_refs ∧ d ∉ scanned_kinds) → refs.Nodup →
      List.Forall₂ (kept labels pattern_out scanned_kinds) orig cur →
      ∃ cur' w' scanned', replace_kinds pattern_in pattern_out labels line_no pos_comment f refs
          (render t₀ cur) w = LineResult.done (render t₀ cur') w' ∧
        List.Forall₂ (kept labels pattern_out scanned') orig cur' := by
  intro refs
  induction refs with
  | nil =>
    intro scanned_kinds cur w _ _ h
    exact ⟨cur, w, scanned_kinds, by simp [replace_kinds], h⟩
  | cons d rest ih =>
    intro scanned_kinds cur w hr hn h
    obtain ⟨hd1, hd2⟩ := hr d (List.mem_cons_self _ _)
    obtain ⟨c1, w1, h1, h2⟩ := scan_shape d pattern_in pattern_out labels line_no pos_comment
      scanned_kinds hd1 hd2 hout orig cur h [] t₀ 0 f w (no_occurrence_nil _ _) ht
      (by rw [← h.length_eq]; exact hf)
    simp only [List.nil_append] at h1
    rw [replace_kinds, h1]
    apply ih (d :: scanned_kinds) c1 w1 _ (List.nodup_cons.mp hn).2 h2
    intro x hx
    refine ⟨(hr x (List.mem_cons_of_mem _ hx)).1, ?_⟩
    intro hmem
    rcases List.mem_cons.mp hmem with e | e
    · subst e
      exact (List.nodup_cons.mp hn).1 hx
    · exact (hr x (List.mem_cons_of_mem _ hx)).2 e

/-- The function `replace_refs_in_line` on a line of texts and constructs: it
returns the line with the inner text of each construct kept or replaced once. -/
theorem replace_refs_shape (fuel : Nat) (t₀ : List Char) (segs : List (Construct × List Char))
    (pattern_in pattern_out : List Char) (labels : Table) (line_no : Nat)
    (ignore_comments : Bool) (hwf : well_formed t₀ segs) (hout : '\\' ∉ pattern_out)
    (hfuel : segs.length < fuel) :
    ∃ segs' w, replace_refs_in_line fuel (render t₀ segs) pattern_in pattern_out labels
        canonical_refs line_no ignore_comments = LineResult.done (render t₀ segs') w ∧
      List.Forall₂ (rewritten_once labels pattern_out) segs segs' := by
  obtain ⟨ht, hs⟩ := hwf
  have h0 : List.Forall₂ (kept labels pattern_out []) segs segs := by
    apply List.forall₂_same.mpr
    intro x hx
    obtain ⟨a, b, c, d⟩ := hs x hx
    exact ⟨a, b, c, d, rfl, rfl, Or.inl rfl⟩
  obtain ⟨cur', w', sc, h1, h2⟩ := kinds_shape pattern_in pattern_out labels line_no
    (comment_pos ignore_comments (render t₀ segs)) fuel t₀ segs hout ht hfuel canonical_refs []
    segs [] (fun d hd => ⟨hd, by simp⟩) (by decide) h0
  refine ⟨cur', w', h1, h2.imp ?_⟩
  intro a b hab
  obtain ⟨_, _, _, _, h5, h6, h7⟩ := hab
  refine ⟨h5, h6, ?_⟩
  rcases h7 with h | ⟨_, hi⟩
  · exact Or.inl h
  · exact Or.inr hi

/-- What the scan of a delimiter finds is an occurrence of that delimiter and of
no other one. -/
theorem found_from_own_kind (d pattern_out : List Char) (labels : Table)
    (pos_comment : Option Nat) (hd : d ∈ canonical_refs) :
    ∀ (f : Nat) (line : List Char) (e : Nat),
      ∀ x ∈ found_from d pattern_out labels pos_comment f line e,
        d <+: x.1.drop x.2 ∧ ∀ d' ∈ canonical_refs, d' <+: x.1.drop x.2 → d' = d := by
  intro f
  induction f with
  | zero => intro line e x hx; simp [found_from] at hx
  | succ f ih =>
    intro line e x hx
    rw [found_from] at hx
    cases h1 : find line d e with
    | none => rw [h1] at hx; simp at hx
    | some start =>
      rw [h1] at hx
      simp only [List.mem_cons] at hx
      rcases hx with rfl | hx
      · obtain ⟨_, _, h3, _⟩ := find_some _ _ _ _ h1
        refine ⟨h3, ?_⟩
        intro d' hd' h'
        obtain ⟨y, hy⟩ := h3
        simp only at h'
        rw [← hy] at h'
        exact canonical_prefix_eq d d' y hd hd' h'
      · split at hx
        · simp at hx
        · cases h2 : find_char line '}' start with
          | none => rw [h2] at hx; simp at hx
          | some e' =>
            rw [h2] at hx
            simp only at hx
            split at hx
            · exact ih _ _ x hx
            · exact ih _ _ x hx

/-- The line `\ref{E2} and \ref{E1}` after the text `\begin{equation}`, with the
table that numbers `E2` first: the two names are exchanged, and the new `E1` is
not replaced again. -/
theorem swap_line_rewritten :
    replace_refs_in_line 64 (render begin_equation swap_constructs) ['E'] ['E'] table_swap
      canonical_refs 1 true = LineResult.done (render begin_equation swapped_constructs) [] := by
  decide

/-- An inner text that is replaced twice: for the table of the two lines
`\label{xa}` and `\label{x\label{E1}` with the prefix `x`, the scan of `\label{`
turns the line `\ref{x\label{xa}` into `\ref{x\label{E1}`, and the scan of
`\ref{` then replaces `x\label{E1`, which holds the text just written, by `E2`:
the line comes back as `\ref{E2}`. -/
theorem nested_construct_replaced_again :
    build_labels input_nested ['x'] true = some (table_nested, []) ∧
    '\\' ∉ ['E'] ∧
    replace_kinds ['x'] ['E'] table_nested 1 (comment_pos true line_nested) 64 [label_delim]
      line_nested [] =
        LineResult.done (ref_delim ++ ['x'] ++ label_delim ++ name_E1 ++ ['}']) [] ∧
    replace_refs_in_line 64 line_nested ['x'] ['E'] table_nested canonical_refs 1 true =
      LineResult.done (ref_delim ++ name_E2 ++ ['}']) [] := by
  decide

/-- An occurrence that the scan of no delimiter finds: on the line
`\ref{eq:energy}\ref{eq:energy}` the scan of `\ref{` finds the first occurrence
only, and the scans of the three other delimiters, on the line as they meet it,
find nothing. -/
theorem second_occurrence_never_found :
    found_from label_delim ['E'] table_energy (comment_pos true two_refs) 64 two_refs 0 = [] ∧
    found_from eqref_delim ['E'] table_energy (comment_pos true two_refs) 64 two_refs 0 = [] ∧
    found_from ref_delim ['E'] table_energy (comment_pos true two_refs) 64 two_refs 0 =
      [(two_refs, 0)] ∧
    replace_loop ref_delim pat_eq ['E'] table_energy 1 (comment_pos true two_refs) 64 two_refs 0
      [] = LineResult.done (ref_delim ++ ['E', '1', '}'] ++ ref_delim ++ eq_energy ++ ['}']) [] ∧
    found_from ['\\', 'p', 'a', 'g', 'e', 'r', 'e', 'f', '{'] ['E'] table_energy
      (comment_pos true two_refs) 64
      (ref_delim ++ ['E', '1', '}'] ++ ref_delim ++ eq_energy ++ ['}']) 0 = [] := by
  decide

/-- C22, amended. No construct is matched by two kinds. None of the four
delimiters of `main` is a part of another one. So, for every line, what the scan
of one delimiter finds is an occurrence of that delimiter and of no other one.
And when the replacement holds no backslash, on every line in which each
occurrence of a delimiter starts a construct that is closed by a brace, with no
occurrence of a delimiter in its inner text, `replace_refs_in_line` returns the
same line with the inner text of each construct either kept or replaced once, by
`pattern_out` and the index of that inner text, never by the index of a text that
a replacement has put there. -/
theorem no_construct_matched_twice (fuel : Nat) (t₀ : List Char)
    (segs : List (Construct × List Char)) (pattern_in pattern_out : List Char) (labels : Table)
    (line_no : Nat) (ignore_comments : Bool) (hwf : well_formed t₀ segs)
    (hout : '\\' ∉ pattern_out) (hfuel : segs.length < fuel) :
    (∀ d ∈ canonical_refs, ∀ d' ∈ canonical_refs, d <:+: d' → d = d') ∧
    (∀ (f : Nat) (line : List Char) (e : Nat) (pos_comment : Option Nat),
      ∀ d ∈ canonical_refs, ∀ x ∈ found_from d pattern_out labels pos_comment f line e,
        d <+: x.1.drop x.2 ∧ ∀ d' ∈ canonical_refs, d' <+: x.1.drop x.2 → d' = d) ∧
    ∃ segs' w, replace_refs_in_line fuel (render t₀ segs) pattern_in pattern_out labels
        canonical_refs line_no ignore_comments = LineResult.done (render t₀ segs') w ∧
      List.Forall₂ (rewritten_once labels pattern_out) segs segs' := by
  refine ⟨by decide, ?_, replace_refs_shape fuel t₀ segs pattern_in pattern_out labels line_no
    ignore_comments hwf hout hfuel⟩
  intro f line e pos_comment d hd x hx
  exact found_from_own_kind d pattern_out labels pos_comment hd f line e x hx

theorem no_construct_matched_twice_witness :
    well_formed begin_equation swap_constructs ∧
    ((∀ d ∈ canonical_refs, ∀ d' ∈ canonical_refs, d <:+: d' → d = d') ∧
    (∀ (f : Nat) (line : List Char) (e : Nat) (pos_comment : Option Nat),
      ∀ d ∈ canonical_refs, ∀ x ∈ found_from d ['E'] table_swap pos_comment f line e,
        d <+: x.1.drop x.2 ∧ ∀ d' ∈ canonical_refs, d' <+: x.1.drop x.2 → d' = d) ∧
    ∃ segs' w, replace_refs_in_line 64 (render begin_equation swap_constructs) ['E'] ['E']
        table_swap canonical_refs 1 true = LineResult.done (render begin_equation segs') w ∧
      List.Forall₂ (rewritten_once table_swap ['E']) swap_constructs segs') :=
  ⟨by decide, no_construct_matched_twice 64 begin_equation swap_constructs ['E'] ['E']
    table_swap 1 true (by decide) (by decide) (by decide)⟩

/-! ## The definitions of a line of texts and constructs -/

theorem decimal_value_core : ∀ (f n : Nat) (acc : List Char), n < f →
    decimal_value (Nat.toDigitsCore 10 f n acc) = n * 10 ^ acc.length + decimal_value acc := by
  have hdigit : ∀ m, m < 10 → digit_value (Nat.digitChar m) = m := by
    decide
  intro f
  induction f with
  | zero => intro n acc h; omega
  | succ f ih =>
    intro n acc h
    have hd := hdigit (n % 10) (Nat.mod_lt _ (by decide))
    simp only [Nat.toDigitsCore]
    split
    · rename_i h0
      have hn : n % 10 = n := by omega
      rw [hn] at hd
      simp only [decimal_value, hd, hn]
    · rename_i h0
      rw [ih (n / 10) _ (by omega)]
      simp only [decimal_value, hd, List.length_cons, pow_succ]
      have h := (Nat.div_add_mod n 10).symm
      generalize n / 10 = q at *
      generalize n % 10 = r at *
      subst h
      ring

/-- The decimal numeral of a number stands for that number. -/
theorem decimal_value_to_string (n : Nat) : decimal_value (to_string n) = n := by
  unfold to_string Nat.toDigits
  rw [decimal_value_core (n + 1) n [] (by omega)]
  simp [decimal_value]

theorem to_string_injective (i j : Nat) (h : to_string i = to_string j) : i = j := by
  have := congrArg decimal_value h
  rwa [decimal_value_to_string, decimal_value_to_string] at this

/-- The names of the definitions of a rewritten line come from names of
definitions of the line read, each kept or renamed. -/

theorem active_labels_renamed (labels : Table) (pattern_out : List Char)
    (ignore_comments : Bool)
    (hkeys : ignore_comments = true → ∀ k i, map_find labels k = some i → '%' ∉ k) :
    ∀ segs segs', List.Forall₂ (rewritten_once labels pattern_out) segs segs' →
      ∀ t₀, ∃ l, l.Sublist (active_labels ignore_comments t₀ segs) ∧
        List.Forall₂ (renamed labels pattern_out) l
          (active_labels ignore_comments t₀ segs') := by
  intro segs segs' h
  induction h with
  | nil => intro t₀; exact ⟨[], by simp [active_labels], by simp [active_labels]⟩
  | @cons a b l₁ l₂ hab _ ih =>
    intro t₀
    obtain ⟨ca, ta⟩ := a
    obtain ⟨cb, tb⟩ := b
    obtain ⟨h1, h2, h3⟩ := hab
    simp only at h1 h2 h3
    have h2' : ta = tb := h2.symm
    subst h2'
    simp only [active_labels]
    by_cases hc : ignore_comments = true ∧ ('%' ∈ t₀ ∨ '%' ∈ cb.inner)
    · rw [if_pos hc]
      exact ⟨[], List.nil_sublist _, List.Forall₂.nil⟩
    · rw [if_neg hc]
      have hc' : ¬ (ignore_comments = true ∧ ('%' ∈ t₀ ∨ '%' ∈ ca.inner)) := by
        rintro ⟨hi, ht | hn⟩
        · exact hc ⟨hi, Or.inl ht⟩
        · rcases h3 with e | ⟨i, hk, _⟩
          · exact hc ⟨hi, Or.inr (by rw [e]; exact hn)⟩
          · exact hkeys hi _ _ hk hn
      rw [if_neg hc']
      obtain ⟨l, hl1, hl2⟩ := ih ta
      rw [h1]
      by_cases hd : ca.delim = label_delim
      · simp only [hd, if_true]
        refine ⟨ca.inner :: l, ?_, ?_⟩
        · exact List.Sublist.cons₂ _ hl1
        · refine List.Forall₂.cons ?_ hl2
          rcases h3 with e | ⟨i, hk, e⟩
          · exact Or.inl e
          · exact Or.inr ⟨i, hk, e⟩
      · simp only [hd, if_false, List.nil_append]
        exact ⟨l, hl1, hl2⟩

theorem all_active_labels_renamed (labels : Table) (pattern_out : List Char)
    (ignore_comments : Bool)
    (hkeys : ignore_comments = true → ∀ k i, map_find labels k = some i → '%' ∉ k) :
    ∀ shapes shapes', List.Forall₂ (rewritten_line labels pattern_out) shapes shapes' →
      ∃ l, l.Sublist (all_active_labels ignore_comments shapes) ∧
        List.Forall₂ (renamed labels pattern_out) l
          (all_active_labels ignore_comments shapes') := by
  intro shapes shapes' h
  induction h with
  | nil => exact ⟨[], by simp [all_active_labels], by simp [all_active_labels]⟩
  | @cons a b l₁ l₂ hab _ ih =>
    obtain ⟨l, hl1, hl2⟩ := ih
    obtain ⟨e, hf⟩ := hab
    obtain ⟨m, hm1, hm2⟩ := active_labels_renamed labels pattern_out ignore_comments hkeys _ _
      hf a.1
    refine ⟨m ++ l, ?_, ?_⟩
    · simp only [all_active_labels, List.flatMap_cons]
      exact List.Sublist.append hm1 hl1
    · simp only [all_active_labels, List.flatMap_cons]
      rw [e]
      exact List.rel_append hm2 hl2

theorem forall₂_mem_right {α β : Type} (r : α → β → Prop) :
    ∀ (l₁ : List α) (l₂ : List β), List.Forall₂ r l₁ l₂ → ∀ y ∈ l₂, ∃ x ∈ l₁, r x y := by
  intro l₁ l₂ h
  induction h with
  | nil => intro y hy; simp at hy
  | @cons a b l₁ l₂ hab _ ih =>
    intro y hy
    rcases List.mem_cons.mp hy with e | e
    · subst e
      exact ⟨a, List.mem_cons_self _ _, hab⟩
    · obtain ⟨x, hx, hr⟩ := ih y e
      exact ⟨x, List.mem_cons_of_mem _ hx, hr⟩

/-- Distinct names, none of them a generated name, stay distinct when each is
kept or renamed, for a table that stores each index under one key. -/
theorem renamed_nodup (labels : Table) (pattern_out : List Char)
    (hinj : ∀ k k' i, map_find labels k = some i → map_find labels k' = some i → k = k') :
    ∀ (l out : List (List Char)), List.Forall₂ (renamed labels pattern_out) l out →
      l.Nodup → (∀ a ∈ l, fresh labels pattern_out a) → out.Nodup := by
  intro l out h
  induction h with
  | nil => intro _ _; exact List.nodup_nil
  | @cons a b l₁ l₂ hab hrest ih =>
    intro hn hf
    obtain ⟨hn1, hn2⟩ := List.nodup_cons.mp hn
    refine List.nodup_cons.mpr ⟨?_, ih hn2 (fun x hx => hf x (List.mem_cons_of_mem _ hx))⟩
    intro hb
    obtain ⟨a₂, ha₂, hr⟩ := forall₂_mem_right _ _ _ hrest b hb
    have hfa := hf a (List.mem_cons_self _ _)
    have hfa₂ := hf a₂ (List.mem_cons_of_mem _ ha₂)
    rcases hab with e1 | ⟨i, hk, e1⟩ <;> rcases hr with e2 | ⟨i₂, hk₂, e2⟩
    · apply hn1
      rw [← e1, e2]
      exact ha₂
    · exact hfa _ _ hk₂ (by rw [← e1, e2])
    · exact hfa₂ _ _ hk (by rw [← e2, e1])
    · have e3 : to_string i = to_string i₂ := by
        have := e1.symm.trans e2
        exact List.append_cancel_left this
      have e4 := to_string_injective _ _ e3
      subst e4
      apply hn1
      rw [hinj _ _ _ hk hk₂]
      exact ha₂

/-- The loop of `main` over lines of texts and constructs: every line is
rewritten, and the run ends with success. -/
theorem rewrite_lines_shapes (fuel : Nat) (pattern_in pattern_out : List Char) (labels : Table)
    (ignore_comments : Bool) (hout : '\\' ∉ pattern_out) :
    ∀ (shapes : List (List Char × List (Construct × List Char))) (line_no : Nat)
      (out : List (List Char)) (diags : List Diag),
      (∀ s ∈ shapes, well_formed s.1 s.2 ∧ s.2.length < fuel) →
      ∃ shapes' diags', rewrite_lines fuel pattern_in pattern_out labels ignore_comments
          (shapes.map render_line) line_no out diags =
            ⟨out ++ shapes'.map render_line, diags', Status.success⟩ ∧
        List.Forall₂ (rewritten_line labels pattern_out) shapes shapes' := by
  intro shapes
  induction shapes with
  | nil =>
    intro line_no out diags _
    exact ⟨[], diags, by simp [rewrite_lines], List.Forall₂.nil⟩
  | cons s rest ih =>
    intro line_no out diags h
    obtain ⟨hwf, hf⟩ := h s (List.mem_cons_self _ _)
    obtain ⟨segs', w, h1, h2⟩ := replace_refs_shape fuel s.1 s.2 pattern_in pattern_out labels
      line_no ignore_comments hwf hout hf
    obtain ⟨shapes', diags', g1, g2⟩ := ih (line_no + 1) (out ++ [render s.1 segs'])
      (diags ++ w) (fun x hx => h x (List.mem_cons_of_mem _ hx))
    refine ⟨(s.1, segs') :: shapes', diags', ?_, List.Forall₂.cons ⟨rfl, h2⟩ g2⟩
    simp only [List.map_cons, rewrite_lines, render_line]
    rw [h1]
    simp only
    rw [g1]
    simp

/-- The table of `build_labels` stores each index under one key, and with
`ignore_comments` no key holds a `%`. -/
theorem build_labels_keys (input pattern_in : List Char) (ignore_comments : Bool) (t : Table)
    (w : List Diag) (hb : build_labels input pattern_in ignore_comments = some (t, w)) :
    (∀ k k' i, map_find t k = some i → map_find t k' = some i → k = k') ∧
    (ignore_comments = true → ∀ k i, map_find t k = some i → '%' ∉ k) := by
  rw [build_labels_eq] at hb
  simp only [Option.some.injEq, Prod.mk.injEq] at hb
  obtain ⟨hb1, _⟩ := hb
  have inv := scanInv_register_all (definitions input pattern_in ignore_comments) _ scanInv_init
  have hinj := inv.inj
  rw [hb1] at hinj
  refine ⟨hinj, ?_⟩
  intro hi k i hk
  have hne : map_find (register_all ⟨[], 1, []⟩
      (definitions input pattern_in ignore_comments)).result k ≠ none := by
    rw [hb1, hk]
    simp
  rcases register_all_keys _ _ k hne with h | h
  · simp [map_find] at h
  · obtain ⟨d, hd, rfl⟩ := List.mem_map.mp h
    exact (defs_of_lines_ok pattern_in ignore_comments _ _ d hd).2 hi

theorem take_name_first (rest : List Char) :
    ∀ (inner : List Char), '}' ∉ inner → take_name (inner ++ '}' :: rest) = some inner := by
  intro inner
  induction inner with
  | nil => intro _; simp [take_name]
  | cons c cs ih =>
    intro h
    have hc : ¬ c = '}' := fun e => h (List.mem_cons.mpr (Or.inl e.symm))
    simp [take_name, hc, ih (fun e => h (List.mem_cons_of_mem _ e))]

theorem take_name_none :
    ∀ (u : List Char), '}' ∉ u → take_name u = none := by
  intro u
  induction u with
  | nil => intro _; rfl
  | cons c cs ih =>
    intro h
    have hc : ¬ c = '}' := fun e => h (List.mem_cons.mpr (Or.inl e.symm))
    simp [take_name, hc, ih (fun e => h (List.mem_cons_of_mem _ e))]

/-- A part of a text in which no `\label{` starts adds no name. -/
theorem label_names_skip (b : List Char) :
    ∀ (a : List Char), (∀ j, j < a.length → ¬ label_delim <+: (a ++ b).drop j) →
      label_names (a ++ b) = label_names b := by
  intro a
  induction a with
  | nil => intro _; rfl
  | cons x a' ih =>
    intro h
    have h0 : label_delim.isPrefixOf (x :: (a' ++ b)) = false := by
      cases hp : label_delim.isPrefixOf (x :: (a' ++ b)) with
      | false => rfl
      | true =>
        exfalso
        exact h 0 (by simp) (by simpa using List.isPrefixOf_iff_prefix.mp hp)
    show label_names (x :: (a' ++ b)) = _
    rw [label_names, h0]
    simp only [Bool.false_eq_true, if_false, List.nil_append]
    exact ih (fun j hj => by simpa using h (j + 1) (by simpa using hj))

theorem label_delim_canonical : label_delim ∈ canonical_refs := by
  decide

theorem label_names_free (m : List Char) (h : delimiter_free m) : label_names m = [] := by
  have := label_names_skip [] m (fun j hj =>
    free_no_occurrence label_delim m [] j label_delim_canonical
      (h _ label_delim_canonical) (Or.inl rfl) hj)
  simpa [label_names] using this

/-- A text without `\label{` before a backslash adds no name. -/
theorem label_names_text (t z : List Char) (h : delimiter_free t) :
    label_names (t ++ '\\' :: z) = label_names ('\\' :: z) :=
  label_names_skip _ t (fun j hj =>
    free_no_occurrence label_delim t _ j label_delim_canonical
      (h _ label_delim_canonical) (Or.inr ⟨'\\', z, rfl, Or.inl rfl⟩) hj)

/-- The names of a construct and of what follows it: the inner text of a
`\label{` construct, and the names of the rest. -/
theorem label_names_construct (es inner z : List Char) (hd : '\\' :: es ∈ canonical_refs)
    (hin : delimiter_free inner) (hclose : '}' ∉ inner) :
    label_names ('\\' :: (es ++ (inner ++ '}' :: z))) =
      (if '\\' :: es = label_delim then [inner] else []) ++ label_names z := by
  obtain ⟨es', hes', hes, _, _⟩ := canonical_shape _ hd
  simp only [List.cons.injEq, true_and] at hes'
  subst hes'
  have htail : label_names (es ++ (inner ++ '}' :: z)) = label_names z := by
    rw [show es ++ (inner ++ '}' :: z) = (es ++ (inner ++ ['}'])) ++ z by
      simp [List.append_assoc]]
    apply label_names_skip
    intro j hj
    have := construct_silent label_delim es [] inner label_delim_canonical hes
      (by intro d _ h; simp [List.infix_nil] at h; subst h
          exact absurd ‹_› (by decide))
      hin z (j + 1) (by simpa using hj) (by simp)
    simpa using this
  rw [label_names, htail]
  congr 1
  by_cases hD : '\\' :: es = label_delim
  · have hes6 : es.length = 6 := by
      have := congrArg List.length hD
      simpa [label_delim] using this
    have hp : label_delim.isPrefixOf ('\\' :: (es ++ (inner ++ '}' :: z))) = true := by
      apply List.isPrefixOf_iff_prefix.mpr
      rw [← hD]
      exact ⟨inner ++ '}' :: z, rfl⟩
    rw [hp, if_pos rfl, if_pos hD, List.drop_left' hes6, take_name_first z inner hclose]
  · have hp : label_delim.isPrefixOf ('\\' :: (es ++ (inner ++ '}' :: z))) = false := by
      cases hq : label_delim.isPrefixOf ('\\' :: (es ++ (inner ++ '}' :: z))) with
      | false => rfl
      | true =>
        exfalso
        have h1 := List.isPrefixOf_iff_prefix.mp hq
        exact hD (canonical_prefix_eq ('\\' :: es) label_delim (inner ++ '}' :: z) hd
          label_delim_canonical (by simpa using h1)).symm
    rw [hp, if_neg hD]
    simp

/-- A construct that no brace closes adds no name. -/
theorem label_names_open (es u : List Char) (hd : '\\' :: es ∈ canonical_refs)
    (hu : delimiter_free u) (hclose : '}' ∉ u) :
    label_names ('\\' :: (es ++ u)) = [] := by
  obtain ⟨es', hes', hes, _, _⟩ := canonical_shape _ hd
  simp only [List.cons.injEq, true_and] at hes'
  subst hes'
  have htail : label_names (es ++ u) = [] := by
    have := label_names_skip [] (es ++ u) (fun j hj => by
      intro h
      rw [List.append_nil] at h
      rcases Nat.lt_or_ge j es.length with h1 | h1
      · have hh := occurrence_head _ _ j h
        rw [List.getElem?_append_left h1] at hh
        exact hes (List.getElem?_mem hh)
      · obtain ⟨k, rfl⟩ : ∃ k, j = es.length + k := ⟨j - es.length, by omega⟩
        rw [List.drop_append] at h
        have := free_no_occurrence label_delim u [] k label_delim_canonical
          (hu _ label_delim_canonical) (Or.inl rfl)
          (by simp only [List.length_append] at hj; omega)
        rw [List.append_nil] at this
        exact this h)
    simpa [label_names] using this
  rw [label_names, htail]
  by_cases hD : '\\' :: es = label_delim
  · have hes6 : es.length = 6 := by
      have := congrArg List.length hD
      simpa [label_delim] using this
    have hdrop : (es ++ u).drop 6 = u := List.drop_left' hes6
    rw [hdrop, take_name_none u hclose]
    simp
  · have hp : label_delim.isPrefixOf ('\\' :: (es ++ u)) = false := by
      cases hq : label_delim.isPrefixOf ('\\' :: (es ++ u)) with
      | false => rfl
      | true =>
        exfalso
        have h1 := List.isPrefixOf_iff_prefix.mp hq
        exact hD (canonical_prefix_eq ('\\' :: es) label_delim u hd
          label_delim_canonical (by simpa using h1)).symm
    rw [hp]
    simp

theorem cut_append_mem (b : List Char) :
    ∀ (a : List Char), '%' ∈ a → cut_comment (a ++ b) = cut_comment a := by
  intro a
  induction a with
  | nil => intro h; simp at h
  | cons c cs ih =>
    intro h
    by_cases hc : c = '%'
    · simp [cut_comment, hc]
    · have hcs : '%' ∈ cs := by
        rcases List.mem_cons.mp h with e | e
        · exact absurd e.symm hc
        · exact e
      have := ih hcs
      unfold cut_comment at this ⊢
      simp only [List.cons_append, List.takeWhile_cons, this]

theorem cut_append_not_mem (b : List Char) :
    ∀ (a : List Char), '%' ∉ a → cut_comment (a ++ b) = a ++ cut_comment b := by
  intro a
  induction a with
  | nil => intro _; rfl
  | cons c cs ih =>
    intro h
    have hc : ¬ c = '%' := fun e => h (List.mem_cons.mpr (Or.inl e.symm))
    have := ih (fun e => h (List.mem_cons_of_mem _ e))
    unfold cut_comment at this ⊢
    simp [List.takeWhile_cons, hc, this]

theorem cut_comment_initial (a : List Char) : cut_comment a <+: a :=
  List.takeWhile_prefix _

/-- On a line in which every occurrence of a delimiter starts a closed
construct, the names read off the text of the active portion are the inner texts
of its `\label` constructs. -/
theorem active_label_names_render (ignore_comments : Bool) :
    ∀ (segs : List (Construct × List Char)) (t₀ : List Char), well_formed t₀ segs →
      active_label_names ignore_comments (render t₀ segs) =
        active_labels ignore_comments t₀ segs := by
  intro segs
  induction segs with
  | nil =>
    intro t₀ hwf
    simp only [active_label_names, render, active_labels]
    cases ignore_comments with
    | false => exact label_names_free _ hwf.1
    | true => exact label_names_free _ (delimiter_free_initial _ _ hwf.1 (cut_comment_initial _))
  | cons s rest ih =>
    intro t₀ hwf
    obtain ⟨c, t⟩ := s
    obtain ⟨ht₀, hs⟩ := hwf
    obtain ⟨hc1, hc2, hc3, hc4⟩ := hs (c, t) (List.mem_cons_self _ _)
    simp only at hc1 hc2 hc3 hc4
    have hrest : well_formed t rest :=
      ⟨hc4, fun p hp => hs p (List.mem_cons_of_mem _ hp)⟩
    obtain ⟨es, hes, _, _, hpc⟩ := canonical_shape c.delim hc1
    have hd : '\\' :: es ∈ canonical_refs := by rw [← hes]; exact hc1
    rw [hes] at hpc
    cases ignore_comments with
    | false =>
      have hi := ih t hrest
      simp only [active_label_names, Bool.false_eq_true, if_false] at hi ⊢
      simp only [render, active_labels, Bool.false_eq_true, false_and, if_false, hes]
      rw [List.cons_append, label_names_text _ _ ht₀, label_names_construct es c.inner _ hd hc2 hc3,
        hi]
    | true =>
      have hi := ih t hrest
      simp only [active_label_names, if_true] at hi ⊢
      simp only [render, active_labels, true_and, hes]
      by_cases h1 : '%' ∈ t₀
      · rw [if_pos (Or.inl h1), cut_append_mem _ _ h1]
        exact label_names_free _ (delimiter_free_initial _ _ ht₀ (cut_comment_initial _))
      · rw [cut_append_not_mem _ _ h1, cut_append_not_mem _ _ hpc]
        by_cases h2 : '%' ∈ c.inner
        · rw [if_pos (Or.inr h2), cut_append_mem _ _ h2, List.cons_append,
            label_names_text _ _ ht₀]
          exact label_names_open es _ hd
            (delimiter_free_initial _ _ hc2 (cut_comment_initial _))
            (fun e => hc3 ((cut_comment_initial _).subset e))
        · rw [if_neg (by rintro (h | h); exact h1 h; exact h2 h)]
          have hcut : cut_comment (c.inner ++ '}' :: render t rest) =
              c.inner ++ '}' :: cut_comment (render t rest) := by
            rw [show c.inner ++ '}' :: render t rest = (c.inner ++ ['}']) ++ render t rest by
              simp [List.append_assoc]]
            rw [cut_append_not_mem _ _ (by
              simp only [List.mem_append, List.mem_singleton, not_or]
              exact ⟨h2, by decide⟩)]
            simp [List.append_assoc]
          rw [hcut, List.cons_append, label_names_text _ _ ht₀,
            label_names_construct es c.inner _ hd hc2 hc3, hi]

theorem active_label_names_shapes (ignore_comments : Bool) :
    ∀ (shapes : List (List Char × List (Construct × List Char))),
      (∀ s ∈ shapes, well_formed s.1 s.2) →
      (shapes.map render_line).flatMap (active_label_names ignore_comments) =
        all_active_labels ignore_comments shapes := by
  intro shapes
  induction shapes with
  | nil => intro _; rfl
  | cons s rest ih =>
    intro h
    simp only [List.map_cons, List.flatMap_cons, all_active_labels]
    rw [ih (fun x hx => h x (List.mem_cons_of_mem _ hx))]
    simp only [render_line, all_active_labels]
    rw [active_label_names_render ignore_comments s.2 s.1 (h s (List.mem_cons_self _ _))]

/-- A rewritten line is again a line in which every occurrence of a delimiter
starts a closed construct, when the replacement holds no backslash and no
closing brace. -/
theorem rewritten_well_formed (labels : Table) (pattern_out t₀ : List Char)
    (segs segs' : List (Construct × List Char)) (hwf : well_formed t₀ segs)
    (hrel : List.Forall₂ (rewritten_once labels pattern_out) segs segs')
    (hout : '\\' ∉ pattern_out) (hbrace : '}' ∉ pattern_out) : well_formed t₀ segs' := by
  refine ⟨hwf.1, ?_⟩
  intro p' hp'
  obtain ⟨p, hp, h1, h2, h3⟩ := forall₂_mem_right _ _ _ hrel p' hp'
  obtain ⟨g1, g2, g3, g4⟩ := hwf.2 p hp
  rw [h1, h2]
  refine ⟨g1, ?_, ?_, g4⟩
  · rcases h3 with e | ⟨i, _, e⟩
    · rw [e]; exact g2
    · rw [e]
      apply no_backslash_free
      simp only [List.mem_append, not_or]
      exact ⟨hout, to_string_no_backslash i⟩
  · rcases h3 with e | ⟨i, _, e⟩
    · rw [e]; exact g3
    · rw [e]
      simp only [List.mem_append, not_or]
      exact ⟨hbrace, to_string_no_brace i⟩

/-- The input `\label{eq:a}` / `\label{E1}` with the prefix `eq:` and the
replacement `E`: the run succeeds, the two names `eq:a` and `E1` of the input are
distinct, and the output defines `E1` twice. -/
theorem renaming_collides_with_foreign_label :
    literal pat_eq ∧
    (getlines input_foreign).flatMap (active_label_names true) = [eq_a, name_E1] ∧
    ((getlines input_foreign).flatMap (active_label_names true)).Nodup ∧
    (main 64 input_foreign pat_eq ['E'] true).status = Status.success ∧
    (main 64 input_foreign pat_eq ['E'] true).output =
      [label_delim ++ name_E1 ++ ['}'], label_delim ++ name_E1 ++ ['}']] ∧
    ¬ ((main 64 input_foreign pat_eq ['E'] true).output.flatMap
      (active_label_names true)).Nodup := by
  decide

/-- The input `\label{E100}\label{E1}` with the prefix `E` and the replacement
`E`: the first name becomes `E1`, the search goes on behind the second
`\label{`, and the output defines `E1` twice. -/
theorem renaming_collides_after_skip :
    literal ['E'] ∧
    ((getlines input_skip).flatMap (active_label_names true)).Nodup ∧
    build_labels input_skip ['E'] true = some ([(name_E1, 2), (name_E100, 1)], []) ∧
    (main 64 input_skip ['E'] ['E'] true).status = Status.success ∧
    (main 64 input_skip ['E'] ['E'] true).output =
      [label_delim ++ name_E1 ++ ['}'] ++ (label_delim ++ name_E1 ++ ['}'])] ∧
    ¬ ((main 64 input_skip ['E'] ['E'] true).output.flatMap
      (active_label_names true)).Nodup := by
  decide

/-- A closing brace as the replacement: the input `\label{eq:a}` / `\label{eq:b}`
with the prefix `eq:` comes back as `\label{}1}` / `\label{}2}`, in which the
first closing brace ends the empty name twice. -/
theorem renaming_collides_with_brace :
    ((getlines input_ab).flatMap (active_label_names true)).Nodup ∧
    (main 64 input_ab pat_eq ['}'] true).status = Status.success ∧
    (main 64 input_ab pat_eq ['}'] true).output =
      [label_delim ++ ['}', '1', '}'], label_delim ++ ['}', '2', '}']] ∧
    (main 64 input_ab pat_eq ['}'] true).output.flatMap (active_label_names true) =
      [[], []] := by
  decide

/-- A reference inside the name of a definition: the input `\label{eq:a}` /
`\label{x\ref{eq:a}` / `\label{x\ref{E1}` with the prefix `eq:` and the
replacement `E` has three distinct names, none of them `E1`, and the output
defines `x\ref{E1` twice. -/
theorem renaming_collides_nested :
    (getlines input_nested_names).flatMap (active_label_names true) =
      [eq_a, name_x_ref_a, name_x_ref_E1] ∧
    ((getlines input_nested_names).flatMap (active_label_names true)).Nodup ∧
    (main 64 input_nested_names pat_eq ['E'] true).status = Status.success ∧
    (main 64 input_nested_names pat_eq ['E'] true).output.flatMap (active_label_names true) =
      [name_E1, name_x_ref_E1, name_x_ref_E1] := by
  decide

/-- C23, amended. Renaming never makes labels collide when no name of the input
is a generated name: for every input in which each occurrence of one of the four
delimiters starts a construct that is closed by a brace on its line, with no
occurrence of a delimiter in its inner text, every literal prefix and every
replacement without backslash and closing brace on which the run succeeds, if
the names of the `\label{...}` definitions in the active portions of the input
are pairwise distinct and none of them is the replacement followed by an index of
the table, then the names of the `\label{...}` definitions in the active portions
of the output are pairwise distinct, those left unchanged included; the names
are read off the text, each ending at the first closing brace. -/
theorem renamed_labels_distinct (fuel : Nat) (input pattern_in pattern_out : List Char)
    (ignore_comments : Bool) (shapes : List (List Char × List (Construct × List Char)))
    (t : Table) (w : List Diag) (_hlit : literal pattern_in) (hout : '\\' ∉ pattern_out)
    (hbrace : '}' ∉ pattern_out)
    (hin : getlines input = shapes.map render_line)
    (hwf : ∀ s ∈ shapes, well_formed s.1 s.2 ∧ s.2.length < fuel)
    (hb : build_labels input pattern_in ignore_comments = some (t, w))
    (hs : (main fuel input pattern_in pattern_out ignore_comments).status = Status.success)
    (hdistinct : ((getlines input).flatMap (active_label_names ignore_comments)).Nodup)
    (hfresh : ∀ a ∈ (getlines input).flatMap (active_label_names ignore_comments), ∀ p ∈ t,
      a ≠ pattern_out ++ to_string p.2) :
    ((main fuel input pattern_in pattern_out ignore_comments).output.flatMap
        (active_label_names ignore_comments)).Nodup ∧
      ∃ shapes', (main fuel input pattern_in pattern_out ignore_comments).output =
          shapes'.map render_line ∧
        List.Forall₂ (rewritten_line t pattern_out) shapes shapes' := by
  obtain ⟨hinj, hkeys⟩ := build_labels_keys input pattern_in ignore_comments t w hb
  obtain ⟨shapes', diags', h1, h2⟩ := rewrite_lines_shapes fuel pattern_in pattern_out t
    ignore_comments hout shapes 1 [] w hwf
  have hmain : (main fuel input pattern_in pattern_out ignore_comments).output =
      shapes'.map render_line := by
    unfold main at hs ⊢
    rw [hb] at hs ⊢
    simp only at hs ⊢
    split
    · rename_i he
      rw [if_pos he] at hs
      simp at hs
    · rw [hin, h1]
      simp
  have hwf' : ∀ s' ∈ shapes', well_formed s'.1 s'.2 := by
    intro s' hs'
    obtain ⟨s, hs0, e1, e2⟩ := forall₂_mem_right _ _ _ h2 s' hs'
    have := rewritten_well_formed t pattern_out s.1 s.2 s'.2 (hwf s hs0).1 e2 hout hbrace
    rw [e1]
    exact this
  rw [hin, active_label_names_shapes ignore_comments shapes (fun s hs0 => (hwf s hs0).1)]
    at hdistinct hfresh
  refine ⟨?_, shapes', hmain, h2⟩
  rw [hmain, active_label_names_shapes ignore_comments shapes' hwf']
  obtain ⟨l, hl1, hl2⟩ := all_active_labels_renamed t pattern_out ignore_comments hkeys _ _ h2
  apply renamed_nodup t pattern_out hinj l _ hl2 (hdistinct.sublist hl1)
  intro a ha k i hk
  exact hfresh a (hl1.subset ha) (k, i) (mem_of_map_find t k i hk)

/-- The input `\begin{equation}\label{eq:a}` / `\label{fig:x} % \label{eq:a}`
with the prefix `eq:` and the replacement `E` is an instance of the amended C23:
the names `eq:a` and `fig:x` of the active portions become `E1` and `fig:x`. -/
theorem renamed_labels_distinct_witness :
    literal pat_eq ∧
    getlines input_two_namespaces = two_namespaces_shapes.map render_line ∧
    (main 64 input_two_namespaces pat_eq ['E'] true).status = Status.success ∧
    (getlines input_two_namespaces).flatMap (active_label_names true) =
      [eq_a, ['f', 'i', 'g', ':', 'x']] ∧
    (main 64 input_two_namespaces pat_eq ['E'] true).output.flatMap (active_label_names true) =
      [name_E1, ['f', 'i', 'g', ':', 'x']] ∧
    (((main 64 input_two_namespaces pat_eq ['E'] true).output.flatMap
        (active_label_names true)).Nodup ∧
      ∃ shapes', (main 64 input_two_namespaces pat_eq ['E'] true).output =
          shapes'.map render_line ∧
        List.Forall₂ (rewritten_line table_a ['E']) two_namespaces_shapes shapes') :=
  ⟨by decide, by decide, by decide, by decide, by decide,
    renamed_labels_distinct 64 input_two_namespaces pat_eq ['E'] true two_namespaces_shapes
      table_a [] (by decide) (by decide) (by decide) (by decide) (by decide) (by decide)
      (by decide) (by decide) (by decide)⟩

end Cpptexnumber
